import Mathlib

/-!
# go-tiled object rendering: depth sort and upper-tile clipping

A shallow embedding of `render/render_objects.go` (and of the identical sorter of
`internal/utils/utils.go`).  Slices are lists; `float64` values are exact rationals, so NaN,
the infinities and rounding are outside the embedding, and so is a tile height of zero; the
mutable canvas and the map are passed explicitly as state, and a method returns the new state
along with its error (`none` for `nil`).

The Go standard library routine `sort.Sort`, on which `SortAny` rests, is embedded from the
pattern-defeating quicksort of the `sort` package (go1.19 and later); it drives the slice only
through the `Len`, `Less` and `Swap` methods of `Sortable`.
-/

namespace GoTiled

/-! ## `Sortable`: the `sort.Interface` adapter of `SortAny` -/

/-- The struct `Sortable[T]`: a slice together with its comparison function. -/
structure Sortable (T : Type) where
  Data : List T
  LessMethod : T → T → Bool

namespace Sortable

variable {T : Type}

/-- Method `Swap`: exchange `Data[i]` and `Data[j]` in place.  (With an index out of range, a
run-time panic in Go, the slice is left as it is.) -/
def Swap (s : Sortable T) (i j : Nat) : Sortable T :=
  match s.Data[i]?, s.Data[j]? with
  | some tmp, some y => { s with Data := (s.Data.set i y).set j tmp }
  | _, _ => s

/-- Method `Less`: `LessMethod(Data[i], Data[j])`.  (With an index out of range, a run-time
panic in Go, the answer is `false`.) -/
def Less (s : Sortable T) (i j : Nat) : Bool :=
  match s.Data[i]?, s.Data[j]? with
  | some x, some y => s.LessMethod x y
  | _, _ => false

/-- Method `Len`: `len(Data)`. -/
def Len (s : Sortable T) : Nat := s.Data.length

end Sortable

/-! ## The `sort` package: `sort.Sort` (pdqsort) -/

namespace GoSort

variable {T : Type}

/-- Inner loop of `insertionSort`: `for j := i; j > a && data.Less(j, j-1); j--`. -/
def insertionInner (a : Nat) : Nat → Sortable T → Sortable T
  | 0, data => data
  | j + 1, data =>
    if a < j + 1 && data.Less (j + 1) j then insertionInner a j (data.Swap (j + 1) j)
    else data

/-- Outer loop of `insertionSort`: `for i := a + 1; i < b; i++`, with `n` bounding the
number of iterations left. -/
def insertionOuter (a b : Nat) : Nat → Nat → Sortable T → Sortable T
  | 0, _, data => data
  | n + 1, i, data =>
    if i < b then insertionOuter a b n (i + 1) (insertionInner a i data) else data

/-- Function `insertionSort`: sorts `data[a:b]` by insertion. -/
def insertionSort (data : Sortable T) (a b : Nat) : Sortable T :=
  insertionOuter a b (b - (a + 1)) (a + 1) data

/-- The loop of `siftDown`, started at `root`; `n` bounds the number of iterations. -/
def siftDownLoop (hi first : Nat) : Nat → Nat → Sortable T → Sortable T
  | 0, _, data => data
  | n + 1, root, data =>
    let child := 2 * root + 1
    if hi ≤ child then data
    else
      let child :=
        if child + 1 < hi && data.Less (first + child) (first + child + 1) then child + 1
        else child
      if !data.Less (first + root) (first + child) then data
      else siftDownLoop hi first n child (data.Swap (first + root) (first + child))

/-- Function `siftDown`: restores the heap property on `data[lo:hi]` (offset `first`). -/
def siftDown (data : Sortable T) (lo hi first : Nat) : Sortable T :=
  siftDownLoop hi first hi lo data

/-- First loop of `heapSort`: `for i := (hi - 1) / 2; i >= 0; i--`. -/
def heapBuild (hi first : Nat) : Nat → Sortable T → Sortable T
  | 0, data => siftDown data 0 hi first
  | i + 1, data => heapBuild hi first i (siftDown data (i + 1) hi first)

/-- Second loop of `heapSort`: `for i := hi - 1; i >= 0; i--`; the argument is `i + 1`. -/
def heapPop (first : Nat) : Nat → Sortable T → Sortable T
  | 0, data => data
  | i + 1, data => heapPop first i (siftDown (data.Swap first (first + i)) 0 i first)

/-- Function `heapSort`: sorts `data[a:b]` with a binary heap. -/
def heapSort (data : Sortable T) (a b : Nat) : Sortable T :=
  let first := a
  let hi := b - a
  heapPop first hi (heapBuild hi first ((hi - 1) / 2) data)

/-- The type `sortedHint` of `choosePivot`. -/
inductive sortedHint where
  | unknownHint
  | increasingHint
  | decreasingHint
  deriving DecidableEq, Repr

/-- Function `order2`: the two indices in order, counting a swap when they are exchanged. -/
def order2 (data : Sortable T) (a b swaps : Nat) : Nat × Nat × Nat :=
  if data.Less b a then (b, a, swaps + 1) else (a, b, swaps)

/-- Function `median`: index of the median of `data[a], data[b], data[c]`. -/
def median (data : Sortable T) (a b c swaps : Nat) : Nat × Nat :=
  let (a, b, swaps) := order2 data a b swaps
  let (b, _, swaps) := order2 data b c swaps
  let (_, b, swaps) := order2 data a b swaps
  (b, swaps)

/-- Function `medianAdjacent`: median of `data[a-1], data[a], data[a+1]`. -/
def medianAdjacent (data : Sortable T) (a swaps : Nat) : Nat × Nat :=
  median data (a - 1) a (a + 1) swaps

/-- Function `choosePivot`: a static pivot below 8 elements, median of three below 50,
Tukey ninther from 50 on. -/
def choosePivot (data : Sortable T) (a b : Nat) : Nat × sortedHint :=
  let l := b - a
  let i := a + l / 4 * 1
  let j := a + l / 4 * 2
  let k := a + l / 4 * 3
  let r : Nat × Nat :=
    if 8 ≤ l then
      if 50 ≤ l then
        let mi := medianAdjacent data i 0
        let mj := medianAdjacent data j mi.2
        let mk := medianAdjacent data k mj.2
        median data mi.1 mj.1 mk.1 mk.2
      else median data i j k 0
    else (j, 0)
  if r.2 = 0 then (r.1, sortedHint.increasingHint)
  else if r.2 = 4 * 3 then (r.1, sortedHint.decreasingHint)
  else (r.1, sortedHint.unknownHint)

/-- The loop of `reverseRange`: `for i < j { Swap(i, j); i++; j-- }`. -/
def reverseLoop : Nat → Nat → Nat → Sortable T → Sortable T
  | 0, _, _, data => data
  | n + 1, i, j, data =>
    if i < j then reverseLoop n (i + 1) (j - 1) (data.Swap i j) else data

/-- Function `reverseRange`: reverses `data[a:b]`. -/
def reverseRange (data : Sortable T) (a b : Nat) : Sortable T :=
  reverseLoop (b - a) a (b - 1) data

/-- Method `Next` of `xorshift`, on 64-bit words; `breakPatterns` draws from it the positions
of three swaps. -/
def xorshiftNext (r : Nat) : Nat :=
  let r := r ^^^ ((r <<< 13) % 2 ^ 64)
  let r := r ^^^ (r >>> 7)
  let r := r ^^^ ((r <<< 17) % 2 ^ 64)
  r

/-- Function `bits.Len`: the number of bits needed to write `n`. -/
def bitsLen (n : Nat) : Nat := if n = 0 then 0 else Nat.log2 n + 1

/-- Function `nextPowerOfTwo`. -/
def nextPowerOfTwo (length : Nat) : Nat := 1 <<< bitsLen length

/-- The three swaps of `breakPatterns`, at the positions `idx - 1`, `idx` and `idx + 1`; the
argument counts the iterations left. -/
def breakLoop (a length idx modulus : Nat) : Nat → Nat → Nat → Sortable T → Sortable T
  | 0, _, _, data => data
  | n + 1, i, random, data =>
    let random := xorshiftNext random
    let other := random &&& (modulus - 1)
    let other := if length ≤ other then other - length else other
    breakLoop a length idx modulus n (i + 1) random (data.Swap (idx - 1 + i) (a + other))

/-- Function `breakPatterns`: exchanges the three elements around the middle
`a + (length / 4) * 2` of the slice with elements drawn by `xorshift`. -/
def breakPatterns (data : Sortable T) (a b : Nat) : Sortable T :=
  let length := b - a
  if 8 ≤ length then
    breakLoop a length (a + length / 4 * 2) (nextPowerOfTwo length) 3 0 length data
  else data

/-- Loop `for i <= j && data.Less(i, a) { i++ }` of `partition`. -/
def scanLessUp (data : Sortable T) (a j : Nat) : Nat → Nat → Nat
  | 0, i => i
  | n + 1, i => if i ≤ j && data.Less i a then scanLessUp data a j n (i + 1) else i

/-- Loop `for i <= j && !data.Less(j, a) { j-- }` of `partition`; it is run with `i > a >= 0`,
so at `j = 0` the test `i <= j` fails and the loop has ended. -/
def scanGeDown (data : Sortable T) (a i : Nat) : Nat → Nat
  | 0 => 0
  | j + 1 => if i ≤ j + 1 && !data.Less (j + 1) a then scanGeDown data a i j else j + 1

/-- The final `for` loop of `partition`; returns the slice and the final `j`. -/
def partitionLoop (a : Nat) : Nat → Nat → Nat → Sortable T → Sortable T × Nat
  | 0, _, j, data => (data, j)
  | n + 1, i, j, data =>
    let i := scanLessUp data a j (j + 1 - i) i
    let j := scanGeDown data a i j
    if j < i then (data, j)
    else partitionLoop a n (i + 1) (j - 1) (data.Swap i j)

/-- Function `partition`: one quicksort partition around `data[pivot]`; returns the slice,
the new pivot index and whether the slice was already partitioned. -/
def partition (data : Sortable T) (a b pivot : Nat) : Sortable T × Nat × Bool :=
  let data := data.Swap a pivot
  let i := a + 1
  let j := b - 1
  let i := scanLessUp data a j (j + 1 - i) i
  let j := scanGeDown data a i j
  if j < i then ((data.Swap j a), j, true)
  else
    let data := data.Swap i j
    let r := partitionLoop a (b - a) (i + 1) (j - 1) data
    (r.1.Swap r.2 a, r.2, false)

/-- Loop `for i <= j && !data.Less(a, i) { i++ }` of `partitionEqual`. -/
def scanEqUp (data : Sortable T) (a j : Nat) : Nat → Nat → Nat
  | 0, i => i
  | n + 1, i => if i ≤ j && !data.Less a i then scanEqUp data a j n (i + 1) else i

/-- Loop `for i <= j && data.Less(a, j) { j-- }` of `partitionEqual`; it is run with
`i > a >= 0`, so at `j = 0` the test `i <= j` fails and the loop has ended. -/
def scanGtDown (data : Sortable T) (a i : Nat) : Nat → Nat
  | 0 => 0
  | j + 1 => if i ≤ j + 1 && data.Less a (j + 1) then scanGtDown data a i j else j + 1

/-- The `for` loop of `partitionEqual`; returns the slice and the final `i`. -/
def partitionEqualLoop (a : Nat) : Nat → Nat → Nat → Sortable T → Sortable T × Nat
  | 0, i, _, data => (data, i)
  | n + 1, i, j, data =>
    let i := scanEqUp data a j (j + 1 - i) i
    let j := scanGtDown data a i j
    if j < i then (data, i)
    else partitionEqualLoop a n (i + 1) (j - 1) (data.Swap i j)

/-- Function `partitionEqual`: elements equal to the pivot first, greater ones after. -/
def partitionEqual (data : Sortable T) (a b pivot : Nat) : Sortable T × Nat :=
  let data := data.Swap a pivot
  partitionEqualLoop a (b - a) (a + 1) (b - 1) data

/-- Loop `for i < b && !data.Less(i, i-1) { i++ }` of `partialInsertionSort`. -/
def scanSorted (data : Sortable T) (b : Nat) : Nat → Nat → Nat
  | 0, i => i
  | n + 1, i => if i < b && !data.Less i (i - 1) then scanSorted data b n (i + 1) else i

/-- Loop `for j := i - 1; j >= 1; j--` of `partialInsertionSort` (shift the smaller one to the
left). -/
def shiftLeft : Nat → Sortable T → Sortable T
  | 0, data => data
  | j + 1, data => if !data.Less (j + 1) j then data else shiftLeft j (data.Swap (j + 1) j)

/-- Loop `for j := i + 1; j < b; j++` of `partialInsertionSort` (shift the greater one to the
right). -/
def shiftRight (b : Nat) : Nat → Nat → Sortable T → Sortable T
  | 0, _, data => data
  | n + 1, j, data =>
    if j < b then
      if !data.Less j (j - 1) then data else shiftRight b n (j + 1) (data.Swap j (j - 1))
    else data

/-- The `maxSteps` loop of `partialInsertionSort`. -/
def partialInsertionLoop (a b : Nat) : Nat → Nat → Sortable T → Sortable T × Bool
  | 0, _, data => (data, false)
  | n + 1, i, data =>
    let i := scanSorted data b (b - i) i
    if i = b then (data, true)
    else if b - a < 50 then (data, false)
    else
      let data := data.Swap i (i - 1)
      let data := if 2 ≤ i - a then shiftLeft (i - 1) data else data
      let data := if 2 ≤ b - i then shiftRight b (b - (i + 1)) (i + 1) data else data
      partialInsertionLoop a b n i data

/-- Function `partialInsertionSort`: partially sorts `data[a:b]`; `true` when it ends sorted. -/
def partialInsertionSort (data : Sortable T) (a b : Nat) : Sortable T × Bool :=
  partialInsertionLoop a b 5 (a + 1) data

/-- The state of one iteration of the loop of `pdqsort` when it reaches the partitioning: the
slice, the remaining `limit`, the chosen `pivot`, and whether `partialInsertionSort` has
already reported the slice sorted. -/
structure Prepared (T : Type) where
  data : Sortable T
  limit : Nat
  pivot : Nat
  sorted : Bool

/-- The first half of one iteration of the loop of `pdqsort`: `breakPatterns` after an
unbalanced partition, `choosePivot`, the reversal of a decreasing slice, and
`partialInsertionSort` on a slice that looks sorted. -/
def pdqsortPrepare (data : Sortable T) (a b limit : Nat) (wasBalanced wasPartitioned : Bool) :
    Prepared T :=
  let data := if !wasBalanced then breakPatterns data a b else data
  let limit := if !wasBalanced then limit - 1 else limit
  let ph := choosePivot data a b
  let decreasing := decide (ph.2 = sortedHint.decreasingHint)
  let data := if decreasing then reverseRange data a b else data
  let pivot := if decreasing then (b - 1) - (ph.1 - a) else ph.1
  let hint := if decreasing then sortedHint.increasingHint else ph.2
  let pis :=
    if wasBalanced && wasPartitioned && decide (hint = sortedHint.increasingHint) then
      partialInsertionSort data a b
    else (data, false)
  { data := pis.1, limit := limit, pivot := pivot, sorted := pis.2 }

/-- Function `pdqsort`: sorts `data[a:b]`.  The `for` loop and the recursive call both take one
unit of `fuel`, and both go on with a shorter slice, so `b - a` units are enough;
`wasBalanced` and `wasPartitioned` are the loop's local flags. -/
def pdqsort : Nat → Sortable T → Nat → Nat → Nat → Bool → Bool → Sortable T
  | 0, data, _, _, _, _, _ => data
  | fuel + 1, data, a, b, limit, wasBalanced, wasPartitioned =>
    let length := b - a
    if length ≤ 12 then insertionSort data a b
    else if limit = 0 then heapSort data a b
    else
      let pre := pdqsortPrepare data a b limit wasBalanced wasPartitioned
      if pre.sorted then pre.data
      else if 0 < a && !pre.data.Less (a - 1) pre.pivot then
        let pe := partitionEqual pre.data a b pre.pivot
        pdqsort fuel pe.1 pe.2 b pre.limit wasBalanced wasPartitioned
      else
        let pt := partition pre.data a b pre.pivot
        let mid := pt.2.1
        let leftLen := mid - a
        let rightLen := b - mid
        let balanceThreshold := length / 8
        if leftLen < rightLen then
          pdqsort fuel (pdqsort fuel pt.1 a mid pre.limit true true) (mid + 1) b pre.limit
            (decide (balanceThreshold ≤ leftLen)) pt.2.2
        else
          pdqsort fuel (pdqsort fuel pt.1 (mid + 1) b pre.limit true true) a mid pre.limit
            (decide (balanceThreshold ≤ rightLen)) pt.2.2

/-- Function `sort.Sort`: `n := data.Len()`, then `pdqsort(data, 0, n, bits.Len(n))`. -/
def sort_Sort (data : Sortable T) : Sortable T :=
  let n := data.Len
  if n ≤ 1 then data
  else pdqsort n data 0 n (bitsLen n) true true

end GoSort

/-- Function `SortAny`: wraps the slice in a `Sortable`, runs `sort.Sort`, returns `s.Data`. -/
def SortAny {T : Type} (data : List T) (lessMethod : T → T → Bool) : List T :=
  let s : Sortable T := { Data := data, LessMethod := lessMethod }
  (GoSort.sort_Sort s).Data

/-- Function `SortAnySlice` of `internal/utils`: the same three lines over the struct
`sortable`, which has the fields and the methods `Swap`, `Less` and `Len` of `Sortable` under
lower-case field names. -/
def SortAnySlice {T : Type} (data : List T) (lessMethod : T → T → Bool) : List T :=
  let s : Sortable T := { Data := data, LessMethod := lessMethod }
  (GoSort.sort_Sort s).Data

/-! ## The types `float64` and `int`

A finite `float64` value is the rational number it stands for (the sign of a zero plays no part
in the rendering file).  A value computed by the rendering file that need not be finite is an
`Option ℚ`: `none` is an infinity or a NaN.  The operations round as IEEE 754 prescribes, each
on its own, as in the code the gc compiler emits for amd64 (no fused multiply-add). -/

/-- The smallest value of the 64-bit type `int`. -/
def minInt : Int := -9223372036854775808

/-- The largest value of the 64-bit type `int`. -/
def maxInt : Int := 9223372036854775807

/-- The rational `f` with its fractional part dropped (toward zero). -/
def truncate (f : ℚ) : Int := if 0 ≤ f then ⌊f⌋ else ⌈f⌉

/-- Conversion `int(f)` of a finite `float64`: the fractional part is dropped (toward zero).
When the result does not fit the type `int`, the language leaves the value to the
implementation; the gc compiler on amd64 gives the smallest `int`, which is what is modelled. -/
def toInt (f : ℚ) : Int :=
  if minInt ≤ truncate f ∧ truncate f ≤ maxInt then truncate f else minInt

namespace F64

/-- The number of halvings that bring `n` below 2, at most `fuel` of them. -/
def log2Loop : Nat → Nat → Nat
  | 0, _ => 0
  | fuel + 1, n => if n < 2 then 0 else log2Loop fuel (n / 2) + 1

/-- The binary logarithm of `n`, rounded down (0 for `n = 0`). -/
def log2 (n : Nat) : Nat := log2Loop n n

/-- The binary exponent of the positive rational `n / d`: the integer `e` with
`2 ^ e <= n / d < 2 ^ (e + 1)`. -/
def exponent (n d : Nat) : Int :=
  let e0 : Int := (log2 n : Int) - (log2 d : Int)
  if d * 2 ^ e0.toNat ≤ n * 2 ^ (-e0).toNat then e0 else e0 - 1

/-- The integer nearest to `N / D`, a tie going to the even one. -/
def roundHalfEven (N D : Nat) : Nat :=
  let m := N / D
  let r := N % D
  if 2 * r < D then m else if D < 2 * r then m + 1 else if m % 2 = 0 then m else m + 1

/-- The positive rational `n / d` rounded to a `float64`: the significand `m` and the exponent
`p` of the nearest value `m * 2 ^ p` that has at most 53 significant bits and `p >= -1074`
(gradual underflow), a tie going to the even significand. -/
def roundMag (n d : Nat) : Nat × Int :=
  let p : Int := max (exponent n d - 52) (-1074)
  (roundHalfEven (n * 2 ^ (-p).toNat) (d * 2 ^ p.toNat), p)

/-- The `float64` nearest to the rational `q` (round to nearest, ties to even): the result of
a `float64` operation whose exact result is `q`; `none` when `q` is so large that the result is
an infinity. -/
def round (q : ℚ) : Option ℚ :=
  if q = 0 then some 0
  else
    let mp := roundMag q.num.natAbs q.den
    if 2 ^ 1024 ≤ mp.1 * 2 ^ mp.2.toNat then none
    else
      let mag : ℚ := mkRat (mp.1 * 2 ^ mp.2.toNat) (2 ^ (-mp.2).toNat)
      some (if q < 0 then -mag else mag)

/-- Conversion `float64(n)` of an `int`. -/
def ofInt (n : Int) : Option ℚ := round n

/-- The difference `a - b` of two `float64` values; it is not finite when one of them is not. -/
def sub (a b : Option ℚ) : Option ℚ :=
  match a, b with
  | some x, some y => round (x - y)
  | _, _ => none

/-- The product `a * b` of two `float64` values; it is not finite when one of them is not. -/
def mul (a b : Option ℚ) : Option ℚ :=
  match a, b with
  | some x, some y => round (x * y)
  | _, _ => none

/-- The quotient `x / y` of two finite `float64` values; a division by zero gives an infinity or
a NaN. -/
def div (x y : ℚ) : Option ℚ := if y = 0 then none else round (x / y)

/-- Function `math.Floor`; the floor of a `float64` is a `float64`. -/
def floor (a : Option ℚ) : Option ℚ := a.map fun x => ((⌊x⌋ : Int) : ℚ)

/-- Conversion `int(f)` of a `float64` that need not be finite: an infinity and a NaN do not fit
the type `int` and give, like every value that does not fit, the smallest `int`. -/
def toInt (a : Option ℚ) : Int :=
  match a with
  | some x => GoTiled.toInt x
  | none => minInt

end F64

/-! ## Packages `image`, `image/color` and `image/draw` -/

/-- Conversion `uint8(f)` of a `float64` in range: the fractional part is dropped. -/
def toUint8 (f : ℚ) : Nat := (toInt f % 256).toNat

/-- Type `image.Point`. -/
structure Point where
  X : Int
  Y : Int
  deriving DecidableEq, Repr

/-- Function `image.Pt`. -/
def Pt (X Y : Int) : Point := { X := X, Y := Y }

namespace Point

/-- Method `Add` of `image.Point`. -/
def Add (p q : Point) : Point := { X := p.X + q.X, Y := p.Y + q.Y }

/-- Method `Sub` of `image.Point`. -/
def Sub (p q : Point) : Point := { X := p.X - q.X, Y := p.Y - q.Y }

/-- Method `Eq` of `image.Point`. -/
def Eq (p q : Point) : Bool := decide (p = q)

end Point

/-- Type `image.Rectangle`: the points with `Min.X <= x < Max.X` and `Min.Y <= y < Max.Y`. -/
structure Rectangle where
  Min : Point
  Max : Point
  deriving DecidableEq, Repr

/-- The zero rectangle `image.ZR`. -/
def ZR : Rectangle := { Min := Pt 0 0, Max := Pt 0 0 }

namespace Rectangle

/-- Method `Dx`: the width. -/
def Dx (r : Rectangle) : Int := r.Max.X - r.Min.X

/-- Method `Dy`: the height. -/
def Dy (r : Rectangle) : Int := r.Max.Y - r.Min.Y

/-- Method `Size`. -/
def Size (r : Rectangle) : Point := { X := r.Max.X - r.Min.X, Y := r.Max.Y - r.Min.Y }

/-- Method `Add`: the rectangle translated by `p`. -/
def Add (r : Rectangle) (p : Point) : Rectangle :=
  { Min := { X := r.Min.X + p.X, Y := r.Min.Y + p.Y },
    Max := { X := r.Max.X + p.X, Y := r.Max.Y + p.Y } }

/-- Method `Empty`: whether the rectangle contains no points. -/
def Empty (r : Rectangle) : Bool := decide (r.Max.X ≤ r.Min.X) || decide (r.Max.Y ≤ r.Min.Y)

/-- Method `Intersect`: the largest rectangle contained by both, `ZR` when they do not
overlap. -/
def Intersect (r s : Rectangle) : Rectangle :=
  let r : Rectangle :=
    { Min := { X := if r.Min.X < s.Min.X then s.Min.X else r.Min.X,
               Y := if r.Min.Y < s.Min.Y then s.Min.Y else r.Min.Y },
      Max := { X := if s.Max.X < r.Max.X then s.Max.X else r.Max.X,
               Y := if s.Max.Y < r.Max.Y then s.Max.Y else r.Max.Y } }
  if r.Empty then ZR else r

/-- Whether the point `(x, y)` lies in the rectangle (`Point.In`). -/
def Contains (r : Rectangle) (x y : Int) : Bool :=
  decide (r.Min.X ≤ x) && decide (x < r.Max.X) && decide (r.Min.Y ≤ y) && decide (y < r.Max.Y)

end Rectangle

/-- Type `color.NRGBA`: 8-bit channels, alpha not premultiplied. -/
structure NRGBA where
  R : Nat
  G : Nat
  B : Nat
  A : Nat
  deriving DecidableEq, Repr

/-- Type `color.RGBA64`: 16-bit channels, alpha premultiplied. -/
structure RGBA64 where
  R : Nat
  G : Nat
  B : Nat
  A : Nat
  deriving DecidableEq, Repr

/-- Method `RGBA` of `color.NRGBA`: the alpha-premultiplied 16-bit channels. -/
def NRGBA.RGBA (c : NRGBA) : RGBA64 :=
  { R := c.R * 0x101 * c.A / 0xff,
    G := c.G * 0x101 * c.A / 0xff,
    B := c.B * 0x101 * c.A / 0xff,
    A := c.A * 0x101 }

/-- Function `nrgbaModel` of `image/color`: conversion back to 8-bit non-premultiplied. -/
def nrgbaModel (c : RGBA64) : NRGBA :=
  if c.A = 0xffff then { R := c.R >>> 8 % 256, G := c.G >>> 8 % 256, B := c.B >>> 8 % 256, A := 0xff }
  else if c.A = 0 then { R := 0, G := 0, B := 0, A := 0 }
  else
    { R := (c.R * 0xffff / c.A) >>> 8 % 256,
      G := (c.G * 0xffff / c.A) >>> 8 % 256,
      B := (c.B * 0xffff / c.A) >>> 8 % 256,
      A := c.A >>> 8 % 256 }

/-- Modelled from the spec: a Sprite is an immutable 2-D grid of RGBA pixels with a width and a
height in pixels (the type `image.Image` returned by `GetTileImage`, which is not part of the
rendering file); its bounds start at the origin, and `At` is transparent outside them. -/
structure Image where
  W : Nat
  H : Nat
  Pix : Int → Int → NRGBA

namespace Image

/-- Method `Bounds`. -/
def Bounds (img : Image) : Rectangle := { Min := Pt 0 0, Max := Pt img.W img.H }

/-- Method `At`: the pixel at `(x, y)`, the zero colour outside the bounds. -/
def At (img : Image) (x y : Int) : NRGBA :=
  if img.Bounds.Contains x y then img.Pix x y else { R := 0, G := 0, B := 0, A := 0 }

end Image

/-- The canvas `r.Result`, an `*image.NRGBA`: its rectangle and its pixels. -/
structure Canvas where
  Rect : Rectangle
  Pix : Int → Int → NRGBA

namespace Canvas

/-- Method `Bounds`. -/
def Bounds (c : Canvas) : Rectangle := c.Rect

end Canvas

/-- Type `image.Uniform` holding a `color.Alpha`: an unbounded image of one alpha value. -/
structure Uniform where
  A : Nat
  deriving DecidableEq, Repr

namespace Uniform

/-- Method `Bounds` of `image.Uniform`. -/
def Bounds (_ : Uniform) : Rectangle :=
  { Min := Pt (-1000000000) (-1000000000), Max := Pt 1000000000 1000000000 }

/-- The alpha channel of `mask.At(x, y).RGBA()` for a `color.Alpha`. -/
def Alpha16 (m : Uniform) : Nat := m.A * 0x101

end Uniform

/-- Function `image.NewUniform(color.Alpha{a})`. -/
def NewUniform (a : Nat) : Uniform := { A := a }

/-- Function `clip` of `image/draw`: clips `r` against the destination, the source and the mask
and moves `sp` and `mp` along. -/
def clip (dst : Canvas) (r : Rectangle) (src : Image) (sp : Point) (mask : Option Uniform)
    (mp : Point) : Rectangle × Point × Point :=
  let orig := r.Min
  let r := r.Intersect dst.Bounds
  let r := r.Intersect (src.Bounds.Add (orig.Sub sp))
  let r :=
    match mask with
    | some m => r.Intersect (m.Bounds.Add (orig.Sub mp))
    | none => r
  let dx := r.Min.X - orig.X
  let dy := r.Min.Y - orig.Y
  if dx = 0 ∧ dy = 0 then (r, sp, mp)
  else (r, { X := sp.X + dx, Y := sp.Y + dy }, { X := mp.X + dx, Y := mp.Y + dy })

/-- The `Over` arithmetic of `DrawMask` for one pixel: source `s`, destination `d` and mask alpha
`ma`, on 16-bit premultiplied channels, stored back through the canvas colour model. -/
def overPixel (s d : NRGBA) (ma : Nat) : NRGBA :=
  let m := 0xffff
  let sc := s.RGBA
  let dc := d.RGBA
  let a := m - sc.A * ma / m
  nrgbaModel
    { R := (dc.R * a + sc.R * ma) / m % 65536,
      G := (dc.G * a + sc.G * ma) / m % 65536,
      B := (dc.B * a + sc.B * ma) / m % 65536,
      A := (dc.A * a + sc.A * ma) / m % 65536 }

/-- Function `draw.DrawMask` with `op = draw.Over` on the canvas: after clipping, every pixel of
`r` is composed with the source pixel under the mask; a mask alpha of zero leaves it alone. -/
def DrawMask (dst : Canvas) (r : Rectangle) (src : Image) (sp : Point) (mask : Option Uniform)
    (mp : Point) : Canvas :=
  let c := clip dst r src sp mask mp
  let r := c.1
  let sp := c.2.1
  if r.Empty then dst
  else
    let ma :=
      match mask with
      | some m => m.Alpha16
      | none => 0xffff
    { dst with
      Pix := fun x y =>
        if r.Contains x y then
          if ma = 0 then dst.Pix x y
          else overPixel (src.At (sp.X + (x - r.Min.X)) (sp.Y + (y - r.Min.Y))) (dst.Pix x y) ma
        else dst.Pix x y }

/-- Function `draw.Draw` with `op = draw.Over`: `DrawMask` with a nil mask. -/
def Draw (dst : Canvas) (r : Rectangle) (src : Image) (sp : Point) : Canvas :=
  DrawMask dst r src sp none (Pt 0 0)

/-! ## Package `tiled`: the map model -/

/-- The Go type `error` of a failed lookup. -/
abbrev Error := String

/-- Type `tiled.Object`, with the fields the renderer reads. -/
structure Object where
  ID : Nat
  GID : Nat
  X : ℚ
  Y : ℚ
  Width : ℚ
  Height : ℚ
  Rotation : ℚ
  Visible : Bool
  deriving DecidableEq

/-- Type `tiled.ObjectGroup`: an object layer. -/
structure ObjectGroup where
  Visible : Bool
  Opacity : ℚ
  Objects : List Object
  deriving DecidableEq

/-- Type `tiled.Layer`: a tile layer; its tiles are drawn by `_renderLayer`. -/
structure Layer where
  ID : Nat
  Visible : Bool
  deriving DecidableEq

/-- Type `tiled.Group`. -/
structure Group where
  Visible : Bool
  Layers : List Layer
  ObjectGroups : List ObjectGroup
  deriving DecidableEq

/-- Type `tiled.Map`, with the fields the renderer reads. -/
structure Map where
  TileHeight : Int
  Groups : List Group
  ObjectGroups : List ObjectGroup
  deriving DecidableEq

/-- Type `tiled.LayerTile`: the tile a GID resolves to. -/
structure LayerTile where
  ID : Nat
  deriving DecidableEq

/-- The collaborators of the rendering file that live outside it: the tile lookup of the map,
the image provider and the tile-layer renderer of `Renderer`, and the two functions of the
`imaging` package. -/
structure Env where
  /-- Method `TileGIDToTile` of `tiled.Map`. -/
  TileGIDToTile : Nat → Except Error LayerTile
  /-- Method `GetTileImage` of `Renderer`. -/
  GetTileImage : LayerTile → Except Error Image
  /-- Method `_renderLayer` of `Renderer`, as a change of the canvas. -/
  renderLayer : Layer → Canvas → Canvas × Option Error
  /-- Function `imaging.Resize` with the `NearestNeighbor` filter. -/
  Resize : Image → Int → Int → Image
  /-- Function `imaging.Rotate` with a transparent background. -/
  Rotate : Image → ℚ → Image

/-- Type `Renderer`: the map `m` and the canvas `Result`, the state the methods work on. -/
structure Renderer where
  m : Map
  Result : Canvas

/-! ## The rendering file -/

/-- Function `sortObjs`: `y` ascending, then `x` ascending. -/
def sortObjs (a b : Object) : Bool :=
  if a.Y ≠ b.Y then decide (a.Y < b.Y) else decide (a.X < b.X)

/-- The transform stage shared by both render methods: resize to the declared size when it
differs from the sprite size, then rotate by `-Rotation` when a rotation is set. -/
def transform (env : Env) (o : Object) (img : Image) : Image :=
  let bounds := img.Bounds
  let srcSize := bounds.Size
  let dstSize := Pt (toInt o.Width) (toInt o.Height)
  let img := if !srcSize.Eq dstSize then env.Resize img dstSize.X dstSize.Y else img
  let img := if o.Rotation ≠ 0 then env.Rotate img (-o.Rotation) else img
  img

/-- The local `leftTop` of `renderOneObjectUpperTile`, `o.Y - o.Height`; `renderOneObject`
computes the same difference in place. -/
def leftTop (o : Object) : Option ℚ := F64.sub (some o.Y) (some o.Height)

/-- The local `upperHeight` of `renderOneObjectUpperTile`: with `n = math.Floor(o.Y / T)` and
`upperY = n * T` for the tile height `T` of the map converted to `float64`, the difference
`upperY - leftTop`. -/
def upperHeight (tileHeight : Int) (o : Object) : Option ℚ :=
  let fT := F64.ofInt tileHeight
  let n := F64.floor (fT.bind (F64.div o.Y))
  let upperY := F64.mul n fT
  F64.sub upperY (leftTop o)

/-- The local `pos` of `renderOneObjectUpperTile`: the bounds of the transformed image with
`Max.Y` replaced by `int(upperHeight)`, moved to `(int(o.X), int(leftTop))`. -/
def upperPos (tileHeight : Int) (o : Object) (img : Image) : Rectangle :=
  let bounds := img.Bounds
  let bounds :=
    { bounds with Max := { bounds.Max with Y := F64.toInt (upperHeight tileHeight o) } }
  bounds.Add (Pt (toInt o.X) (F64.toInt (leftTop o)))

/-- The local `pos` of `renderOneObject`: the bounds of the transformed image moved to
`(int(o.X), int(o.Y - o.Height))`. -/
def fullPos (o : Object) (img : Image) : Rectangle :=
  let bounds := img.Bounds
  bounds.Add (Pt (toInt o.X) (F64.toInt (leftTop o)))

/-- The local `mask` of both render methods:
`image.NewUniform(color.Alpha{uint8(layer.Opacity * 255)})`. -/
def layerMask (layer : ObjectGroup) : Uniform := NewUniform (toUint8 (layer.Opacity * 255))

/-- The last statement of both render methods: the masked draw when the layer opacity is below
one, the plain draw otherwise. -/
def composite (layer : ObjectGroup) (dst : Canvas) (pos : Rectangle) (img : Image) : Canvas :=
  if layer.Opacity < 1 then
    let mask := layerMask layer
    DrawMask dst pos img img.Bounds.Min (some mask) mask.Bounds.Min
  else Draw dst pos img img.Bounds.Min

/-- Method `renderOneObjectUpperTile`: the new state and the returned error (`none` is `nil`). -/
def renderOneObjectUpperTile (env : Env) (r : Renderer) (layer : ObjectGroup) (o : Object) :
    Renderer × Option Error :=
  if !o.Visible then (r, none)
  else if o.GID = 0 then (r, none)
  else
    match env.TileGIDToTile o.GID with
    | .error err => (r, some err)
    | .ok tile =>
      match env.GetTileImage tile with
      | .error err => (r, some err)
      | .ok img =>
        let img := transform env o img
        let pos := upperPos r.m.TileHeight o img
        ({ r with Result := composite layer r.Result pos img }, none)

/-- Method `renderOneObject`: the new state and the returned error. -/
def renderOneObject (env : Env) (r : Renderer) (layer : ObjectGroup) (o : Object) :
    Renderer × Option Error :=
  if !o.Visible then (r, none)
  else if o.GID = 0 then (r, none)
  else
    match env.TileGIDToTile o.GID with
    | .error err => (r, some err)
    | .ok tile =>
      match env.GetTileImage tile with
      | .error err => (r, some err)
      | .ok img =>
        let img := transform env o img
        let pos := fullPos o img
        ({ r with Result := composite layer r.Result pos img }, none)

/-- The loop `for _, x := range xs { err := f(x); if err != nil { return err } }; return nil`
over a state `S`. -/
def forEach {α S : Type} (f : S → α → S × Option Error) : List α → S → S × Option Error
  | [], s => (s, none)
  | x :: xs, s =>
    match f s x with
    | (s, some err) => (s, some err)
    | (s, none) => forEach f xs s

/-- Method `_renderObjectGroup`.  `SortAny` permutes the backing array of
`objectGroup.Objects` in place (`Swap` writes to `s.Data`), so the layer holds the sorted
sequence afterwards: the layer is returned along with the state and the error. -/
def _renderObjectGroup (env : Env) (r : Renderer) (objectGroup : ObjectGroup) :
    ObjectGroup × Renderer × Option Error :=
  let objs := SortAny objectGroup.Objects sortObjs
  let objectGroup := { objectGroup with Objects := objs }
  let res := forEach (fun r obj => renderOneObjectUpperTile env r objectGroup obj) objs r
  (objectGroup, res.1, res.2)

/-- The first loop of `_renderGroup`, over the tile layers. -/
def renderGroupLayers (env : Env) (layers : List Layer) (r : Renderer) : Renderer × Option Error :=
  forEach
    (fun r layer =>
      if !layer.Visible then (r, none)
      else
        let res := env.renderLayer layer r.Result
        ({ r with Result := res.1 }, res.2))
    layers r

/-- The second loop of `_renderGroup`, over the object layers; the layers rendered so far are
returned in their new state, the others as they were. -/
def renderGroupObjectGroups (env : Env) :
    List ObjectGroup → Renderer → List ObjectGroup × Renderer × Option Error
  | [], r => ([], r, none)
  | objectGroup :: rest, r =>
    if !objectGroup.Visible then
      let res := renderGroupObjectGroups env rest r
      (objectGroup :: res.1, res.2)
    else
      match _renderObjectGroup env r objectGroup with
      | (og, r, some err) => (og :: rest, r, some err)
      | (og, r, none) =>
        let res := renderGroupObjectGroups env rest r
        (og :: res.1, res.2)

/-- Method `_renderGroup`: the group is returned in its new state. -/
def _renderGroup (env : Env) (r : Renderer) (group : Group) : Group × Renderer × Option Error :=
  match renderGroupLayers env group.Layers r with
  | (r, some err) => (group, r, some err)
  | (r, none) =>
    let res := renderGroupObjectGroups env group.ObjectGroups r
    ({ group with ObjectGroups := res.1 }, res.2)

/-- The loop of `RenderVisibleGroups`: the error of `_renderGroup` is not looked at. -/
def renderVisibleGroupsLoop (env : Env) : List Group → Renderer → List Group × Renderer
  | [], r => ([], r)
  | group :: rest, r =>
    if !group.Visible then
      let res := renderVisibleGroupsLoop env rest r
      (group :: res.1, res.2)
    else
      let g := _renderGroup env r group
      let res := renderVisibleGroupsLoop env rest g.2.1
      (g.1 :: res.1, res.2)

/-- Method `RenderVisibleGroups`. -/
def RenderVisibleGroups (env : Env) (r : Renderer) : Renderer × Option Error :=
  let res := renderVisibleGroupsLoop env r.m.Groups r
  ({ m := { r.m with Groups := res.1 }, Result := res.2.Result }, none)

/-- Method `RenderGroup`; `none` is the run-time panic of an index out of range. -/
def RenderGroup (env : Env) (r : Renderer) (groupIdx : Nat) : Option (Renderer × Option Error) :=
  match r.m.Groups[groupIdx]? with
  | none => none
  | some group =>
    let g := _renderGroup env r group
    some ({ m := { r.m with Groups := r.m.Groups.set groupIdx g.1 }, Result := g.2.1.Result },
      g.2.2)

/-- Method `RenderObjectGroup`; `none` is the run-time panic of an index out of range. -/
def RenderObjectGroup (env : Env) (r : Renderer) (i : Nat) : Option (Renderer × Option Error) :=
  match r.m.ObjectGroups[i]? with
  | none => none
  | some layer =>
    let g := _renderObjectGroup env r layer
    some ({ m := { r.m with ObjectGroups := r.m.ObjectGroups.set i g.1 },
            Result := g.2.1.Result }, g.2.2)

/-- The loop of `RenderVisibleObjectGroups` over the indices of `r.m.ObjectGroups`. -/
def renderVisibleObjectGroupsLoop (env : Env) :
    List Nat → Renderer → Option (Renderer × Option Error)
  | [], r => some (r, none)
  | i :: rest, r =>
    match r.m.ObjectGroups[i]? with
    | none => none
    | some layer =>
      if layer.Visible then
        match RenderObjectGroup env r i with
        | none => none
        | some (r, some err) => some (r, some err)
        | some (r, none) => renderVisibleObjectGroupsLoop env rest r
      else renderVisibleObjectGroupsLoop env rest r

/-- Method `RenderVisibleObjectGroups`. -/
def RenderVisibleObjectGroups (env : Env) (r : Renderer) : Option (Renderer × Option Error) :=
  renderVisibleObjectGroupsLoop env (List.range r.m.ObjectGroups.length) r

/-- Method `RenderGroupObjectGroup`; `none` is the run-time panic of an index out of range. -/
def RenderGroupObjectGroup (env : Env) (r : Renderer) (groupIdx objectGroupId : Nat) :
    Option (Renderer × Option Error) :=
  match r.m.Groups[groupIdx]? with
  | none => none
  | some group =>
    match group.ObjectGroups[objectGroupId]? with
    | none => none
    | some layer =>
      let g := _renderObjectGroup env r layer
      let group := { group with ObjectGroups := group.ObjectGroups.set objectGroupId g.1 }
      some ({ m := { r.m with Groups := r.m.Groups.set groupIdx group },
              Result := g.2.1.Result }, g.2.2)

/-! ## Vocabulary of the rendering claims -/

/-- The error, if any, that the lookups of `renderOneObjectUpperTile` raise for the object: none
for an invisible object or one of GID 0, else the error of `TileGIDToTile`, else that of
`GetTileImage`. -/
def lookupError (env : Env) (o : Object) : Option Error :=
  if !o.Visible then none
  else if o.GID = 0 then none
  else
    match env.TileGIDToTile o.GID with
    | .error err => some err
    | .ok tile =>
      match env.GetTileImage tile with
      | .error err => some err
      | .ok _ => none

/-- The state after `renderOneObjectUpperTile` has been run on each object of the list in
turn. -/
def drawObjects (env : Env) (layer : ObjectGroup) (objs : List Object) (r : Renderer) : Renderer :=
  objs.foldl (fun r o => (renderOneObjectUpperTile env r layer o).1) r

/-- The 16-bit alpha under which `composite` composes the sprite: that of the layer mask on a
layer of opacity below one, full alpha otherwise. -/
def maskAlpha16 (layer : ObjectGroup) : Nat :=
  if layer.Opacity < 1 then (layerMask layer).Alpha16 else 0xffff

/-- Following the spec, in exact arithmetic: `upperBandHeight = rowBoundary - leftTop` with
`rowBoundary = floor(y / T) * T` and `leftTop = y - h`. -/
def upperBandHeight (tileHeight : Int) (y h : ℚ) : ℚ :=
  (⌊y / (tileHeight : ℚ)⌋ : ℚ) * (tileHeight : ℚ) - (y - h)

/-- The object layer with its objects in the order of the depth sort: the state in which
`_renderObjectGroup` leaves the layer it is given. -/
def ObjectGroup.depthSorted (g : ObjectGroup) : ObjectGroup :=
  { g with Objects := SortAny g.Objects sortObjs }

/-- The object layers after a walk that has rendered the visible ones among the first `n`:
these are depth-sorted, every other layer is as it was. -/
def renderedUpTo (n : Nat) (ogs : List ObjectGroup) : List ObjectGroup :=
  (ogs.take n).map (fun g => if g.Visible then g.depthSorted else g) ++ ogs.drop n

/-- The object layer `g'` is `g` with its objects possibly reordered: the same flags and the same
objects, each as often. -/
def ObjectGroup.SameObjects (g g' : ObjectGroup) : Prop :=
  g'.Visible = g.Visible ∧ g'.Opacity = g.Opacity ∧ g'.Objects.Perm g.Objects

/-- The group `g'` is `g` with the objects of its object layers possibly reordered. -/
def Group.SameObjects (g g' : Group) : Prop :=
  g'.Visible = g.Visible ∧ g'.Layers = g.Layers
    ∧ List.Forall₂ ObjectGroup.SameObjects g.ObjectGroups g'.ObjectGroups

/-- The map `m'` is `m` with the objects of its object layers possibly reordered. -/
def Map.SameObjects (m m' : Map) : Prop :=
  m'.TileHeight = m.TileHeight
    ∧ List.Forall₂ Group.SameObjects m.Groups m'.Groups
    ∧ List.Forall₂ ObjectGroup.SameObjects m.ObjectGroups m'.ObjectGroups

/-- Following the spec (the layer walk): the given tile layers are rendered one after the other
in document order, whatever their `Visible` flag, up to the first error. -/
def renderLayersInOrder (env : Env) (layers : List Layer) (c : Canvas) : Canvas × Option Error :=
  forEach (fun c layer => env.renderLayer layer c) layers c

/-- Following the spec (the layer walk): the given object layers are rendered one after the
other in document order, each by `_renderObjectGroup`, whatever their `Visible` flag, up to the
first error; `tileHeight` is the tile height of the map. -/
def renderObjectLayersInOrder (env : Env) (tileHeight : Int) (objectGroups : List ObjectGroup)
    (c : Canvas) : Canvas × Option Error :=
  forEach
    (fun c objectGroup =>
      let res := _renderObjectGroup env
        { m := { TileHeight := tileHeight, Groups := [], ObjectGroups := [] }, Result := c }
        objectGroup
      (res.2.1.Result, res.2.2))
    objectGroups c

/-- Following the spec (the layer walk): the visible tile layers in document order, then the
visible object layers in document order, up to the first error. -/
def renderVisibleInOrder (env : Env) (tileHeight : Int) (layers : List Layer)
    (objectGroups : List ObjectGroup) (c : Canvas) : Canvas × Option Error :=
  match renderLayersInOrder env (layers.filter (fun layer => layer.Visible)) c with
  | (c, some err) => (c, some err)
  | (c, none) =>
    renderObjectLayersInOrder env tileHeight
      (objectGroups.filter (fun objectGroup => objectGroup.Visible)) c

/-! ## A concrete renderer on which the methods are evaluated -/

/-- An opaque red sprite of `w` by `h` pixels. -/
def redSprite (w h : Nat) : Image :=
  { W := w, H := h, Pix := fun _ _ => { R := 255, G := 0, B := 0, A := 255 } }

/-- The image `&image.NRGBA{}` without pixels. -/
def emptyImage : Image :=
  { W := 0, H := 0, Pix := fun _ _ => { R := 0, G := 0, B := 0, A := 0 } }

/-- Function `imaging.Resize` with the nearest-neighbour filter: an empty image for a negative
size, for the size `(0, 0)` and for an empty source; a zero width or height is replaced by the
one keeping the aspect ratio (at least one pixel); pixel `(x, y)` of the result is the source
pixel under the centre of the destination pixel. -/
def resizeNearest (img : Image) (width height : Int) : Image :=
  if width < 0 ∨ height < 0 then emptyImage
  else if width = 0 ∧ height = 0 then emptyImage
  else if img.W = 0 ∨ img.H = 0 then emptyImage
  else
    let dstW : Int :=
      if width = 0 then max 1 ⌊(height : ℚ) * img.W / img.H + 1 / 2⌋ else width
    let dstH : Int :=
      if height = 0 then max 1 ⌊(dstW : ℚ) * img.H / img.W + 1 / 2⌋ else height
    { W := dstW.toNat, H := dstH.toNat,
      Pix := fun x y =>
        img.Pix ⌊((x : ℚ) + 1 / 2) * img.W / dstW⌋ ⌊((y : ℚ) + 1 / 2) * img.H / dstH⌋ }

/-- Function `imaging.Rotate` at the right angles, where it is `Clone`, `Rotate90`, `Rotate180`
or `Rotate270` (counter-clockwise) after the angle is reduced modulo 360.  Other angles need
trigonometry on `float64` and are not covered: the image is returned as it is. -/
def rotateRightAngle (img : Image) (angle : ℚ) : Image :=
  let angle := angle - ⌊angle / 360⌋ * 360
  if angle = 90 then
    { W := img.H, H := img.W, Pix := fun x y => img.Pix ((img.W : Int) - 1 - y) x }
  else if angle = 180 then
    { W := img.W, H := img.H,
      Pix := fun x y => img.Pix ((img.W : Int) - 1 - x) ((img.H : Int) - 1 - y) }
  else if angle = 270 then
    { W := img.H, H := img.W, Pix := fun x y => img.Pix y ((img.H : Int) - 1 - x) }
  else img

/-- A tile set of two tiles: GID 1 is a 16 by 16 red tile, GID 2 a 32 by 16 red tile, every
other GID is invalid; tile layers draw nothing. -/
def demoEnv : Env :=
  { TileGIDToTile := fun gid =>
      if gid = 1 then .ok { ID := 0 }
      else if gid = 2 then .ok { ID := 1 }
      else .error "tiled: invalid tile GID"
    GetTileImage := fun tile => .ok (if tile.ID = 0 then redSprite 16 16 else redSprite 32 16)
    renderLayer := fun _ c => (c, none)
    Resize := resizeNearest
    Rotate := rotateRightAngle }

/-- The environment `demoEnv` with a resize and a rotation that return the empty image, so that
a call of either shows in the result. -/
def probeEnv : Env :=
  { demoEnv with Resize := fun _ _ _ => emptyImage, Rotate := fun _ _ => emptyImage }

/-- A transparent canvas of `w` by `h` pixels. -/
def blankCanvas (w h : Nat) : Canvas :=
  { Rect := { Min := Pt 0 0, Max := Pt w h }, Pix := fun _ _ => { R := 0, G := 0, B := 0, A := 0 } }

/-- An object with the given ID, GID, position and size, not rotated, visible. -/
def mkObject (id gid : Nat) (x y w h : ℚ) : Object :=
  { ID := id, GID := gid, X := x, Y := y, Width := w, Height := h, Rotation := 0,
    Visible := true }

/-- A renderer on a map with tile height 16 and the given groups and object layers, drawing on a
transparent 64 by 64 canvas. -/
def demoRenderer (groups : List Group) (objectGroups : List ObjectGroup) : Renderer :=
  { m := { TileHeight := 16, Groups := groups, ObjectGroups := objectGroups },
    Result := blankCanvas 64 64 }

/-- A visible, opaque object layer of the given objects. -/
def demoLayer (objs : List Object) : ObjectGroup :=
  { Visible := true, Opacity := 1, Objects := objs }

/-- A visible group whose only object layer holds one object with the invalid GID 9. -/
def brokenGroup : Group :=
  { Visible := true, Layers := [], ObjectGroups := [demoLayer [mkObject 1 9 0 16 16 16]] }

/-- A visible group whose only object layer holds one 16 by 16 object of GID 1 at `(0, 16)`. -/
def soundGroup : Group :=
  { Visible := true, Layers := [], ObjectGroups := [demoLayer [mkObject 2 1 0 16 16 16]] }

/-- Thirteen objects in document order: twelve at `(5, 10)` followed by one at `(5, 0)`. -/
def thirteenObjects : List Object :=
  (List.range 13).map fun i => mkObject i 1 5 (if i = 12 then 0 else 10) 16 16

/-- The thirteen objects with the last one, at `(5, 0)`, not visible. -/
def thirteenObjectsLastHidden : List Object :=
  thirteenObjects.map fun o => if o.ID = 12 then { o with Visible := false } else o

/-- The sort key of an object: `(y, x)` in lexicographic order. -/
def Object.depthKey (o : Object) : Lex (ℚ × ℚ) := toLex (o.Y, o.X)

/-! ## Vocabulary of the sorting proofs -/

namespace Sortable

variable {T κ : Type}

/-- The slice `s'` holds the elements of `s`, each as often, under the same comparison. -/
def Rel (s s' : Sortable T) : Prop :=
  s'.LessMethod = s.LessMethod ∧ s'.Data.Perm s.Data

/-- The slice `s'` agrees with `s` at every index outside `[a, b)`. -/
def SameOutside (a b : Nat) (s s' : Sortable T) : Prop :=
  ∀ k, (k < a ∨ b ≤ k) → s'.Data[k]? = s.Data[k]?

/-- The comparison of `s` is the strict order of the keys `key x`. -/
def OrderedBy [LT κ] (key : T → κ) (s : Sortable T) : Prop :=
  ∀ x y, s.LessMethod x y = true ↔ key x < key y

/-- The key of `Data[i]` (of `x0` past the end). -/
def keyAt (key : T → κ) (x0 : T) (s : Sortable T) (i : Nat) : κ :=
  key (s.Data.getD i x0)

/-- The keys of `Data[a:b]` ascend. -/
def SortedOn [LE κ] (key : T → κ) (x0 : T) (s : Sortable T) (a b : Nat) : Prop :=
  ∀ i j, a ≤ i → i < j → j < b → keyAt key x0 s i ≤ keyAt key x0 s j

/-- When `a > 0`, the element before the slice `[a, b)` is at most every element of it: the
state in which `pdqsort` works on a part of the slice. -/
def LowerBounded [LE κ] (key : T → κ) (x0 : T) (s : Sortable T) (a b : Nat) : Prop :=
  0 < a → ∀ k, a ≤ k → k < b → keyAt key x0 s (a - 1) ≤ keyAt key x0 s k

/-- The slice with `f` applied to each element, under the same comparison. -/
def mapData (f : T → T) (s : Sortable T) : Sortable T :=
  { s with Data := s.Data.map f }

/-- For every key `c`, the elements of key `c` stand in `s'` in the order they have in `s`. -/
def SameOrderWithinKeys [DecidableEq κ] (key : T → κ) (s s' : Sortable T) : Prop :=
  ∀ c, s'.Data.filter (fun x => decide (key x = c)) = s.Data.filter (fun x => decide (key x = c))

end Sortable

/-! ## Basic facts about `Sortable` -/

namespace Sortable

variable {T : Type}

@[simp] theorem Swap_LessMethod (s : Sortable T) (i j : Nat) :
    (s.Swap i j).LessMethod = s.LessMethod := by
  unfold Swap; split <;> rfl

@[simp] theorem Swap_length (s : Sortable T) (i j : Nat) :
    (s.Swap i j).Data.length = s.Data.length := by
  unfold Swap; split <;> simp

theorem Swap_of_not_lt (s : Sortable T) {i j : Nat} (h : ¬ (i < s.Data.length ∧ j < s.Data.length)) :
    s.Swap i j = s := by
  unfold Swap
  split
  · rename_i x y hx hy
    have hi := (List.getElem?_eq_some.mp hx).1
    have hj := (List.getElem?_eq_some.mp hy).1
    exact absurd ⟨hi, hj⟩ h
  · rfl

theorem Swap_Data (s : Sortable T) {i j : Nat} (hi : i < s.Data.length) (hj : j < s.Data.length) :
    (s.Swap i j).Data = (s.Data.set i s.Data[j]).set j s.Data[i] := by
  unfold Swap
  rw [List.getElem?_eq_getElem hi, List.getElem?_eq_getElem hj]

theorem Swap_getElem? (s : Sortable T) {i j : Nat} (hi : i < s.Data.length)
    (hj : j < s.Data.length) (k : Nat) :
    (s.Swap i j).Data[k]? =
      if k = j then s.Data[i]? else if k = i then s.Data[j]? else s.Data[k]? := by
  rw [Swap_Data s hi hj]
  simp only [List.getElem?_set, List.length_set]
  by_cases h1 : k = j
  · subst h1; simp [hj, List.getElem?_eq_getElem hi]
  · by_cases h2 : k = i
    · subst h2; simp [h1, hi, List.getElem?_eq_getElem hj, Ne.symm h1]
    · simp [h1, h2, Ne.symm h1, Ne.symm h2]

theorem Swap_getElem?_of_ne (s : Sortable T) (i j : Nat) {k : Nat} (hi : k ≠ i) (hj : k ≠ j) :
    (s.Swap i j).Data[k]? = s.Data[k]? := by
  by_cases h : i < s.Data.length ∧ j < s.Data.length
  · rw [Swap_getElem? s h.1 h.2]; simp [hi, hj]
  · rw [Swap_of_not_lt s h]

theorem set_head_perm {l : List T} {j : Nat} {x y : T} (h : l[j]? = some y) :
    (y :: l.set j x).Perm (x :: l) := by
  induction l generalizing j with
  | nil => simp at h
  | cons z l ih =>
    cases j with
    | zero =>
      simp at h; subst h
      simpa using List.Perm.swap x z l
    | succ j =>
      simp at h
      simp only [List.set_cons_succ]
      exact (List.Perm.swap z y _).trans (((ih h).cons z).trans (List.Perm.swap x z l))

theorem set_set_perm_aux {l : List T} {i j : Nat} {x y : T}
    (hx : l[i]? = some x) (hy : l[j]? = some y) : ((l.set i y).set j x).Perm l := by
  induction l generalizing i j with
  | nil => simp at hx
  | cons z l ih =>
    cases i with
    | zero =>
      simp at hx; subst hx
      cases j with
      | zero => simp at hy; subst hy; simp
      | succ j =>
        simp at hy
        simpa using set_head_perm (x := z) hy
    | succ i =>
      simp at hx
      cases j with
      | zero =>
        simp at hy; subst hy
        simpa using set_head_perm (x := z) hx
      | succ j =>
        simp at hy
        simpa using ih hx hy

theorem Swap_perm (s : Sortable T) (i j : Nat) : (s.Swap i j).Data.Perm s.Data := by
  unfold Swap
  split
  · rename_i x y hx hy
    exact set_set_perm_aux hx hy
  · exact List.Perm.refl _

end Sortable

/-! ## Rectangles and drawing -/

theorem truncate_nonpos {f : ℚ} (h : f ≤ 0) : truncate f ≤ 0 := by
  unfold truncate
  split
  · have : f = 0 := le_antisymm h ‹_›
    simp [this]
  · exact Int.ceil_le.mpr (by simpa using h)

theorem truncate_mono {f g : ℚ} (h : f ≤ g) : truncate f ≤ truncate g := by
  unfold truncate
  split
  · rename_i hf
    rw [if_pos (le_trans hf h)]
    exact Int.floor_mono h
  · rename_i hf
    split
    · rename_i hg
      have h1 : ⌈f⌉ ≤ 0 := Int.ceil_le.mpr (by push_cast; exact le_of_lt (not_le.mp hf))
      have h2 : 0 ≤ ⌊g⌋ := Int.floor_nonneg.mpr hg
      omega
    · exact Int.ceil_mono h

theorem minInt_le_toInt (f : ℚ) : minInt ≤ toInt f := by
  unfold toInt
  split
  · rename_i h; exact h.1
  · exact le_refl _

theorem toInt_nonpos {f : ℚ} (h : f ≤ 0) : toInt f ≤ 0 := by
  have := truncate_nonpos h
  unfold toInt minInt
  split <;> omega

theorem toInt_eq_floor {f : ℚ} (h : 0 ≤ f) (hf : f < 9223372036854775808) : toInt f = ⌊f⌋ := by
  have h0 : 0 ≤ ⌊f⌋ := Int.floor_nonneg.mpr h
  have h1 : ⌊f⌋ < 9223372036854775808 := by
    rw [Int.floor_lt]; push_cast; exact hf
  unfold toInt truncate minInt maxInt
  rw [if_pos h, if_pos (by omega)]

/-- The conversion to `int` is monotone below the largest `int`. -/
theorem toInt_mono {f g : ℚ} (h : f ≤ g) (hg : g < 9223372036854775808) :
    toInt f ≤ toInt g := by
  have hm := truncate_mono h
  have h1 : truncate g ≤ maxInt := by
    unfold truncate maxInt
    split
    · have : ⌊g⌋ < 9223372036854775808 := by
        rw [Int.floor_lt]; push_cast; exact hg
      omega
    · rename_i hneg
      have : ⌈g⌉ ≤ 0 := Int.ceil_le.mpr (by push_cast; exact le_of_lt (not_le.mp hneg))
      omega
  unfold toInt
  split
  · rename_i hf
    rw [if_pos ⟨le_trans hf.1 hm, h1⟩]
    exact hm
  · split
    · rename_i hg'; exact hg'.1
    · exact le_refl _

theorem F64.toInt_nonpos_of_finite {a : Option ℚ} (h : ∀ q, a = some q → q ≤ 0) : F64.toInt a ≤ 0 := by
  cases a with
  | none => decide
  | some q => exact GoTiled.toInt_nonpos (h q rfl)

namespace Rectangle

theorem Intersect_of_Empty {r : Rectangle} (s : Rectangle) (h : r.Empty = true) :
    r.Intersect s = ZR := by
  unfold Intersect
  simp only [Empty, Bool.or_eq_true, decide_eq_true_eq] at h ⊢
  rw [if_pos]
  rcases h with h | h
  · left; split <;> split <;> omega
  · right; split <;> split <;> omega

theorem ZR_Empty : ZR.Empty = true := by decide

theorem Contains_Intersect {r s : Rectangle} {x y : Int}
    (h : (r.Intersect s).Contains x y = true) : r.Contains x y = true := by
  unfold Intersect at h
  simp only at h
  by_cases he : Empty
      { Min := { X := if r.Min.X < s.Min.X then s.Min.X else r.Min.X,
                 Y := if r.Min.Y < s.Min.Y then s.Min.Y else r.Min.Y },
        Max := { X := if s.Max.X < r.Max.X then s.Max.X else r.Max.X,
                 Y := if s.Max.Y < r.Max.Y then s.Max.Y else r.Max.Y } } = true
  · rw [if_pos he] at h
    simp [Contains, ZR, Pt] at h; omega
  · rw [if_neg he] at h
    simp only [Contains, Bool.and_eq_true, decide_eq_true_eq] at h ⊢
    obtain ⟨⟨⟨h1, h2⟩, h3⟩, h4⟩ := h
    refine ⟨⟨⟨?_, ?_⟩, ?_⟩, ?_⟩
    · split at h1 <;> omega
    · split at h2 <;> omega
    · split at h3 <;> omega
    · split at h4 <;> omega

end Rectangle

theorem clip_of_Empty (dst : Canvas) {r : Rectangle} (src : Image) (sp : Point)
    (mask : Option Uniform) (mp : Point) (h : r.Empty = true) :
    (clip dst r src sp mask mp).1.Empty = true := by
  have h1 : r.Intersect dst.Bounds = ZR := Rectangle.Intersect_of_Empty _ h
  have hz : ∀ s, ZR.Intersect s = ZR := fun s => Rectangle.Intersect_of_Empty s Rectangle.ZR_Empty
  unfold clip
  simp only [h1, hz]
  cases mask <;> simp only [hz] <;> split <;> exact Rectangle.ZR_Empty

theorem clip_Contains {dst : Canvas} {r : Rectangle} {src : Image} {sp : Point}
    {mask : Option Uniform} {mp : Point} {x y : Int}
    (h : (clip dst r src sp mask mp).1.Contains x y = true) : r.Contains x y = true := by
  unfold clip at h
  cases mask with
  | none =>
    have h' : ((r.Intersect dst.Bounds).Intersect (src.Bounds.Add (r.Min.Sub sp))).Contains x y
        = true := by
      simp only at h; split at h <;> exact h
    exact Rectangle.Contains_Intersect (Rectangle.Contains_Intersect h')
  | some m =>
    have h' : (((r.Intersect dst.Bounds).Intersect (src.Bounds.Add (r.Min.Sub sp))).Intersect
        (m.Bounds.Add (r.Min.Sub mp))).Contains x y = true := by
      simp only at h; split at h <;> exact h
    exact Rectangle.Contains_Intersect (Rectangle.Contains_Intersect
      (Rectangle.Contains_Intersect h'))

theorem DrawMask_of_Empty (dst : Canvas) {r : Rectangle} (src : Image) (sp : Point)
    (mask : Option Uniform) (mp : Point) (h : r.Empty = true) :
    DrawMask dst r src sp mask mp = dst := by
  unfold DrawMask
  simp only [clip_of_Empty dst src sp mask mp h, if_true]

theorem DrawMask_Rect (dst : Canvas) (r : Rectangle) (src : Image) (sp : Point)
    (mask : Option Uniform) (mp : Point) : (DrawMask dst r src sp mask mp).Rect = dst.Rect := by
  unfold DrawMask
  simp only
  split <;> rfl

theorem DrawMask_outside (dst : Canvas) (r : Rectangle) (src : Image) (sp : Point)
    (mask : Option Uniform) (mp : Point) (x y : Int) (h : r.Contains x y = false) :
    (DrawMask dst r src sp mask mp).Pix x y = dst.Pix x y := by
  unfold DrawMask
  simp only
  split
  · rfl
  · have : (clip dst r src sp mask mp).1.Contains x y = false := by
      by_contra hc
      rw [Bool.not_eq_false] at hc
      rw [clip_Contains hc] at h
      exact Bool.noConfusion h
    simp only [this]
    rfl

theorem composite_of_Empty (layer : ObjectGroup) (dst : Canvas) {pos : Rectangle} (img : Image)
    (h : pos.Empty = true) : composite layer dst pos img = dst := by
  unfold composite Draw
  split <;> exact DrawMask_of_Empty _ _ _ _ _ h

theorem composite_Rect (layer : ObjectGroup) (dst : Canvas) (pos : Rectangle) (img : Image) :
    (composite layer dst pos img).Rect = dst.Rect := by
  unfold composite Draw
  split <;> exact DrawMask_Rect _ _ _ _ _ _

theorem composite_outside (layer : ObjectGroup) (dst : Canvas) (pos : Rectangle) (img : Image)
    (x y : Int) (h : pos.Contains x y = false) :
    (composite layer dst pos img).Pix x y = dst.Pix x y := by
  unfold composite Draw
  split <;> exact DrawMask_outside _ _ _ _ _ _ _ _ h

theorem upperPos_Empty (tileHeight : Int) (o : Object) (img : Image)
    (h : F64.toInt (upperHeight tileHeight o) ≤ 0) : (upperPos tileHeight o img).Empty = true := by
  simp only [upperPos, Rectangle.Add, Rectangle.Empty, Image.Bounds, Pt, Bool.or_eq_true,
    decide_eq_true_eq]
  right; omega

theorem upperPos_Min (tileHeight : Int) (o : Object) (img : Image) :
    (upperPos tileHeight o img).Min = Pt (toInt o.X) (F64.toInt (leftTop o)) := by
  simp [upperPos, Rectangle.Add, Image.Bounds, Pt]

theorem upperPos_Dy (tileHeight : Int) (o : Object) (img : Image) :
    (upperPos tileHeight o img).Dy = F64.toInt (upperHeight tileHeight o) := by
  simp [upperPos, Rectangle.Add, Image.Bounds, Pt, Rectangle.Dy]

theorem renderOneObjectUpperTile_resolved (env : Env) (r : Renderer) (layer : ObjectGroup)
    (o : Object) (tile : LayerTile) (img : Image) (hvis : o.Visible = true) (hgid : o.GID ≠ 0)
    (htile : env.TileGIDToTile o.GID = .ok tile) (himg : env.GetTileImage tile = .ok img) :
    renderOneObjectUpperTile env r layer o
      = (⟨r.m, composite layer r.Result
            (upperPos r.m.TileHeight o (transform env o img)) (transform env o img)⟩, none) := by
  simp [renderOneObjectUpperTile, hvis, hgid, htile, himg]

theorem renderOneObject_resolved (env : Env) (r : Renderer) (layer : ObjectGroup)
    (o : Object) (tile : LayerTile) (img : Image) (hvis : o.Visible = true) (hgid : o.GID ≠ 0)
    (htile : env.TileGIDToTile o.GID = .ok tile) (himg : env.GetTileImage tile = .ok img) :
    renderOneObject env r layer o
      = (⟨r.m, composite layer r.Result
            (fullPos o (transform env o img)) (transform env o img)⟩, none) := by
  simp [renderOneObject, hvis, hgid, htile, himg]

/-! ## Every step of `sort.Sort` permutes the slice -/

namespace Sortable

variable {T : Type}

theorem Rel.rel_refl (s : Sortable T) : Rel s s := ⟨rfl, List.Perm.refl _⟩

theorem Rel.rel_trans {s₁ s₂ s₃ : Sortable T} (h₁ : Rel s₁ s₂) (h₂ : Rel s₂ s₃) : Rel s₁ s₃ :=
  ⟨h₂.1.trans h₁.1, h₂.2.trans h₁.2⟩

theorem Rel.rel_swap (s : Sortable T) (i j : Nat) : Rel s (s.Swap i j) :=
  ⟨Swap_LessMethod s i j, Swap_perm s i j⟩

theorem Rel.rel_ite {s x y : Sortable T} {c : Prop} [Decidable c] (h₁ : Rel s x) (h₂ : Rel s y) :
    Rel s (if c then x else y) := by
  split <;> assumption

theorem Rel.length {s s' : Sortable T} (h : Rel s s') : s'.Data.length = s.Data.length :=
  h.2.length_eq

end Sortable

namespace GoSort

open Sortable

variable {T : Type}

theorem insertionInner_rel (a : Nat) (j : Nat) (s : Sortable T) :
    Rel s (insertionInner a j s) := by
  induction j generalizing s with
  | zero => exact Rel.rel_refl s
  | succ j ih =>
    unfold insertionInner
    split
    · exact (Rel.rel_swap s _ _).rel_trans (ih _)
    · exact Rel.rel_refl s

theorem insertionOuter_rel (a b n i : Nat) (s : Sortable T) :
    Rel s (insertionOuter a b n i s) := by
  induction n generalizing i s with
  | zero => exact Rel.rel_refl s
  | succ n ih =>
    unfold insertionOuter
    split
    · exact (insertionInner_rel a i s).rel_trans (ih _ _)
    · exact Rel.rel_refl s

theorem insertionSort_rel (s : Sortable T) (a b : Nat) : Rel s (insertionSort s a b) :=
  insertionOuter_rel _ _ _ _ _

theorem siftDownLoop_rel (hi first n root : Nat) (s : Sortable T) :
    Rel s (siftDownLoop hi first n root s) := by
  induction n generalizing root s with
  | zero => exact Rel.rel_refl s
  | succ n ih =>
    unfold siftDownLoop
    exact Rel.rel_ite (Rel.rel_refl s) (Rel.rel_ite (Rel.rel_refl s) ((Rel.rel_swap s _ _).rel_trans (ih _ _)))

theorem siftDown_rel (s : Sortable T) (lo hi first : Nat) : Rel s (siftDown s lo hi first) :=
  siftDownLoop_rel _ _ _ _ _

theorem heapBuild_rel (hi first i : Nat) (s : Sortable T) : Rel s (heapBuild hi first i s) := by
  induction i generalizing s with
  | zero => exact siftDown_rel _ _ _ _
  | succ i ih => exact (siftDown_rel _ _ _ _).rel_trans (ih _)

theorem heapPop_rel (first i : Nat) (s : Sortable T) : Rel s (heapPop first i s) := by
  induction i generalizing s with
  | zero => exact Rel.rel_refl s
  | succ i ih =>
    exact ((Rel.rel_swap s _ _).rel_trans (siftDown_rel _ _ _ _)).rel_trans (ih _)

theorem heapSort_rel (s : Sortable T) (a b : Nat) : Rel s (heapSort s a b) :=
  (heapBuild_rel _ _ _ _).rel_trans (heapPop_rel _ _ _)

theorem reverseLoop_rel (n i j : Nat) (s : Sortable T) : Rel s (reverseLoop n i j s) := by
  induction n generalizing i j s with
  | zero => exact Rel.rel_refl s
  | succ n ih =>
    unfold reverseLoop
    split
    · exact (Rel.rel_swap s _ _).rel_trans (ih _ _ _)
    · exact Rel.rel_refl s

theorem reverseRange_rel (s : Sortable T) (a b : Nat) : Rel s (reverseRange s a b) :=
  reverseLoop_rel _ _ _ _

theorem breakLoop_rel (a length idx modulus n i random : Nat) (s : Sortable T) :
    Rel s (breakLoop a length idx modulus n i random s) := by
  induction n generalizing i random s with
  | zero => exact Rel.rel_refl s
  | succ n ih => exact (Rel.rel_swap s _ _).rel_trans (ih _ _ _)

theorem breakPatterns_rel (s : Sortable T) (a b : Nat) : Rel s (breakPatterns s a b) := by
  unfold breakPatterns
  simp only
  split
  · exact breakLoop_rel _ _ _ _ _ _ _ _
  · exact Rel.rel_refl s

theorem partitionLoop_rel (a n i j : Nat) (s : Sortable T) :
    Rel s (partitionLoop a n i j s).1 := by
  induction n generalizing i j s with
  | zero => exact Rel.rel_refl s
  | succ n ih =>
    unfold partitionLoop
    simp only
    split
    · exact Rel.rel_refl s
    · exact (Rel.rel_swap s _ _).rel_trans (ih _ _ _)

theorem partition_rel (s : Sortable T) (a b pivot : Nat) : Rel s (partition s a b pivot).1 := by
  unfold partition
  simp only
  split
  · exact (Rel.rel_swap s _ _).rel_trans (Rel.rel_swap _ _ _)
  · exact (((Rel.rel_swap s _ _).rel_trans (Rel.rel_swap _ _ _)).rel_trans (partitionLoop_rel _ _ _ _ _)).rel_trans
      (Rel.rel_swap _ _ _)

theorem partitionEqualLoop_rel (a n i j : Nat) (s : Sortable T) :
    Rel s (partitionEqualLoop a n i j s).1 := by
  induction n generalizing i j s with
  | zero => exact Rel.rel_refl s
  | succ n ih =>
    unfold partitionEqualLoop
    simp only
    split
    · exact Rel.rel_refl s
    · exact (Rel.rel_swap s _ _).rel_trans (ih _ _ _)

theorem partitionEqual_rel (s : Sortable T) (a b pivot : Nat) :
    Rel s (partitionEqual s a b pivot).1 :=
  (Rel.rel_swap s _ _).rel_trans (partitionEqualLoop_rel _ _ _ _ _)

theorem shiftLeft_rel (j : Nat) (s : Sortable T) : Rel s (shiftLeft j s) := by
  induction j generalizing s with
  | zero => exact Rel.rel_refl s
  | succ j ih =>
    unfold shiftLeft
    split
    · exact Rel.rel_refl s
    · exact (Rel.rel_swap s _ _).rel_trans (ih _)

theorem shiftRight_rel (b n j : Nat) (s : Sortable T) : Rel s (shiftRight b n j s) := by
  induction n generalizing j s with
  | zero => exact Rel.rel_refl s
  | succ n ih =>
    unfold shiftRight
    split
    · split
      · exact Rel.rel_refl s
      · exact (Rel.rel_swap s _ _).rel_trans (ih _ _)
    · exact Rel.rel_refl s

theorem partialInsertionLoop_rel (a b n i : Nat) (s : Sortable T) :
    Rel s (partialInsertionLoop a b n i s).1 := by
  induction n generalizing i s with
  | zero => exact Rel.rel_refl s
  | succ n ih =>
    unfold partialInsertionLoop
    simp only
    split
    · exact Rel.rel_refl s
    · split
      · exact Rel.rel_refl s
      · refine Rel.rel_trans ?_ (ih _ _)
        refine Rel.rel_trans ?_ (Rel.rel_ite (shiftRight_rel _ _ _ _) (Rel.rel_refl _))
        exact Rel.rel_trans (Rel.rel_swap s _ _) (Rel.rel_ite (shiftLeft_rel _ _) (Rel.rel_refl _))

theorem partialInsertionSort_rel (s : Sortable T) (a b : Nat) :
    Rel s (partialInsertionSort s a b).1 :=
  partialInsertionLoop_rel _ _ _ _ _

theorem pdqsortPrepare_rel (s : Sortable T) (a b limit : Nat) (wb wp : Bool) :
    Rel s (pdqsortPrepare s a b limit wb wp).data := by
  unfold pdqsortPrepare
  simp only
  have h1 : Rel s (if (!wb) = true then breakPatterns s a b else s) :=
    Rel.rel_ite (breakPatterns_rel s a b) (Rel.rel_refl s)
  generalize (if (!wb) = true then breakPatterns s a b else s) = s1 at h1 ⊢
  generalize choosePivot s1 a b = ph
  have h2 : Rel s1 (if decide (ph.2 = sortedHint.decreasingHint) = true
      then reverseRange s1 a b else s1) := Rel.rel_ite (reverseRange_rel _ a b) (Rel.rel_refl _)
  generalize (if decide (ph.2 = sortedHint.decreasingHint) = true
      then reverseRange s1 a b else s1) = s2 at h2 ⊢
  generalize (if decide (ph.2 = sortedHint.decreasingHint) = true
      then sortedHint.increasingHint else ph.2) = hint
  have h3 : Rel s2 (if (wb && wp && decide (hint = sortedHint.increasingHint)) = true
      then partialInsertionSort s2 a b else (s2, false)).1 := by
    split
    · exact partialInsertionSort_rel _ _ _
    · exact Rel.rel_refl _
  exact (h1.rel_trans h2).rel_trans h3

theorem pdqsort_rel (fuel : Nat) (s : Sortable T) (a b limit : Nat) (wb wp : Bool) :
    Rel s (pdqsort fuel s a b limit wb wp) := by
  induction fuel generalizing s a b limit wb wp with
  | zero => exact Rel.rel_refl s
  | succ fuel ih =>
    unfold pdqsort
    simp only
    have hpre := pdqsortPrepare_rel s a b limit wb wp
    generalize pdqsortPrepare s a b limit wb wp = pre at hpre ⊢
    refine Rel.rel_ite (insertionSort_rel _ _ _) (Rel.rel_ite (heapSort_rel _ _ _) (Rel.rel_ite hpre ?_))
    refine Rel.rel_ite ((hpre.rel_trans (partitionEqual_rel _ _ _ _)).rel_trans (ih _ _ _ _ _ _)) ?_
    have h4 := hpre.rel_trans (partition_rel pre.data a b pre.pivot)
    exact Rel.rel_ite ((h4.rel_trans (ih _ _ _ _ _ _)).rel_trans (ih _ _ _ _ _ _))
      ((h4.rel_trans (ih _ _ _ _ _ _)).rel_trans (ih _ _ _ _ _ _))

theorem sort_Sort_rel (s : Sortable T) : Rel s (sort_Sort s) := by
  unfold sort_Sort
  simp only
  split
  · exact Rel.rel_refl s
  · exact pdqsort_rel _ _ _ _ _ _ _

end GoSort

theorem SortAny_perm {T : Type} (data : List T) (lessMethod : T → T → Bool) :
    (SortAny data lessMethod).Perm data :=
  (GoSort.sort_Sort_rel { Data := data, LessMethod := lessMethod }).2

/-! ## Keys, order and locality -/

namespace Sortable

variable {T κ : Type} {K : T → κ} {z : T}

theorem keyAt_Swap (s : Sortable T) {i j : Nat} (hi : i < s.Data.length)
    (hj : j < s.Data.length) (k : Nat) :
    keyAt K z (s.Swap i j) k =
      if k = j then keyAt K z s i else if k = i then keyAt K z s j
      else keyAt K z s k := by
  simp only [keyAt, List.getD_eq_getElem?_getD, Swap_getElem? s hi hj k]
  split
  · rfl
  · split <;> rfl

theorem Less_iff [LinearOrder κ] {s : Sortable T} (h : OrderedBy K s) {i j : Nat} (hi : i < s.Data.length)
    (hj : j < s.Data.length) :
    s.Less i j = true ↔ keyAt K z s i < keyAt K z s j := by
  unfold Less keyAt
  simp only [List.getD_eq_getElem?_getD, List.getElem?_eq_getElem hi,
    List.getElem?_eq_getElem hj, Option.getD_some]
  exact h _ _

theorem Less_eq_false_iff [LinearOrder κ] {s : Sortable T} (h : OrderedBy K s) {i j : Nat}
    (hi : i < s.Data.length) (hj : j < s.Data.length) :
    s.Less i j = false ↔ keyAt K z s j ≤ keyAt K z s i := by
  rw [← not_lt, ← Less_iff (z := z) h hi hj]
  simp

theorem OrderedBy.ord_of_rel [LinearOrder κ] {s s' : Sortable T} (h : OrderedBy K s) (hr : Rel s s') :
    OrderedBy K s' := by
  intro x y
  rw [hr.1]
  exact h x y

theorem SameOutside.out_refl (a b : Nat) (s : Sortable T) : SameOutside a b s s :=
  fun _ _ => rfl

theorem SameOutside.out_trans {a b : Nat} {s₁ s₂ s₃ : Sortable T} (h₁ : SameOutside a b s₁ s₂)
    (h₂ : SameOutside a b s₂ s₃) : SameOutside a b s₁ s₃ :=
  fun k hk => (h₂ k hk).trans (h₁ k hk)

theorem SameOutside.out_mono {a b a' b' : Nat} {s s' : Sortable T} (h : SameOutside a b s s')
    (ha : a' ≤ a) (hb : b ≤ b') : SameOutside a' b' s s' :=
  fun k hk => h k (by omega)

theorem SameOutside.out_swap (s : Sortable T) {a b i j : Nat} (hi : a ≤ i ∧ i < b)
    (hj : a ≤ j ∧ j < b) : SameOutside a b s (s.Swap i j) :=
  fun k hk => Swap_getElem?_of_ne s i j (by omega) (by omega)

theorem SameOutside.out_ite {a b : Nat} {s x y : Sortable T} {c : Prop} [Decidable c]
    (h₁ : SameOutside a b s x) (h₂ : SameOutside a b s y) :
    SameOutside a b s (if c then x else y) := by
  split <;> assumption

theorem SameOutside.keyAt_eq {a b : Nat} {s s' : Sortable T} (h : SameOutside a b s s')
    {k : Nat} (hk : k < a ∨ b ≤ k) : keyAt K z s' k = keyAt K z s k := by
  simp only [keyAt, List.getD_eq_getElem?_getD, h k hk]

/-- Under a permutation that fixes everything outside `[a, b)`, every element found in `[a, b)`
afterwards was in `[a, b)` before. -/
theorem Rel.exists_index {a b : Nat} {s s' : Sortable T} (hr : Rel s s')
    (ho : SameOutside a b s s') (hb : b ≤ s.Data.length) {k : Nat} (hk1 : a ≤ k)
    (hk2 : k < b) : ∃ k', a ≤ k' ∧ k' < b ∧ s'.Data[k]? = s.Data[k']? := by
  have hlen : s'.Data.length = s.Data.length := hr.length
  have hP : s'.Data.take a = s.Data.take a := by
    apply List.ext_getElem?
    intro i
    simp only [List.getElem?_take]
    split
    · exact ho i (Or.inl ‹_›)
    · rfl
  have hQ : s'.Data.drop b = s.Data.drop b := by
    apply List.ext_getElem?
    intro i
    simp only [List.getElem?_drop]
    exact ho _ (Or.inr (by omega))
  have hd : ∀ d : List T, d = d.take a ++ ((d.drop a).take (b - a) ++ d.drop b) := by
    intro d
    have h2 : (d.drop a).drop (b - a) = d.drop b := by
      rw [List.drop_drop]; congr 1; omega
    rw [← h2, List.take_append_drop, List.take_append_drop]
  have hperm : ((s'.Data.drop a).take (b - a)).Perm ((s.Data.drop a).take (b - a)) := by
    have h := hr.2
    rw [hd s'.Data, hd s.Data, hP, hQ] at h
    exact (List.perm_append_right_iff _).mp ((List.perm_append_left_iff _).mp h)
  have hk' : k < s'.Data.length := by omega
  have hmem : s'.Data[k] ∈ (s'.Data.drop a).take (b - a) := by
    rw [List.mem_iff_getElem?]
    refine ⟨k - a, ?_⟩
    simp only [List.getElem?_take, List.getElem?_drop]
    rw [if_pos (by omega), show a + (k - a) = k by omega, List.getElem?_eq_getElem hk']
  obtain ⟨n, hn⟩ := List.mem_iff_getElem?.mp (hperm.mem_iff.mp hmem)
  simp only [List.getElem?_take, List.getElem?_drop] at hn
  split at hn
  · exact ⟨a + n, by omega, by omega, by rw [hn, List.getElem?_eq_getElem hk']⟩
  · simp at hn

/-- A bound on the keys of `[a, b)` survives a permutation of `[a, b)`. -/
theorem Rel.forall_keyAt {a b : Nat} {s s' : Sortable T} (hr : Rel s s')
    (ho : SameOutside a b s s') (hb : b ≤ s.Data.length) {P : κ → Prop}
    (h : ∀ k, a ≤ k → k < b → P (keyAt K z s k)) :
    ∀ k, a ≤ k → k < b → P (keyAt K z s' k) := by
  intro k hk1 hk2
  obtain ⟨k', h1, h2, h3⟩ := hr.exists_index ho hb hk1 hk2
  have h4 := h k' h1 h2
  simp only [keyAt, List.getD_eq_getElem?_getD] at h4 ⊢
  rw [h3]
  exact h4

end Sortable

/-! ## `insertionSort` sorts and is stable -/

namespace Sortable

variable {T κ : Type} [LinearOrder κ] {K : T → κ} {z : T}

theorem SortedOn.of_rel_outside {a b : Nat} {s s' : Sortable T} (h : SortedOn K z s a b)
    (ho : ∀ k, a ≤ k → k < b → s'.Data[k]? = s.Data[k]?) : SortedOn K z s' a b := by
  intro i j hi hij hj
  have e1 : keyAt K z s' i = keyAt K z s i := by
    simp only [keyAt, List.getD_eq_getElem?_getD, ho i hi (by omega)]
  have e2 : keyAt K z s' j = keyAt K z s j := by
    simp only [keyAt, List.getD_eq_getElem?_getD, ho j (by omega) hj]
  rw [e1, e2]
  exact h i j hi hij hj

theorem adjacent_set_filter (p : T → Bool) :
    ∀ (l : List T) (j : Nat) (u v : T), l[j]? = some u → l[j + 1]? = some v →
      ¬ (p u = true ∧ p v = true) →
      ((l.set (j + 1) u).set j v).filter p = l.filter p := by
  intro l
  induction l with
  | nil => intro j u v h; simp at h
  | cons x l ih =>
    intro j u v hu hv hp
    cases j with
    | zero =>
      cases l with
      | nil => simp at hv
      | cons y l =>
        simp at hu hv
        subst hu; subst hv
        simp only [List.set_cons_succ, List.set_cons_zero, List.filter_cons]
        cases hx : p x <;> cases hy : p y <;> simp_all
    | succ j =>
      simp only [List.getElem?_cons_succ] at hu hv
      simp only [List.set_cons_succ, List.filter_cons, ih j u v hu hv hp]

theorem SameOrderWithinKeys.keys_refl (s : Sortable T) : SameOrderWithinKeys K s s :=
  fun _ => rfl

theorem SameOrderWithinKeys.keys_trans {s₁ s₂ s₃ : Sortable T} (h₁ : SameOrderWithinKeys K s₁ s₂)
    (h₂ : SameOrderWithinKeys K s₂ s₃) : SameOrderWithinKeys K s₁ s₃ :=
  fun c => (h₂ c).trans (h₁ c)

theorem SameOrderWithinKeys.swap_adjacent {s : Sortable T} (hord : OrderedBy K s) {j : Nat}
    (h : s.Less (j + 1) j = true) : SameOrderWithinKeys K s (s.Swap (j + 1) j) := by
  intro c
  unfold Less at h
  unfold Swap
  split
  · rename_i u v hu hv
    rw [hu, hv] at h
    simp only at h
    have hlt := (hord u v).mp h
    apply adjacent_set_filter _ _ _ v u hv hu
    simp only [decide_eq_true_eq]
    rintro ⟨h1, h2⟩
    rw [h1, h2] at hlt
    exact lt_irrefl _ hlt
  · rfl

end Sortable

namespace GoSort

open Sortable

variable {T κ : Type} [LinearOrder κ] {K : T → κ} {z : T}

theorem insertionInner_stable (a : Nat) (j : Nat) (s : Sortable T) (hord : OrderedBy K s) :
    SameOrderWithinKeys K s (insertionInner a j s) := by
  induction j generalizing s with
  | zero => exact SameOrderWithinKeys.keys_refl s
  | succ j ih =>
    unfold insertionInner
    split
    · rename_i h
      simp only [Bool.and_eq_true, decide_eq_true_eq] at h
      exact (SameOrderWithinKeys.swap_adjacent hord h.2).keys_trans
        (ih _ (hord.ord_of_rel (Rel.rel_swap s _ _)))
    · exact SameOrderWithinKeys.keys_refl s

theorem insertionOuter_stable (a b n i : Nat) (s : Sortable T) (hord : OrderedBy K s) :
    SameOrderWithinKeys K s (insertionOuter a b n i s) := by
  induction n generalizing i s with
  | zero => exact SameOrderWithinKeys.keys_refl s
  | succ n ih =>
    unfold insertionOuter
    split
    · exact (insertionInner_stable a i s hord).keys_trans
        (ih _ _ (hord.ord_of_rel (insertionInner_rel a i s)))
    · exact SameOrderWithinKeys.keys_refl s

theorem insertionSort_stable (s : Sortable T) (a b : Nat) (hord : OrderedBy K s) :
    SameOrderWithinKeys K s (insertionSort s a b) :=
  insertionOuter_stable _ _ _ _ _ hord

/-- One run of the inner loop: the slice `[a, i]` is sorted except for the element at `j`, which
is at most everything to its right; afterwards `[a, i]` is sorted. -/
theorem insertionInner_spec (a i : Nat) (j : Nat) (s : Sortable T) (hord : OrderedBy K s)
    (haj : a ≤ j) (hji : j ≤ i) (hi : i < s.Data.length)
    (h1 : ∀ p q, a ≤ p → p < q → q ≤ i → p ≠ j → q ≠ j →
      keyAt K z s p ≤ keyAt K z s q)
    (h2 : ∀ q, j < q → q ≤ i → keyAt K z s j ≤ keyAt K z s q) :
    SameOutside a (i + 1) s (insertionInner a j s)
      ∧ SortedOn K z (insertionInner a j s) a (i + 1) := by
  induction j generalizing s with
  | zero =>
    refine ⟨SameOutside.out_refl _ _ _, ?_⟩
    intro p q hp hpq hq
    have ha : a = 0 := by omega
    by_cases hp0 : p = 0
    · subst hp0; exact h2 q hpq (by omega)
    · exact h1 p q hp hpq (by omega) hp0 (by omega)
  | succ j ih =>
    unfold insertionInner
    have hstop : ¬ (a < j + 1 ∧ keyAt K z s (j + 1) < keyAt K z s j) →
        SortedOn K z s a (i + 1) := by
      intro hc p q hp hpq hq
      by_cases hpj : p = j + 1
      · subst hpj; exact h2 q hpq (by omega)
      · by_cases hqj : q = j + 1
        · subst hqj
          have haj' : a < j + 1 := by omega
          have hle : keyAt K z s j ≤ keyAt K z s (j + 1) := by
            by_contra hlt
            exact hc ⟨haj', not_le.mp hlt⟩
          by_cases hpj' : p = j
          · subst hpj'; exact hle
          · exact le_trans (h1 p j hp (by omega) (by omega) (by omega) (by omega)) hle
        · exact h1 p q hp hpq (by omega) hpj hqj
    split
    · rename_i h
      simp only [Bool.and_eq_true, decide_eq_true_eq] at h
      have hlt : keyAt K z s (j + 1) < keyAt K z s j :=
        (Less_iff hord (by omega) (by omega)).mp h.2
      have hk := fun k => keyAt_Swap (K := K) (z := z) s (i := j + 1) (j := j)
        (by omega) (by omega) k
      obtain ⟨o1, o2⟩ := ih (s.Swap (j + 1) j) (hord.ord_of_rel (Rel.rel_swap s _ _)) (by omega)
        (by omega) (by simpa using hi)
        (by
          intro p q hp hpq hq hpj hqj
          rw [hk p, hk q]
          simp only [hpj, hqj, if_false]
          by_cases hq1 : q = j + 1
          · subst hq1
            simp only [if_true]
            split
            · omega
            · exact h1 p j hp (by omega) (by omega) (by omega) (by omega)
          · simp only [hq1, if_false]
            by_cases hp1 : p = j + 1
            · subst hp1
              simp only [if_true]
              exact h1 j q (by omega) (by omega) hq (by omega) hq1
            · simp only [hp1, if_false]
              exact h1 p q hp hpq hq hp1 hq1)
        (by
          intro q hq1 hq2
          rw [hk j, hk q]
          simp only [if_true]
          by_cases hq3 : q = j + 1
          · subst hq3
            simp only [if_true]
            split
            · omega
            · exact le_of_lt hlt
          · simp only [hq3, if_false]
            split
            · omega
            · exact h2 q (by omega) hq2)
      refine ⟨(SameOutside.out_swap s (by omega) (by omega)).out_trans o1, o2⟩
    · rename_i h
      simp only [Bool.and_eq_true, decide_eq_true_eq] at h
      refine ⟨SameOutside.out_refl _ _ _, hstop ?_⟩
      rintro ⟨h3, h4⟩
      exact h ⟨h3, (Less_iff hord (by omega) (by omega)).mpr h4⟩

theorem insertionOuter_spec (a b n i : Nat) (s : Sortable T) (hord : OrderedBy K s)
    (hai : a < i) (hib : i ≤ b) (hb : b ≤ s.Data.length) (hn : b - i ≤ n)
    (hs : SortedOn K z s a i) :
    SameOutside a b s (insertionOuter a b n i s)
      ∧ SortedOn K z (insertionOuter a b n i s) a b := by
  induction n generalizing i s with
  | zero =>
    have : i = b := by omega
    subst this
    exact ⟨SameOutside.out_refl _ _ _, hs⟩
  | succ n ih =>
    unfold insertionOuter
    split
    · rename_i hlt
      obtain ⟨o1, o2⟩ := insertionInner_spec (K := K) (z := z) a i i s hord (by omega)
        (le_refl _) (by omega)
        (fun p q hp hpq hq _ hqi => hs p q hp hpq (by omega))
        (fun q hq1 hq2 => by omega)
      have hr := insertionInner_rel a i s
      obtain ⟨o3, o4⟩ := ih (i + 1) (insertionInner a i s) (hord.ord_of_rel hr) (by omega)
        (by omega) (by rw [hr.length]; exact hb) (by omega) o2
      exact ⟨(o1.out_mono (le_refl _) (by omega)).out_trans o3, o4⟩
    · have : i = b := by omega
      subst this
      exact ⟨SameOutside.out_refl _ _ _, hs⟩

theorem insertionSort_spec (s : Sortable T) (a b : Nat) (hord : OrderedBy K s)
    (hb : b ≤ s.Data.length) :
    SameOutside a b s (insertionSort s a b) ∧ SortedOn K z (insertionSort s a b) a b := by
  unfold insertionSort
  by_cases hab : a + 1 ≤ b
  · exact insertionOuter_spec a b _ (a + 1) s hord (by omega) hab hb (le_refl _)
      (fun p q hp hpq hq => by omega)
  · have h0 : b - (a + 1) = 0 := by omega
    rw [h0]
    exact ⟨SameOutside.out_refl _ _ _, fun p q hp hpq hq => by omega⟩

end GoSort

/-! ## `partition` and `partitionEqual` -/

namespace GoSort

open Sortable

variable {T κ : Type} [LinearOrder κ] {K : T → κ} {z : T}

theorem scanLessUp_spec (s : Sortable T) (hord : OrderedBy K s) (a j : Nat) (n i : Nat)
    (ha : a < s.Data.length) (hj : j < s.Data.length) (hi : i ≤ j + 1) (hn : j + 1 - i ≤ n) :
    i ≤ scanLessUp s a j n i ∧ scanLessUp s a j n i ≤ j + 1
      ∧ (∀ k, i ≤ k → k < scanLessUp s a j n i → keyAt K z s k < keyAt K z s a)
      ∧ (scanLessUp s a j n i ≤ j →
          keyAt K z s a ≤ keyAt K z s (scanLessUp s a j n i)) := by
  induction n generalizing i with
  | zero =>
    unfold scanLessUp
    exact ⟨le_refl _, hi, fun k h1 h2 => by omega, fun h => by omega⟩
  | succ n ih =>
    unfold scanLessUp
    split
    · rename_i h
      simp only [Bool.and_eq_true, decide_eq_true_eq] at h
      obtain ⟨h1, h2, h3, h4⟩ := ih (i + 1) (by omega) (by omega)
      refine ⟨by omega, h2, ?_, h4⟩
      intro k hk1 hk2
      by_cases hki : k = i
      · subst hki; exact (Less_iff hord (by omega) ha).mp h.2
      · exact h3 k (by omega) hk2
    · rename_i h
      simp only [Bool.and_eq_true, decide_eq_true_eq, not_and, Bool.not_eq_true] at h
      refine ⟨le_refl _, hi, fun k h1 h2 => by omega, fun hle => ?_⟩
      exact (Less_eq_false_iff hord (by omega) ha).mp (h hle)

theorem scanGeDown_spec (s : Sortable T) (hord : OrderedBy K s) (a i : Nat) (j : Nat)
    (ha : a < s.Data.length) (hj : j < s.Data.length) (hi : 1 ≤ i) :
    scanGeDown s a i j ≤ j ∧ (i ≤ j + 1 → i ≤ scanGeDown s a i j + 1)
      ∧ (∀ k, scanGeDown s a i j < k → k ≤ j → keyAt K z s a ≤ keyAt K z s k)
      ∧ (i ≤ scanGeDown s a i j →
          keyAt K z s (scanGeDown s a i j) < keyAt K z s a) := by
  induction j with
  | zero =>
    unfold scanGeDown
    exact ⟨le_refl _, fun h => h, fun k h1 h2 => by omega, fun h => by omega⟩
  | succ j ih =>
    unfold scanGeDown
    split
    · rename_i h
      simp only [Bool.and_eq_true, decide_eq_true_eq, Bool.not_eq_true'] at h
      obtain ⟨h1, h2, h3, h4⟩ := ih (by omega)
      refine ⟨by omega, fun _ => h2 (by omega), ?_, h4⟩
      intro k hk1 hk2
      by_cases hkj : k = j + 1
      · subst hkj; exact (Less_eq_false_iff hord hj ha).mp h.2
      · exact h3 k hk1 (by omega)
    · rename_i h
      simp only [Bool.and_eq_true, decide_eq_true_eq, Bool.not_eq_true', not_and,
        Bool.not_eq_false] at h
      refine ⟨le_refl _, fun h => h, fun k h1 h2 => by omega, fun hle => ?_⟩
      exact (Less_iff hord hj ha).mp (h hle)

theorem partitionLoop_spec (a b : Nat) (n i j : Nat) (s : Sortable T) (hord : OrderedBy K s)
    (hai : a < i) (hij : i ≤ j + 1) (hjb : j < b) (hb : b ≤ s.Data.length)
    (hn : j + 1 - i ≤ n)
    (hL : ∀ k, a < k → k < i → keyAt K z s k < keyAt K z s a)
    (hR : ∀ k, j < k → k < b → keyAt K z s a ≤ keyAt K z s k) :
    SameOutside (a + 1) b s (partitionLoop a n i j s).1
      ∧ a ≤ (partitionLoop a n i j s).2 ∧ (partitionLoop a n i j s).2 < b
      ∧ (∀ k, a < k → k ≤ (partitionLoop a n i j s).2 →
          keyAt K z (partitionLoop a n i j s).1 k < keyAt K z s a)
      ∧ (∀ k, (partitionLoop a n i j s).2 < k → k < b →
          keyAt K z s a ≤ keyAt K z (partitionLoop a n i j s).1 k) := by
  induction n generalizing i j s with
  | zero =>
    unfold partitionLoop
    exact ⟨SameOutside.out_refl _ _ _, by omega, hjb, fun k h1 h2 => hL k h1 (by omega), hR⟩
  | succ n ih =>
    unfold partitionLoop
    simp only
    obtain ⟨u1, u2, u3, u4⟩ := scanLessUp_spec (K := K) (z := z) s hord a j (j + 1 - i) i
      (by omega) (by omega) hij (le_refl _)
    generalize scanLessUp s a j (j + 1 - i) i = i1 at u1 u2 u3 u4 ⊢
    obtain ⟨d1, d2, d3, d4⟩ := scanGeDown_spec (K := K) (z := z) s hord a i1 j
      (by omega) (by omega) (by omega)
    generalize scanGeDown s a i1 j = j1 at d1 d2 d3 d4 ⊢
    have d2' := d2 u2
    have hL1 : ∀ k, a < k → k < i1 → keyAt K z s k < keyAt K z s a := by
      intro k h1 h2
      by_cases hk : k < i
      · exact hL k h1 hk
      · exact u3 k (by omega) h2
    have hR1 : ∀ k, j1 < k → k < b → keyAt K z s a ≤ keyAt K z s k := by
      intro k h1 h2
      by_cases hk : j < k
      · exact hR k hk h2
      · exact d3 k h1 (by omega)
    split
    · exact ⟨SameOutside.out_refl _ _ _, by omega, by omega, fun k h1 h2 => hL1 k h1 (by omega),
        hR1⟩
    · rename_i hlt
      have hle : i1 ≤ j1 := by omega
      have e1 := u4 (by omega)
      have e2 := d4 hle
      have hne : i1 ≠ j1 := by
        intro h; subst h; exact absurd e2 (not_lt.mpr e1)
      have hk := fun k => keyAt_Swap (K := K) (z := z) s (i := i1) (j := j1)
        (by omega) (by omega) k
      have hka : keyAt K z (s.Swap i1 j1) a = keyAt K z s a := by
        rw [hk a, if_neg (by omega), if_neg (by omega)]
      obtain ⟨r1, r2, r3, r4, r5⟩ := ih (i1 + 1) (j1 - 1) (s.Swap i1 j1)
        (hord.ord_of_rel (Rel.rel_swap s _ _)) (by omega) (by omega) (by omega) (by simpa using hb)
        (by omega)
        (by
          intro k h1 h2
          rw [hka, hk k]
          split
          · omega
          · split
            · exact e2
            · exact hL1 k h1 (by omega))
        (by
          intro k h1 h2
          rw [hka, hk k]
          split
          · exact e1
          · split
            · omega
            · exact hR1 k (by omega) h2)
      rw [hka] at r4 r5
      exact ⟨(SameOutside.out_swap s (by omega) (by omega)).out_trans r1, r2, r3, r4, r5⟩

theorem partition_spec (s : Sortable T) (hord : OrderedBy K s) (a b pivot : Nat)
    (hap : a ≤ pivot) (hpb : pivot < b) (hb : b ≤ s.Data.length) :
    SameOutside a b s (partition s a b pivot).1
      ∧ a ≤ (partition s a b pivot).2.1 ∧ (partition s a b pivot).2.1 < b
      ∧ (∀ k, a ≤ k → k < (partition s a b pivot).2.1 →
          keyAt K z (partition s a b pivot).1 k < keyAt K z s pivot)
      ∧ keyAt K z (partition s a b pivot).1 (partition s a b pivot).2.1
          = keyAt K z s pivot
      ∧ (∀ k, (partition s a b pivot).2.1 < k → k < b →
          keyAt K z s pivot ≤ keyAt K z (partition s a b pivot).1 k) := by
  have hs1 : (partition s a b pivot).1 =
      (partitionLoop a (b - a + 1) (a + 1) (b - 1) (s.Swap a pivot)).1.Swap
        (partitionLoop a (b - a + 1) (a + 1) (b - 1) (s.Swap a pivot)).2 a := by
    unfold partition
    rw [partitionLoop]
    simp only
    split <;> rfl
  have hs2 : (partition s a b pivot).2.1 =
      (partitionLoop a (b - a + 1) (a + 1) (b - 1) (s.Swap a pivot)).2 := by
    unfold partition
    rw [partitionLoop]
    simp only
    split <;> rfl
  have hord1 : OrderedBy K (s.Swap a pivot) := hord.ord_of_rel (Rel.rel_swap s _ _)
  have hka : keyAt K z (s.Swap a pivot) a = keyAt K z s pivot := by
    rw [keyAt_Swap s (by omega) (by omega)]
    split
    · subst_vars; rfl
    · simp
  obtain ⟨r1, r2, r3, r4, r5⟩ := partitionLoop_spec (K := K) (z := z) a b (b - a + 1)
    (a + 1) (b - 1) (s.Swap a pivot) hord1 (by omega) (by omega) (by omega) (by simpa using hb)
    (by omega) (fun k h1 h2 => by omega) (fun k h1 h2 => by omega)
  rw [hs1, hs2]
  have hrel : Rel (s.Swap a pivot)
      (partitionLoop a (b - a + 1) (a + 1) (b - 1) (s.Swap a pivot)).1 :=
    partitionLoop_rel _ _ _ _ _
  generalize partitionLoop a (b - a + 1) (a + 1) (b - 1) (s.Swap a pivot) = r
    at r1 r2 r3 r4 r5 hrel ⊢
  have hlen : r.1.Data.length = s.Data.length := by rw [hrel.length]; simp
  have hra : keyAt K z r.1 a = keyAt K z s pivot := by
    rw [← hka]; exact r1.keyAt_eq (Or.inl (by omega))
  have hk := fun k => keyAt_Swap (K := K) (z := z) r.1 (i := r.2) (j := a)
    (by omega) (by omega) k
  rw [hka] at r4 r5
  refine ⟨?_, r2, r3, ?_, ?_, ?_⟩
  · exact ((SameOutside.out_swap s (by omega) (by omega)).out_trans
      (r1.out_mono (by omega) (le_refl _))).out_trans (SameOutside.out_swap _ (by omega) (by omega))
  · intro k h1 h2
    rw [hk k]
    split
    · exact r4 r.2 (by omega) (le_refl _)
    · split
      · omega
      · exact r4 k (by omega) (by omega)
  · rw [hk r.2]
    split
    · rename_i h; rw [h]; exact hra
    · simp [hra]
  · intro k h1 h2
    rw [hk k, if_neg (by omega), if_neg (by omega)]
    exact r5 k h1 h2

theorem scanEqUp_spec (s : Sortable T) (hord : OrderedBy K s) (a j : Nat) (n i : Nat)
    (ha : a < s.Data.length) (hj : j < s.Data.length) (hi : i ≤ j + 1) (hn : j + 1 - i ≤ n) :
    i ≤ scanEqUp s a j n i ∧ scanEqUp s a j n i ≤ j + 1
      ∧ (∀ k, i ≤ k → k < scanEqUp s a j n i → keyAt K z s k ≤ keyAt K z s a)
      ∧ (scanEqUp s a j n i ≤ j →
          keyAt K z s a < keyAt K z s (scanEqUp s a j n i)) := by
  induction n generalizing i with
  | zero =>
    unfold scanEqUp
    exact ⟨le_refl _, hi, fun k h1 h2 => by omega, fun h => by omega⟩
  | succ n ih =>
    unfold scanEqUp
    split
    · rename_i h
      simp only [Bool.and_eq_true, decide_eq_true_eq, Bool.not_eq_true'] at h
      obtain ⟨h1, h2, h3, h4⟩ := ih (i + 1) (by omega) (by omega)
      refine ⟨by omega, h2, ?_, h4⟩
      intro k hk1 hk2
      by_cases hki : k = i
      · subst hki; exact (Less_eq_false_iff hord ha (by omega)).mp h.2
      · exact h3 k (by omega) hk2
    · rename_i h
      simp only [Bool.and_eq_true, decide_eq_true_eq, Bool.not_eq_true', not_and,
        Bool.not_eq_false] at h
      refine ⟨le_refl _, hi, fun k h1 h2 => by omega, fun hle => ?_⟩
      exact (Less_iff hord ha (by omega)).mp (h hle)

theorem scanGtDown_spec (s : Sortable T) (hord : OrderedBy K s) (a i : Nat) (j : Nat)
    (ha : a < s.Data.length) (hj : j < s.Data.length) (hi : 1 ≤ i) :
    scanGtDown s a i j ≤ j ∧ (i ≤ j + 1 → i ≤ scanGtDown s a i j + 1)
      ∧ (∀ k, scanGtDown s a i j < k → k ≤ j → keyAt K z s a < keyAt K z s k)
      ∧ (i ≤ scanGtDown s a i j →
          keyAt K z s (scanGtDown s a i j) ≤ keyAt K z s a) := by
  induction j with
  | zero =>
    unfold scanGtDown
    exact ⟨le_refl _, fun h => h, fun k h1 h2 => by omega, fun h => by omega⟩
  | succ j ih =>
    unfold scanGtDown
    split
    · rename_i h
      simp only [Bool.and_eq_true, decide_eq_true_eq] at h
      obtain ⟨h1, h2, h3, h4⟩ := ih (by omega)
      refine ⟨by omega, fun _ => h2 (by omega), ?_, h4⟩
      intro k hk1 hk2
      by_cases hkj : k = j + 1
      · subst hkj; exact (Less_iff hord ha hj).mp h.2
      · exact h3 k hk1 (by omega)
    · rename_i h
      simp only [Bool.and_eq_true, decide_eq_true_eq, not_and, Bool.not_eq_true] at h
      refine ⟨le_refl _, fun h => h, fun k h1 h2 => by omega, fun hle => ?_⟩
      exact (Less_eq_false_iff hord ha hj).mp (h hle)

theorem partitionEqualLoop_spec (a b : Nat) (n i j : Nat) (s : Sortable T)
    (hord : OrderedBy K s) (hai : a < i) (hij : i ≤ j + 1) (hjb : j < b)
    (hb : b ≤ s.Data.length) (hn : j + 1 - i ≤ n)
    (hL : ∀ k, a < k → k < i → keyAt K z s k ≤ keyAt K z s a)
    (hR : ∀ k, j < k → k < b → keyAt K z s a < keyAt K z s k) :
    SameOutside (a + 1) b s (partitionEqualLoop a n i j s).1
      ∧ a < (partitionEqualLoop a n i j s).2 ∧ (partitionEqualLoop a n i j s).2 ≤ b
      ∧ (∀ k, a < k → k < (partitionEqualLoop a n i j s).2 →
          keyAt K z (partitionEqualLoop a n i j s).1 k ≤ keyAt K z s a)
      ∧ (∀ k, (partitionEqualLoop a n i j s).2 ≤ k → k < b →
          keyAt K z s a < keyAt K z (partitionEqualLoop a n i j s).1 k) := by
  induction n generalizing i j s with
  | zero =>
    unfold partitionEqualLoop
    exact ⟨SameOutside.out_refl _ _ _, hai, by omega, hL, fun k h1 h2 => hR k (by omega) h2⟩
  | succ n ih =>
    unfold partitionEqualLoop
    simp only
    obtain ⟨u1, u2, u3, u4⟩ := scanEqUp_spec (K := K) (z := z) s hord a j (j + 1 - i) i
      (by omega) (by omega) hij (le_refl _)
    generalize scanEqUp s a j (j + 1 - i) i = i1 at u1 u2 u3 u4 ⊢
    obtain ⟨d1, d2, d3, d4⟩ := scanGtDown_spec (K := K) (z := z) s hord a i1 j
      (by omega) (by omega) (by omega)
    generalize scanGtDown s a i1 j = j1 at d1 d2 d3 d4 ⊢
    have d2' := d2 u2
    have hL1 : ∀ k, a < k → k < i1 → keyAt K z s k ≤ keyAt K z s a := by
      intro k h1 h2
      by_cases hk : k < i
      · exact hL k h1 hk
      · exact u3 k (by omega) h2
    have hR1 : ∀ k, j1 < k → k < b → keyAt K z s a < keyAt K z s k := by
      intro k h1 h2
      by_cases hk : j < k
      · exact hR k hk h2
      · exact d3 k h1 (by omega)
    split
    · exact ⟨SameOutside.out_refl _ _ _, by omega, by omega, hL1,
        fun k h1 h2 => hR1 k (by omega) h2⟩
    · rename_i hlt
      have hle : i1 ≤ j1 := by omega
      have e1 := u4 (by omega)
      have e2 := d4 hle
      have hne : i1 ≠ j1 := by
        intro h; subst h; exact absurd e1 (not_lt.mpr e2)
      have hk := fun k => keyAt_Swap (K := K) (z := z) s (i := i1) (j := j1)
        (by omega) (by omega) k
      have hka : keyAt K z (s.Swap i1 j1) a = keyAt K z s a := by
        rw [hk a, if_neg (by omega), if_neg (by omega)]
      obtain ⟨r1, r2, r3, r4, r5⟩ := ih (i1 + 1) (j1 - 1) (s.Swap i1 j1)
        (hord.ord_of_rel (Rel.rel_swap s _ _)) (by omega) (by omega) (by omega) (by simpa using hb)
        (by omega)
        (by
          intro k h1 h2
          rw [hka, hk k]
          split
          · omega
          · split
            · exact e2
            · exact hL1 k h1 (by omega))
        (by
          intro k h1 h2
          rw [hka, hk k]
          split
          · exact e1
          · split
            · omega
            · exact hR1 k (by omega) h2)
      rw [hka] at r4 r5
      exact ⟨(SameOutside.out_swap s (by omega) (by omega)).out_trans r1, r2, r3, r4, r5⟩

theorem partitionEqual_spec (s : Sortable T) (hord : OrderedBy K s) (a b pivot : Nat)
    (hap : a ≤ pivot) (hpb : pivot < b) (hb : b ≤ s.Data.length) :
    SameOutside a b s (partitionEqual s a b pivot).1
      ∧ a < (partitionEqual s a b pivot).2 ∧ (partitionEqual s a b pivot).2 ≤ b
      ∧ (∀ k, a ≤ k → k < (partitionEqual s a b pivot).2 →
          keyAt K z (partitionEqual s a b pivot).1 k ≤ keyAt K z s pivot)
      ∧ (∀ k, (partitionEqual s a b pivot).2 ≤ k → k < b →
          keyAt K z s pivot < keyAt K z (partitionEqual s a b pivot).1 k) := by
  have hord1 : OrderedBy K (s.Swap a pivot) := hord.ord_of_rel (Rel.rel_swap s _ _)
  have hka : keyAt K z (s.Swap a pivot) a = keyAt K z s pivot := by
    rw [keyAt_Swap s (by omega) (by omega)]
    split
    · subst_vars; rfl
    · simp
  unfold partitionEqual
  simp only
  obtain ⟨r1, r2, r3, r4, r5⟩ := partitionEqualLoop_spec (K := K) (z := z) a b (b - a)
    (a + 1) (b - 1) (s.Swap a pivot) hord1 (by omega) (by omega) (by omega) (by simpa using hb)
    (by omega) (fun k h1 h2 => by omega) (fun k h1 h2 => by omega)
  generalize partitionEqualLoop a (b - a) (a + 1) (b - 1) (s.Swap a pivot) = r
    at r1 r2 r3 r4 r5 ⊢
  rw [hka] at r4 r5
  refine ⟨(SameOutside.out_swap s (by omega) (by omega)).out_trans (r1.out_mono (by omega) (le_refl _)),
    r2, r3, ?_, r5⟩
  intro k h1 h2
  by_cases hk : k = a
  · subst hk
    rw [r1.keyAt_eq (Or.inl (by omega)), hka]
  · exact r4 k (by omega) h2

end GoSort

/-! ## `heapSort` -/

namespace GoSort

open Sortable

variable {T κ : Type} [LinearOrder κ] {K : T → κ} {z : T}

theorem siftDownLoop_spec (hi first lo : Nat) (n root : Nat) (s : Sortable T)
    (hord : OrderedBy K s) (hlen : first + hi ≤ s.Data.length) (hroot : lo ≤ root)
    (hn : hi - root ≤ n)
    (h1 : ∀ p c, lo ≤ p → p ≠ root → c < hi → (c = 2 * p + 1 ∨ c = 2 * p + 2) →
      keyAt K z s (first + c) ≤ keyAt K z s (first + p))
    (h2 : ∀ pr c, lo ≤ pr → (root = 2 * pr + 1 ∨ root = 2 * pr + 2) → c < hi →
      (c = 2 * root + 1 ∨ c = 2 * root + 2) →
      keyAt K z s (first + c) ≤ keyAt K z s (first + pr)) :
    SameOutside (first + lo) (first + hi) s (siftDownLoop hi first n root s)
      ∧ ∀ p c, lo ≤ p → c < hi → (c = 2 * p + 1 ∨ c = 2 * p + 2) →
        keyAt K z (siftDownLoop hi first n root s) (first + c)
          ≤ keyAt K z (siftDownLoop hi first n root s) (first + p) := by
  induction n generalizing root s with
  | zero =>
    unfold siftDownLoop
    refine ⟨SameOutside.out_refl _ _ _, ?_⟩
    intro p c hp hc hpc
    by_cases hpr : p = root
    · omega
    · exact h1 p c hp hpr hc hpc
  | succ n ih =>
    unfold siftDownLoop
    simp only
    split
    · refine ⟨SameOutside.out_refl _ _ _, ?_⟩
      intro p c hp hc hpc
      by_cases hpr : p = root
      · omega
      · exact h1 p c hp hpr hc hpc
    · rename_i hchild
      have hc1 : 2 * root + 1 < hi := by omega
      -- the larger child
      have hbig : ∃ ch, (ch = 2 * root + 1 ∨ ch = 2 * root + 2) ∧ ch < hi
          ∧ (if (decide (2 * root + 1 + 1 < hi) &&
                s.Less (first + (2 * root + 1)) (first + (2 * root + 1) + 1)) = true
              then 2 * root + 1 + 1 else 2 * root + 1) = ch
          ∧ ∀ c, c < hi → (c = 2 * root + 1 ∨ c = 2 * root + 2) →
            keyAt K z s (first + c) ≤ keyAt K z s (first + ch) := by
        split
        · rename_i h
          simp only [Bool.and_eq_true, decide_eq_true_eq] at h
          refine ⟨2 * root + 2, Or.inr rfl, by omega, rfl, ?_⟩
          intro c hc hcc
          rcases hcc with hcc | hcc
          · subst hcc
            exact le_of_lt ((Less_iff hord (by omega) (by omega)).mp h.2)
          · subst hcc; exact le_refl _
        · rename_i h
          simp only [Bool.and_eq_true, decide_eq_true_eq, not_and, Bool.not_eq_true] at h
          refine ⟨2 * root + 1, Or.inl rfl, by omega, rfl, ?_⟩
          intro c hc hcc
          rcases hcc with hcc | hcc
          · subst hcc; exact le_refl _
          · subst hcc
            exact (Less_eq_false_iff hord (by omega) (by omega)).mp (h (by omega))
      obtain ⟨ch, hch, hchhi, hcheq, hchmax⟩ := hbig
      rw [hcheq]
      split
      · rename_i hnl
        simp only [Bool.not_eq_true'] at hnl
        have hle := (Less_eq_false_iff (z := z) hord (i := first + root) (j := first + ch)
          (by omega) (by omega)).mp hnl
        refine ⟨SameOutside.out_refl _ _ _, ?_⟩
        intro p c hp hc hpc
        by_cases hpr : p = root
        · subst hpr; exact le_trans (hchmax c hc hpc) hle
        · exact h1 p c hp hpr hc hpc
      · rename_i hl
        simp only [Bool.not_eq_true', Bool.not_eq_false] at hl
        have hlt := (Less_iff (z := z) hord (i := first + root) (j := first + ch)
          (by omega) (by omega)).mp hl
        have hk := fun k => keyAt_Swap (K := K) (z := z) s (i := first + root)
          (j := first + ch) (by omega) (by omega) k
        have eroot : keyAt K z (s.Swap (first + root) (first + ch)) (first + root)
            = keyAt K z s (first + ch) := by
          rw [hk, if_neg (by omega), if_pos rfl]
        have ech : keyAt K z (s.Swap (first + root) (first + ch)) (first + ch)
            = keyAt K z s (first + root) := by
          rw [hk, if_pos rfl]
        have eoth : ∀ x, x ≠ root → x ≠ ch →
            keyAt K z (s.Swap (first + root) (first + ch)) (first + x)
              = keyAt K z s (first + x) := by
          intro x h1 h2
          rw [hk, if_neg (by omega), if_neg (by omega)]
        obtain ⟨o1, o2⟩ := ih ch (s.Swap (first + root) (first + ch))
          (hord.ord_of_rel (Rel.rel_swap s _ _)) (by simpa using hlen) (by omega) (by omega)
          (by
            intro p c hp hpch hc hpc
            by_cases hpr : p = root
            · rw [hpr, eroot]
              by_cases hcch : c = ch
              · rw [hcch, ech]; exact le_of_lt hlt
              · rw [eoth c (by omega) hcch]
                exact hchmax c hc (by omega)
            · rw [eoth p hpr hpch]
              by_cases hcr : c = root
              · rw [hcr, eroot]
                exact h2 p ch hp (by omega) hchhi hch
              · rw [eoth c hcr (by omega)]
                exact h1 p c hp hpr hc hpc)
          (by
            intro pr c hpr hprch hc hcc
            have hprr : pr = root := by omega
            rw [hprr, eroot, eoth c (by omega) (by omega)]
            exact h1 ch c (by omega) (by omega) hc hcc)
        exact ⟨(SameOutside.out_swap s (by omega) (by omega)).out_trans
          (o1.out_mono (by omega) (le_refl _)), o2⟩

theorem siftDown_spec (s : Sortable T) (hord : OrderedBy K s) (lo hi first : Nat)
    (hlen : first + hi ≤ s.Data.length)
    (h : ∀ p c, lo + 1 ≤ p → c < hi → (c = 2 * p + 1 ∨ c = 2 * p + 2) →
      keyAt K z s (first + c) ≤ keyAt K z s (first + p)) :
    SameOutside (first + lo) (first + hi) s (siftDown s lo hi first)
      ∧ ∀ p c, lo ≤ p → c < hi → (c = 2 * p + 1 ∨ c = 2 * p + 2) →
        keyAt K z (siftDown s lo hi first) (first + c)
          ≤ keyAt K z (siftDown s lo hi first) (first + p) :=
  siftDownLoop_spec hi first lo hi lo s hord hlen (le_refl _) (by omega)
    (fun p c hp hpl hc hpc => h p c (by omega) hc hpc)
    (fun pr c hpr hpc _ _ => by omega)

theorem heapBuild_spec (hi first : Nat) (i : Nat) (s : Sortable T) (hord : OrderedBy K s)
    (hlen : first + hi ≤ s.Data.length)
    (h : ∀ p c, i + 1 ≤ p → c < hi → (c = 2 * p + 1 ∨ c = 2 * p + 2) →
      keyAt K z s (first + c) ≤ keyAt K z s (first + p)) :
    SameOutside first (first + hi) s (heapBuild hi first i s)
      ∧ ∀ p c, c < hi → (c = 2 * p + 1 ∨ c = 2 * p + 2) →
        keyAt K z (heapBuild hi first i s) (first + c)
          ≤ keyAt K z (heapBuild hi first i s) (first + p) := by
  induction i generalizing s with
  | zero =>
    unfold heapBuild
    obtain ⟨o1, o2⟩ := siftDown_spec (K := K) (z := z) s hord 0 hi first hlen h
    exact ⟨o1, fun p c hc hpc => o2 p c (Nat.zero_le _) hc hpc⟩
  | succ i ih =>
    unfold heapBuild
    obtain ⟨o1, o2⟩ := siftDown_spec (K := K) (z := z) s hord (i + 1) hi first hlen h
    have hr := siftDown_rel s (i + 1) hi first
    obtain ⟨o3, o4⟩ := ih (siftDown s (i + 1) hi first) (hord.ord_of_rel hr)
      (by rw [hr.length]; exact hlen) o2
    exact ⟨(o1.out_mono (by omega) (le_refl _)).out_trans o3, o4⟩

theorem heap_root_max (s : Sortable T) (first n : Nat)
    (h : ∀ p c, c < n → (c = 2 * p + 1 ∨ c = 2 * p + 2) →
      keyAt K z s (first + c) ≤ keyAt K z s (first + p)) :
    ∀ c, c < n → keyAt K z s (first + c) ≤ keyAt K z s (first + 0) := by
  intro c
  induction c using Nat.strong_induction_on with
  | _ c ih =>
    intro hc
    by_cases h0 : c = 0
    · subst h0; exact le_refl _
    · have hp : c = 2 * ((c - 1) / 2) + 1 ∨ c = 2 * ((c - 1) / 2) + 2 := by omega
      exact le_trans (h ((c - 1) / 2) c hc hp) (ih ((c - 1) / 2) (by omega) (by omega))

theorem heapPop_spec (first hi : Nat) (n : Nat) (s : Sortable T) (hord : OrderedBy K s)
    (hlen : first + hi ≤ s.Data.length) (hn : n ≤ hi)
    (hheap : ∀ p c, c < n → (c = 2 * p + 1 ∨ c = 2 * p + 2) →
      keyAt K z s (first + c) ≤ keyAt K z s (first + p))
    (hsorted : SortedOn K z s (first + n) (first + hi))
    (hcross : ∀ p q, p < n → n ≤ q → q < hi →
      keyAt K z s (first + p) ≤ keyAt K z s (first + q)) :
    SameOutside first (first + hi) s (heapPop first n s)
      ∧ SortedOn K z (heapPop first n s) first (first + hi) := by
  induction n generalizing s with
  | zero =>
    unfold heapPop
    exact ⟨SameOutside.out_refl _ _ _, by simpa using hsorted⟩
  | succ i ih =>
    unfold heapPop
    have hmax := heap_root_max (K := K) (z := z) s first (i + 1) hheap
    have hk := fun k => keyAt_Swap (K := K) (z := z) s (i := first) (j := first + i)
      (by omega) (by omega) k
    have hr2 := Rel.rel_swap s first (first + i)
    have hord2 := hord.ord_of_rel hr2
    -- every element of the shrunk heap is at most the old root
    have hle2 : ∀ k, k < i → keyAt K z (s.Swap first (first + i)) (first + k)
        ≤ keyAt K z s (first + 0) := by
      intro k hk1
      rw [hk (first + k), if_neg (by omega)]
      split
      · exact hmax i (by omega)
      · exact hmax k (by omega)
    have h2i : keyAt K z (s.Swap first (first + i)) (first + i)
        = keyAt K z s (first + 0) := by
      rw [hk (first + i), if_pos rfl]; rfl
    have h2q : ∀ q, i + 1 ≤ q → keyAt K z (s.Swap first (first + i)) (first + q)
        = keyAt K z s (first + q) := by
      intro q hq
      rw [hk (first + q), if_neg (by omega), if_neg (by omega)]
    obtain ⟨o1, o2⟩ := siftDown_spec (K := K) (z := z) (s.Swap first (first + i)) hord2
      0 i first (by simp; omega)
      (by
        intro p c hp hc hpc
        rw [hk (first + c), hk (first + p), if_neg (by omega), if_neg (by omega),
          if_neg (by omega), if_neg (by omega)]
        exact hheap p c (by omega) hpc)
    have hr3 := siftDown_rel (s.Swap first (first + i)) 0 i first
    have o1' : SameOutside first (first + i) (s.Swap first (first + i))
        (siftDown (s.Swap first (first + i)) 0 i first) := by simpa using o1
    have hle3 : ∀ k, first ≤ k → k < first + i →
        keyAt K z (siftDown (s.Swap first (first + i)) 0 i first) k
          ≤ keyAt K z s (first + 0) :=
      Rel.forall_keyAt (P := fun x => x ≤ keyAt K z s (first + 0)) hr3 o1'
        (by simp; omega)
        (by
          intro k hk1 hk2
          have := hle2 (k - first) (by omega)
          rwa [show first + (k - first) = k by omega] at this)
    have h3q : ∀ q, i ≤ q → keyAt K z (siftDown (s.Swap first (first + i)) 0 i first)
        (first + q) = keyAt K z (s.Swap first (first + i)) (first + q) :=
      fun q hq => o1'.keyAt_eq (Or.inr (by omega))
    obtain ⟨o3, o4⟩ := ih (siftDown (s.Swap first (first + i)) 0 i first)
      (hord2.ord_of_rel hr3) (by rw [hr3.length]; simp; omega) (by omega)
      (fun p c hc hpc => o2 p c (Nat.zero_le _) hc hpc)
      (by
        intro p q hp hpq hq
        rw [show p = first + (p - first) by omega, show q = first + (q - first) by omega,
          h3q _ (by omega), h3q _ (by omega)]
        by_cases hpi : p - first = i
        · rw [hpi, h2i, h2q _ (by omega)]
          exact hcross 0 (q - first) (by omega) (by omega) (by omega)
        · rw [h2q _ (by omega), h2q _ (by omega)]
          have := hsorted p q (by omega) hpq hq
          rwa [show p = first + (p - first) by omega,
            show q = first + (q - first) by omega] at this)
      (by
        intro p q hp hiq hq
        rw [h3q q hiq]
        refine le_trans (hle3 (first + p) (by omega) (by omega)) ?_
        by_cases hqi : q = i
        · rw [hqi, h2i]
        · rw [h2q q (by omega)]
          exact hcross 0 q (by omega) (by omega) hq)
    exact ⟨((SameOutside.out_swap s (by omega) (by omega)).out_trans
      (o1'.out_mono (le_refl _) (by omega))).out_trans o3, o4⟩

theorem heapSort_spec (s : Sortable T) (a b : Nat) (hord : OrderedBy K s) (hab : a ≤ b)
    (hb : b ≤ s.Data.length) :
    SameOutside a b s (heapSort s a b) ∧ SortedOn K z (heapSort s a b) a b := by
  unfold heapSort
  simp only
  have hlen : a + (b - a) ≤ s.Data.length := by omega
  obtain ⟨o1, o2⟩ := heapBuild_spec (K := K) (z := z) (b - a) a ((b - a - 1) / 2) s hord
    hlen (fun p c hp hc hpc => by omega)
  have hr := heapBuild_rel (b - a) a ((b - a - 1) / 2) s
  obtain ⟨o3, o4⟩ := heapPop_spec (K := K) (z := z) a (b - a) (b - a)
    (heapBuild (b - a) a ((b - a - 1) / 2) s) (hord.ord_of_rel hr)
    (by rw [hr.length]; exact hlen) (le_refl _) (fun p c hc hpc => o2 p c hc hpc)
    (fun p q hp hpq hq => by omega) (fun p q hp hq1 hq2 => by omega)
  rw [show a + (b - a) = b by omega] at o1 o3 o4
  exact ⟨o1.out_trans o3, o4⟩

end GoSort

/-! ## The steps of `pdqsort` before the partitioning -/

namespace GoSort

open Sortable

variable {T κ : Type} [LinearOrder κ] {K : T → κ} {z : T}

theorem reverseLoop_outside (a b : Nat) (n i j : Nat) (s : Sortable T) (hai : a ≤ i)
    (hjb : j < b) : SameOutside a b s (reverseLoop n i j s) := by
  induction n generalizing i j s with
  | zero => exact SameOutside.out_refl _ _ _
  | succ n ih =>
    unfold reverseLoop
    split
    · exact (SameOutside.out_swap s (by omega) (by omega)).out_trans (ih _ _ _ (by omega) (by omega))
    · exact SameOutside.out_refl _ _ _

theorem reverseRange_outside (s : Sortable T) (a b : Nat) (hab : a < b) :
    SameOutside a b s (reverseRange s a b) :=
  reverseLoop_outside a b _ _ _ _ (le_refl _) (by omega)

theorem breakLoop_outside (a b length idx modulus : Nat) (n i random : Nat) (s : Sortable T)
    (hlen : length = b - a) (h8 : 8 ≤ length) (hidx : idx = a + length / 4 * 2)
    (hmod : modulus ≤ 2 * length) (hmod0 : 0 < modulus) (hni : n + i ≤ 3) :
    SameOutside a b s (breakLoop a length idx modulus n i random s) := by
  induction n generalizing i random s with
  | zero => exact SameOutside.out_refl _ _ _
  | succ n ih =>
    unfold breakLoop
    simp only
    have hand : xorshiftNext random &&& (modulus - 1) ≤ modulus - 1 := Nat.and_le_right
    generalize xorshiftNext random &&& (modulus - 1) = other at hand
    refine (SameOutside.out_swap s ?_ ?_).out_trans (ih _ _ _ (by omega))
    · omega
    · split <;> omega

theorem nextPowerOfTwo_le (length : Nat) (h : 0 < length) :
    nextPowerOfTwo length ≤ 2 * length ∧ 0 < nextPowerOfTwo length := by
  unfold nextPowerOfTwo bitsLen
  rw [if_neg (by omega), Nat.one_shiftLeft, pow_succ]
  have := Nat.log2_self_le (n := length) (by omega)
  constructor
  · omega
  · positivity

theorem breakPatterns_outside (s : Sortable T) (a b : Nat) :
    SameOutside a b s (breakPatterns s a b) := by
  unfold breakPatterns
  simp only
  split
  · rename_i h
    obtain ⟨h1, h2⟩ := nextPowerOfTwo_le (b - a) (by omega)
    exact breakLoop_outside a b _ _ _ 3 0 _ s rfl h rfl h1 h2 (by omega)
  · exact SameOutside.out_refl _ _ _

theorem order2_mem (s : Sortable T) (a b sw : Nat) :
    ((order2 s a b sw).1 = a ∧ (order2 s a b sw).2.1 = b)
      ∨ ((order2 s a b sw).1 = b ∧ (order2 s a b sw).2.1 = a) := by
  unfold order2
  split
  · exact Or.inr ⟨rfl, rfl⟩
  · exact Or.inl ⟨rfl, rfl⟩

theorem median_mem (s : Sortable T) (a b c sw : Nat) :
    (median s a b c sw).1 = a ∨ (median s a b c sw).1 = b ∨ (median s a b c sw).1 = c := by
  unfold median
  simp only
  rcases order2_mem s a b sw with h1 | h1
  · rcases order2_mem s (order2 s a b sw).2.1 c (order2 s a b sw).2.2 with h2 | h2
    · rcases order2_mem s (order2 s a b sw).1
        (order2 s (order2 s a b sw).2.1 c (order2 s a b sw).2.2).1
        (order2 s (order2 s a b sw).2.1 c (order2 s a b sw).2.2).2.2 with h3 | h3
      · rw [h3.2, h2.1, h1.2]; simp
      · rw [h3.2, h1.1]; simp
    · rcases order2_mem s (order2 s a b sw).1
        (order2 s (order2 s a b sw).2.1 c (order2 s a b sw).2.2).1
        (order2 s (order2 s a b sw).2.1 c (order2 s a b sw).2.2).2.2 with h3 | h3
      · rw [h3.2, h2.1]; simp
      · rw [h3.2, h1.1]; simp
  · rcases order2_mem s (order2 s a b sw).2.1 c (order2 s a b sw).2.2 with h2 | h2
    · rcases order2_mem s (order2 s a b sw).1
        (order2 s (order2 s a b sw).2.1 c (order2 s a b sw).2.2).1
        (order2 s (order2 s a b sw).2.1 c (order2 s a b sw).2.2).2.2 with h3 | h3
      · rw [h3.2, h2.1, h1.2]; simp
      · rw [h3.2, h1.1]; simp
    · rcases order2_mem s (order2 s a b sw).1
        (order2 s (order2 s a b sw).2.1 c (order2 s a b sw).2.2).1
        (order2 s (order2 s a b sw).2.1 c (order2 s a b sw).2.2).2.2 with h3 | h3
      · rw [h3.2, h2.1]; simp
      · rw [h3.2, h1.1]; simp

theorem median_range (s : Sortable T) (lo hi a b c sw : Nat) (ha : lo ≤ a ∧ a < hi)
    (hb : lo ≤ b ∧ b < hi) (hc : lo ≤ c ∧ c < hi) :
    lo ≤ (median s a b c sw).1 ∧ (median s a b c sw).1 < hi := by
  rcases median_mem s a b c sw with h | h | h <;> rw [h] <;> assumption

theorem choosePivot_range (s : Sortable T) (a b : Nat) (h8 : 8 ≤ b - a) :
    a ≤ (choosePivot s a b).1 ∧ (choosePivot s a b).1 < b := by
  have hfst : ∀ (r : Nat × Nat), ((if r.2 = 0 then (r.1, sortedHint.increasingHint)
      else if r.2 = 4 * 3 then (r.1, sortedHint.decreasingHint)
      else (r.1, sortedHint.unknownHint)) : Nat × sortedHint).1 = r.1 := by
    intro r; split
    · rfl
    · split <;> rfl
  unfold choosePivot
  simp only [hfst, h8, if_true]
  split
  · simp only [medianAdjacent]
    apply median_range
    · exact median_range s a b _ _ _ _ (by omega) (by omega) (by omega)
    · exact median_range s a b _ _ _ _ (by omega) (by omega) (by omega)
    · exact median_range s a b _ _ _ _ (by omega) (by omega) (by omega)
  · exact median_range s a b _ _ _ _ (by omega) (by omega) (by omega)

end GoSort

/-! ## `partialInsertionSort` -/

namespace Sortable

variable {T κ : Type} [LinearOrder κ] {K : T → κ} {z : T}

theorem LowerBounded.lb_of_rel {a b : Nat} {s s' : Sortable T} (h : LowerBounded K z s a b)
    (hr : Rel s s') (ho : SameOutside a b s s') (hb : b ≤ s.Data.length) :
    LowerBounded K z s' a b := by
  intro ha
  rw [ho.keyAt_eq (Or.inl (by omega))]
  exact hr.forall_keyAt (P := fun x => keyAt K z s (a - 1) ≤ x) ho hb (h ha)

theorem LowerBounded.lb_mono {a b b' : Nat} {s : Sortable T} (h : LowerBounded K z s a b)
    (hb : b' ≤ b) : LowerBounded K z s a b' :=
  fun ha k h1 h2 => h ha k h1 (by omega)

theorem SortedOn.extend {a i i' : Nat} {s : Sortable T} (h : SortedOn K z s a i)
    (hadj : ∀ k, i ≤ k → k < i' → keyAt K z s (k - 1) ≤ keyAt K z s k) :
    SortedOn K z s a i' := by
  intro p q hp hpq hq
  induction q with
  | zero => omega
  | succ q ih =>
    by_cases hqi : q + 1 < i
    · exact h p (q + 1) hp hpq hqi
    · have h1 := hadj (q + 1) (by omega) hq
      simp only [Nat.add_sub_cancel] at h1
      by_cases hpq' : p = q
      · subst hpq'; exact h1
      · exact le_trans (ih (by omega) (by omega)) h1

end Sortable

namespace GoSort

open Sortable

variable {T κ : Type} [LinearOrder κ] {K : T → κ} {z : T}

theorem scanSorted_spec (s : Sortable T) (hord : OrderedBy K s) (b : Nat) (n i : Nat)
    (hi : 1 ≤ i) (hib : i ≤ b) (hb : b ≤ s.Data.length) (hn : b - i ≤ n) :
    i ≤ scanSorted s b n i ∧ scanSorted s b n i ≤ b
      ∧ (∀ k, i ≤ k → k < scanSorted s b n i →
          keyAt K z s (k - 1) ≤ keyAt K z s k)
      ∧ (scanSorted s b n i < b →
          keyAt K z s (scanSorted s b n i) < keyAt K z s (scanSorted s b n i - 1)) := by
  induction n generalizing i with
  | zero =>
    unfold scanSorted
    exact ⟨le_refl _, hib, fun k h1 h2 => by omega, fun h => by omega⟩
  | succ n ih =>
    unfold scanSorted
    split
    · rename_i h
      simp only [Bool.and_eq_true, decide_eq_true_eq, Bool.not_eq_true'] at h
      obtain ⟨h1, h2, h3, h4⟩ := ih (i + 1) (by omega) (by omega) (by omega)
      refine ⟨by omega, h2, ?_, h4⟩
      intro k hk1 hk2
      by_cases hki : k = i
      · subst hki; exact (Less_eq_false_iff hord (by omega) (by omega)).mp h.2
      · exact h3 k (by omega) hk2
    · rename_i h
      simp only [Bool.and_eq_true, decide_eq_true_eq, Bool.not_eq_true', not_and,
        Bool.not_eq_false] at h
      refine ⟨le_refl _, hib, fun k h1 h2 => by omega, fun hlt => ?_⟩
      exact (Less_iff hord (by omega) (by omega)).mp (h hlt)

/-- Below a lower-bounded slice the left shift stops at `a`, as the inner loop of
`insertionSort` does. -/
theorem shiftLeft_eq_insertionInner (a : Nat) (j : Nat) (s : Sortable T)
    (hord : OrderedBy K s) (haj : a ≤ j) (hj : j < s.Data.length)
    (hlb : LowerBounded K z s a (j + 1)) :
    shiftLeft j s = insertionInner a j s := by
  induction j generalizing s with
  | zero => rfl
  | succ j ih =>
    unfold shiftLeft insertionInner
    by_cases haj' : a < j + 1
    · by_cases hl : s.Less (j + 1) j = true
      · simp only [hl, haj', Bool.not_true, decide_True, Bool.and_self, if_true]
        simp only [Bool.false_eq_true, if_false]
        have hr := Rel.rel_swap s (j + 1) j
        refine ih (s.Swap (j + 1) j) (hord.ord_of_rel hr) (by omega) (by simp; omega) ?_
        have hlb' := hlb.lb_of_rel hr (SameOutside.out_swap s (by omega) (by omega)) (by omega)
        exact hlb'.lb_mono (by omega)
      · simp only [hl, Bool.not_false, if_true, Bool.and_false, Bool.false_eq_true, if_false]
    · have ha : a = j + 1 := by omega
      have h1 := hlb (by omega) (j + 1) (by omega) (by omega)
      rw [ha, Nat.add_sub_cancel] at h1
      have hl : s.Less (j + 1) j = false :=
        (Less_eq_false_iff hord (by omega) (by omega)).mpr h1
      simp only [hl, Bool.not_false, if_true, Bool.and_false, Bool.false_eq_true, if_false]

theorem shiftRight_outside (b : Nat) (n j : Nat) (s : Sortable T) (lo : Nat) (hlo : lo < j) :
    SameOutside lo b s (shiftRight b n j s) := by
  induction n generalizing j s with
  | zero => exact SameOutside.out_refl _ _ _
  | succ n ih =>
    unfold shiftRight
    split
    · split
      · exact SameOutside.out_refl _ _ _
      · exact (SameOutside.out_swap s (by omega) (by omega)).out_trans (ih _ _ (by omega))
    · exact SameOutside.out_refl _ _ _

theorem partialInsertionLoop_spec (a b : Nat) (n i : Nat) (s : Sortable T)
    (hord : OrderedBy K s) (hai : a < i) (hib : i ≤ b) (hb : b ≤ s.Data.length)
    (hs : SortedOn K z s a i) (hlb : LowerBounded K z s a b) :
    SameOutside a b s (partialInsertionLoop a b n i s).1
      ∧ ((partialInsertionLoop a b n i s).2 = true →
          SortedOn K z (partialInsertionLoop a b n i s).1 a b) := by
  induction n generalizing i s with
  | zero =>
    unfold partialInsertionLoop
    exact ⟨SameOutside.out_refl _ _ _, fun h => by simp at h⟩
  | succ n ih =>
    unfold partialInsertionLoop
    simp only
    obtain ⟨c1, c2, c3, c4⟩ := scanSorted_spec (K := K) (z := z) s hord b (b - i) i
      (by omega) hib hb (le_refl _)
    have hs1 := hs.extend c3
    generalize scanSorted s b (b - i) i = i1 at c1 c2 c3 c4 hs1 ⊢
    split
    · rename_i h
      subst h
      exact ⟨SameOutside.out_refl _ _ _, fun _ => hs1⟩
    · rename_i hne
      split
      · exact ⟨SameOutside.out_refl _ _ _, fun h => by simp at h⟩
      · have hlt := c4 (by omega)
        -- the swap of the out-of-order pair
        have hr1 := Rel.rel_swap s i1 (i1 - 1)
        have ho1 : SameOutside a b s (s.Swap i1 (i1 - 1)) :=
          SameOutside.out_swap s (by omega) (by omega)
        have hk := fun k => keyAt_Swap (K := K) (z := z) s (i := i1) (j := i1 - 1)
          (by omega) (by omega) k
        have hlen1 : (s.Swap i1 (i1 - 1)).Data.length = s.Data.length := by simp
        -- the left shift
        have hL : ∃ s2, (if 2 ≤ i1 - a then shiftLeft (i1 - 1) (s.Swap i1 (i1 - 1))
              else s.Swap i1 (i1 - 1)) = s2
            ∧ Rel (s.Swap i1 (i1 - 1)) s2 ∧ SameOutside a b (s.Swap i1 (i1 - 1)) s2
            ∧ SortedOn K z s2 a i1 := by
          refine ⟨_, rfl, ?_, ?_, ?_⟩
          · exact Rel.rel_ite (shiftLeft_rel _ _) (Rel.rel_refl _)
          · split
            · rw [shiftLeft_eq_insertionInner (K := K) (z := z) a (i1 - 1) _
                (hord.ord_of_rel hr1) (by omega) (by omega)
                ((hlb.lb_of_rel hr1 ho1 hb).lb_mono (by omega))]
              have := (insertionInner_spec (K := K) (z := z) a (i1 - 1) (i1 - 1)
                (s.Swap i1 (i1 - 1)) (hord.ord_of_rel hr1) (by omega) (le_refl _) (by omega)
                (by
                  intro p q hp hpq hq hpj hqj
                  rw [hk p, hk q, if_neg hpj, if_neg (by omega), if_neg hqj,
                    if_neg (by omega)]
                  exact hs1 p q hp hpq (by omega))
                (fun q h1 h2 => by omega)).1
              exact this.out_mono (le_refl _) (by omega)
            · exact SameOutside.out_refl _ _ _
          · split
            · rw [shiftLeft_eq_insertionInner (K := K) (z := z) a (i1 - 1) _
                (hord.ord_of_rel hr1) (by omega) (by omega)
                ((hlb.lb_of_rel hr1 ho1 hb).lb_mono (by omega))]
              have := (insertionInner_spec (K := K) (z := z) a (i1 - 1) (i1 - 1)
                (s.Swap i1 (i1 - 1)) (hord.ord_of_rel hr1) (by omega) (le_refl _) (by omega)
                (by
                  intro p q hp hpq hq hpj hqj
                  rw [hk p, hk q, if_neg hpj, if_neg (by omega), if_neg hqj,
                    if_neg (by omega)]
                  exact hs1 p q hp hpq (by omega))
                (fun q h1 h2 => by omega)).2
              rwa [show i1 - 1 + 1 = i1 by omega] at this
            · intro p q hp hpq hq
              omega
        obtain ⟨s2, es2, hr2, ho2, hs2⟩ := hL
        rw [es2]
        have hlen2 : s2.Data.length = s.Data.length := by rw [hr2.length, hlen1]
        -- the right shift
        have hR : ∃ s3, (if 2 ≤ b - i1 then shiftRight b (b - (i1 + 1)) (i1 + 1) s2 else s2)
              = s3
            ∧ Rel s2 s3 ∧ SameOutside i1 b s2 s3 := by
          refine ⟨_, rfl, Rel.rel_ite (shiftRight_rel _ _ _ _) (Rel.rel_refl _), ?_⟩
          exact SameOutside.out_ite (shiftRight_outside _ _ _ _ _ (by omega))
            (SameOutside.out_refl _ _ _)
        obtain ⟨s3, es3, hr3, ho3⟩ := hR
        rw [es3]
        have hr13 := (hr1.rel_trans hr2).rel_trans hr3
        have ho13 : SameOutside a b s s3 :=
          (ho1.out_trans ho2).out_trans (ho3.out_mono (by omega) (le_refl _))
        have hs3 : SortedOn K z s3 a i1 :=
          hs2.of_rel_outside (fun k h1 h2 => ho3 k (Or.inl h2))
        obtain ⟨o1, o2⟩ := ih i1 s3 (hord.ord_of_rel hr13) (by omega) c2
          (by rw [hr13.length]; exact hb) hs3 (hlb.lb_of_rel hr13 ho13 hb)
        exact ⟨ho13.out_trans o1, o2⟩

theorem partialInsertionSort_spec (s : Sortable T) (a b : Nat) (hord : OrderedBy K s)
    (hab : a < b) (hb : b ≤ s.Data.length) (hlb : LowerBounded K z s a b) :
    SameOutside a b s (partialInsertionSort s a b).1
      ∧ ((partialInsertionSort s a b).2 = true →
          SortedOn K z (partialInsertionSort s a b).1 a b) :=
  partialInsertionLoop_spec a b 5 (a + 1) s hord (by omega) (by omega) hb
    (fun p q hp hpq hq => by omega) hlb

end GoSort

/-! ## `pdqsort` sorts -/

namespace Sortable

variable {T κ : Type} [LinearOrder κ] {K : T → κ} {z : T}

theorem SortedOn.glue {a m b : Nat} {s : Sortable T} (h₁ : SortedOn K z s a m)
    (h₂ : SortedOn K z s (m + 1) b)
    (hl : ∀ k, a ≤ k → k < m → keyAt K z s k ≤ keyAt K z s m)
    (hr : ∀ k, m < k → k < b → keyAt K z s m ≤ keyAt K z s k) :
    SortedOn K z s a b := by
  intro p q hp hpq hq
  rcases Nat.lt_trichotomy q m with h | h | h
  · exact h₁ p q hp hpq h
  · subst h; exact hl p hp hpq
  · rcases Nat.lt_trichotomy p m with h' | h' | h'
    · exact le_trans (hl p hp h') (hr q h hq)
    · subst h'; exact hr q h hq
    · exact h₂ p q (by omega) hpq hq

end Sortable

namespace GoSort

open Sortable

variable {T κ : Type} [LinearOrder κ] {K : T → κ} {z : T}

theorem pdqsortPrepare_spec (s : Sortable T) (a b limit : Nat) (wb wp : Bool)
    (hord : OrderedBy K s) (h12 : 12 < b - a) (hb : b ≤ s.Data.length)
    (hlb : LowerBounded K z s a b) :
    SameOutside a b s (pdqsortPrepare s a b limit wb wp).data
      ∧ a ≤ (pdqsortPrepare s a b limit wb wp).pivot
      ∧ (pdqsortPrepare s a b limit wb wp).pivot < b
      ∧ ((pdqsortPrepare s a b limit wb wp).sorted = true →
          SortedOn K z (pdqsortPrepare s a b limit wb wp).data a b) := by
  unfold pdqsortPrepare
  simp only
  have h1 : Rel s (if (!wb) = true then breakPatterns s a b else s) :=
    Rel.rel_ite (breakPatterns_rel s a b) (Rel.rel_refl s)
  have o1 : SameOutside a b s (if (!wb) = true then breakPatterns s a b else s) :=
    SameOutside.out_ite (breakPatterns_outside s a b) (SameOutside.out_refl _ _ _)
  generalize (if (!wb) = true then breakPatterns s a b else s) = s1 at h1 o1 ⊢
  have hp := choosePivot_range s1 a b (by omega)
  generalize choosePivot s1 a b = ph at hp ⊢
  have h2 : Rel s1 (if decide (ph.2 = sortedHint.decreasingHint) = true
      then reverseRange s1 a b else s1) := Rel.rel_ite (reverseRange_rel _ a b) (Rel.rel_refl _)
  have o2 : SameOutside a b s1 (if decide (ph.2 = sortedHint.decreasingHint) = true
      then reverseRange s1 a b else s1) :=
    SameOutside.out_ite (reverseRange_outside _ a b (by omega)) (SameOutside.out_refl _ _ _)
  generalize (if decide (ph.2 = sortedHint.decreasingHint) = true
      then reverseRange s1 a b else s1) = s2 at h2 o2 ⊢
  have hpiv : a ≤ (if decide (ph.2 = sortedHint.decreasingHint) = true
      then b - 1 - (ph.1 - a) else ph.1)
      ∧ (if decide (ph.2 = sortedHint.decreasingHint) = true
      then b - 1 - (ph.1 - a) else ph.1) < b := by
    split <;> omega
  generalize (if decide (ph.2 = sortedHint.decreasingHint) = true
      then b - 1 - (ph.1 - a) else ph.1) = pivot at hpiv ⊢
  generalize (if decide (ph.2 = sortedHint.decreasingHint) = true
      then sortedHint.increasingHint else ph.2) = hint
  have h12' := h1.rel_trans h2
  have o12 := o1.out_trans o2
  refine ⟨?_, hpiv.1, hpiv.2, ?_⟩
  · split
    · exact o12.out_trans (partialInsertionSort_spec (K := K) (z := z) s2 a b
        (hord.ord_of_rel h12') (by omega) (by rw [h12'.length]; exact hb)
        (hlb.lb_of_rel h12' o12 hb)).1
    · exact o12
  · split
    · exact (partialInsertionSort_spec (K := K) (z := z) s2 a b
        (hord.ord_of_rel h12') (by omega) (by rw [h12'.length]; exact hb)
        (hlb.lb_of_rel h12' o12 hb)).2
    · intro h; simp at h

theorem pdqsort_spec (fuel : Nat) (s : Sortable T) (a b limit : Nat) (wb wp : Bool)
    (hord : OrderedBy K s) (hab : a ≤ b) (hb : b ≤ s.Data.length) (hfuel : b - a ≤ fuel)
    (hlb : LowerBounded K z s a b) :
    SameOutside a b s (pdqsort fuel s a b limit wb wp)
      ∧ SortedOn K z (pdqsort fuel s a b limit wb wp) a b := by
  induction fuel generalizing s a b limit wb wp with
  | zero =>
    unfold pdqsort
    exact ⟨SameOutside.out_refl _ _ _, fun p q hp hpq hq => by omega⟩
  | succ fuel ih =>
    unfold pdqsort
    simp only
    split
    · exact insertionSort_spec s a b hord hb
    · rename_i h12
      split
      · exact heapSort_spec s a b hord hab hb
      · obtain ⟨po, pa, pb, ps⟩ := pdqsortPrepare_spec (K := K) (z := z) s a b limit
          wb wp hord (by omega) hb hlb
        have pr := pdqsortPrepare_rel s a b limit wb wp
        generalize pdqsortPrepare s a b limit wb wp = pre at po pa pb ps pr ⊢
        have hord1 := hord.ord_of_rel pr
        have hlen1 : pre.data.Data.length = s.Data.length := pr.length
        have hlb1 := hlb.lb_of_rel pr po hb
        split
        · rename_i hsorted
          exact ⟨po, ps hsorted⟩
        · split
          · -- the elements equal to the pivot come first and are left alone
            rename_i hcond
            simp only [Bool.and_eq_true, decide_eq_true_eq, Bool.not_eq_true'] at hcond
            have hple : keyAt K z pre.data pre.pivot ≤ keyAt K z pre.data (a - 1) :=
              (Less_eq_false_iff hord1 (by omega) (by omega)).mp hcond.2
            obtain ⟨e1, e2, e3, e4, e5⟩ := partitionEqual_spec (K := K) (z := z)
              pre.data hord1 a b pre.pivot pa pb (by omega)
            have er := partitionEqual_rel pre.data a b pre.pivot
            generalize partitionEqual pre.data a b pre.pivot = pe at e1 e2 e3 e4 e5 er ⊢
            have hord2 := hord1.ord_of_rel er
            have hlen2 : pe.1.Data.length = s.Data.length := by rw [er.length, hlen1]
            have hlb2 := hlb1.lb_of_rel er e1 (by omega)
            have heq : ∀ k, a ≤ k → k < pe.2 →
                keyAt K z pe.1 k = keyAt K z pre.data pre.pivot := by
              intro k h1 h2
              apply le_antisymm (e4 k h1 h2)
              have := hlb2 hcond.1 k h1 (by omega)
              rw [e1.keyAt_eq (Or.inl (by omega))] at this
              exact le_trans hple this
            obtain ⟨i1, i2⟩ := ih pe.1 pe.2 b pre.limit wb wp hord2 e3 (by omega) (by omega)
              (by
                intro _ k h1 h2
                rw [heq (pe.2 - 1) (by omega) (by omega)]
                exact le_of_lt (e5 k h1 h2))
            have ir := pdqsort_rel fuel pe.1 pe.2 b pre.limit wb wp
            generalize pdqsort fuel pe.1 pe.2 b pre.limit wb wp = r at i1 i2 ir ⊢
            refine ⟨(po.out_trans e1).out_trans (i1.out_mono (by omega) (le_refl _)), ?_⟩
            have hgt : ∀ k, pe.2 ≤ k → k < b →
                keyAt K z pre.data pre.pivot < keyAt K z r k :=
              ir.forall_keyAt (P := fun x => keyAt K z pre.data pre.pivot < x) i1
                (by omega) e5
            intro p q hp hpq hq
            by_cases hq2 : q < pe.2
            · rw [i1.keyAt_eq (Or.inl (by omega)), i1.keyAt_eq (Or.inl hq2),
                heq p hp (by omega), heq q (by omega) hq2]
            · by_cases hp2 : p < pe.2
              · rw [i1.keyAt_eq (Or.inl hp2), heq p hp hp2]
                exact le_of_lt (hgt q (by omega) hq)
              · exact i2 p q (by omega) hpq hq
          · obtain ⟨t1, t2, t3, t4, t5, t6⟩ := partition_spec (K := K) (z := z)
              pre.data hord1 a b pre.pivot pa pb (by omega)
            have tr := partition_rel pre.data a b pre.pivot
            generalize partition pre.data a b pre.pivot = pt at t1 t2 t3 t4 t5 t6 tr ⊢
            generalize keyAt K z pre.data pre.pivot = kp at t4 t5 t6
            have hord2 := hord1.ord_of_rel tr
            have hlen2 : pt.1.Data.length = s.Data.length := by rw [tr.length, hlen1]
            have hlb2 := hlb1.lb_of_rel tr t1 (by omega)
            split
            · -- the left part first, then the right part
              obtain ⟨l1, l2⟩ := ih pt.1 a pt.2.1 pre.limit true true hord2 t2 (by omega)
                (by omega) (hlb2.lb_mono (by omega))
              have lr := pdqsort_rel fuel pt.1 a pt.2.1 pre.limit true true
              generalize pdqsort fuel pt.1 a pt.2.1 pre.limit true true = r1 at l1 l2 lr ⊢
              have hord3 := hord2.ord_of_rel lr
              have hlen3 : r1.Data.length = s.Data.length := by rw [lr.length, hlen2]
              have hmid1 : keyAt K z r1 pt.2.1 = kp := by
                rw [l1.keyAt_eq (Or.inr (le_refl _)), t5]
              have hright1 : ∀ k, pt.2.1 < k → k < b → kp ≤ keyAt K z r1 k := by
                intro k h1 h2
                rw [l1.keyAt_eq (Or.inr (by omega))]
                exact t6 k h1 h2
              have hleft1 : ∀ k, a ≤ k → k < pt.2.1 → keyAt K z r1 k < kp :=
                lr.forall_keyAt (P := fun x => x < kp) l1 (by omega) t4
              obtain ⟨q1, q2⟩ := ih r1 (pt.2.1 + 1) b pre.limit _ pt.2.2 hord3 (by omega)
                (by omega) (by omega)
                (by
                  intro _ k h1 h2
                  rw [Nat.add_sub_cancel, hmid1]
                  exact hright1 k (by omega) h2)
              have qr := pdqsort_rel fuel r1 (pt.2.1 + 1) b pre.limit
                (decide ((b - a) / 8 ≤ pt.2.1 - a)) pt.2.2
              generalize pdqsort fuel r1 (pt.2.1 + 1) b pre.limit
                (decide ((b - a) / 8 ≤ pt.2.1 - a)) pt.2.2 = r2 at q1 q2 qr ⊢
              refine ⟨((po.out_trans t1).out_trans (l1.out_mono (le_refl _) (by omega))).out_trans
                (q1.out_mono (by omega) (le_refl _)), ?_⟩
              have hmid2 : keyAt K z r2 pt.2.1 = kp := by
                rw [q1.keyAt_eq (Or.inl (by omega)), hmid1]
              refine SortedOn.glue (m := pt.2.1)
                (l2.of_rel_outside (fun k h1 h2 => q1 k (Or.inl (by omega)))) q2 ?_ ?_
              · intro k h1 h2
                rw [hmid2, q1.keyAt_eq (Or.inl (by omega))]
                exact le_of_lt (hleft1 k h1 h2)
              · intro k h1 h2
                rw [hmid2]
                exact qr.forall_keyAt (P := fun x => kp ≤ x) q1 (by omega)
                  (fun k h1 h2 => hright1 k (by omega) h2) k (by omega) h2
            · -- the right part first, then the left part
              obtain ⟨l1, l2⟩ := ih pt.1 (pt.2.1 + 1) b pre.limit true true hord2 (by omega)
                (by omega) (by omega)
                (by
                  intro _ k h1 h2
                  rw [Nat.add_sub_cancel, t5]
                  exact t6 k (by omega) h2)
              have lr := pdqsort_rel fuel pt.1 (pt.2.1 + 1) b pre.limit true true
              generalize pdqsort fuel pt.1 (pt.2.1 + 1) b pre.limit true true = r1
                at l1 l2 lr ⊢
              have hord3 := hord2.ord_of_rel lr
              have hlen3 : r1.Data.length = s.Data.length := by rw [lr.length, hlen2]
              have hmid1 : keyAt K z r1 pt.2.1 = kp := by
                rw [l1.keyAt_eq (Or.inl (by omega)), t5]
              have hleft1 : ∀ k, a ≤ k → k < pt.2.1 → keyAt K z r1 k < kp := by
                intro k h1 h2
                rw [l1.keyAt_eq (Or.inl (by omega))]
                exact t4 k h1 h2
              have hright1 : ∀ k, pt.2.1 + 1 ≤ k → k < b → kp ≤ keyAt K z r1 k :=
                lr.forall_keyAt (P := fun x => kp ≤ x) l1 (by omega)
                  (fun k h1 h2 => t6 k (by omega) h2)
              have hlb3 : LowerBounded K z r1 a pt.2.1 := by
                intro ha k h1 h2
                rw [l1.keyAt_eq (Or.inl (by omega)), l1.keyAt_eq (Or.inl (by omega))]
                exact hlb2 ha k h1 (by omega)
              obtain ⟨q1, q2⟩ := ih r1 a pt.2.1 pre.limit _ pt.2.2 hord3 t2
                (by omega) (by omega) hlb3
              have qr := pdqsort_rel fuel r1 a pt.2.1 pre.limit
                (decide ((b - a) / 8 ≤ b - pt.2.1)) pt.2.2
              generalize pdqsort fuel r1 a pt.2.1 pre.limit
                (decide ((b - a) / 8 ≤ b - pt.2.1)) pt.2.2 = r2 at q1 q2 qr ⊢
              refine ⟨((po.out_trans t1).out_trans (l1.out_mono (by omega) (le_refl _))).out_trans
                (q1.out_mono (le_refl _) (by omega)), ?_⟩
              have hmid2 : keyAt K z r2 pt.2.1 = kp := by
                rw [q1.keyAt_eq (Or.inr (le_refl _)), hmid1]
              refine SortedOn.glue (m := pt.2.1) q2
                (l2.of_rel_outside (fun k h1 h2 => q1 k (Or.inr (by omega)))) ?_ ?_
              · intro k h1 h2
                rw [hmid2]
                exact le_of_lt (qr.forall_keyAt (P := fun x => x < kp) q1 (by omega)
                  hleft1 k h1 h2)
              · intro k h1 h2
                rw [hmid2, q1.keyAt_eq (Or.inr (by omega))]
                exact hright1 k (by omega) h2

theorem sort_Sort_spec (s : Sortable T) (hord : OrderedBy K s) :
    SortedOn K z (sort_Sort s) 0 s.Data.length := by
  unfold sort_Sort
  simp only [Sortable.Len]
  split
  · intro p q hp hpq hq; omega
  · exact (pdqsort_spec (K := K) (z := z) _ s 0 _ _ true true hord (Nat.zero_le _)
      (le_refl _) (by omega) (fun h => by omega)).2

end GoSort

/-! ## The depth sort of the object layers -/

theorem sortObjs_iff (a b : Object) :
    sortObjs a b = true ↔ a.Y < b.Y ∨ (a.Y = b.Y ∧ a.X < b.X) := by
  unfold sortObjs
  split
  · rename_i h
    simp only [decide_eq_true_eq]
    constructor
    · exact Or.inl
    · rintro (h1 | ⟨h1, _⟩)
      · exact h1
      · exact absurd h1 h
  · rename_i h
    simp only [ne_eq, not_not] at h
    simp only [decide_eq_true_eq]
    constructor
    · exact fun h1 => Or.inr ⟨h, h1⟩
    · rintro (h1 | ⟨_, h1⟩)
      · rw [h] at h1; exact absurd h1 (lt_irrefl _)
      · exact h1

theorem sortObjs_orderedBy (data : List Object) :
    Sortable.OrderedBy Object.depthKey { Data := data, LessMethod := sortObjs } := by
  intro a b
  simp only [Object.depthKey, Prod.Lex.lt_iff]
  exact sortObjs_iff a b

theorem SortAny_sortedOn (data : List Object) (z : Object) :
    Sortable.SortedOn Object.depthKey z
      (GoSort.sort_Sort { Data := data, LessMethod := sortObjs }) 0 data.length :=
  GoSort.sort_Sort_spec _ (sortObjs_orderedBy data)

theorem sort_Sort_small {T : Type} (s : Sortable T) (h : s.Data.length ≤ 12) :
    GoSort.sort_Sort s = s ∨ GoSort.sort_Sort s = GoSort.insertionSort s 0 s.Data.length := by
  unfold GoSort.sort_Sort
  simp only [Sortable.Len]
  split
  · exact Or.inl rfl
  · right
    rw [show s.Data.length = (s.Data.length - 1) + 1 by omega]
    unfold GoSort.pdqsort
    simp only [Nat.sub_zero]
    rw [if_pos (by omega)]

/-! ## The claims on the depth sort -/

/-- C1: in the list returned by `SortAny(objs, sortObjs)`, whenever the object `a` at index `i`
and the object `b` at index `j` satisfy `a.Y < b.Y`, or `a.Y == b.Y` and `a.X < b.X`, then `a`
stands before `b`: `i < j`. -/
theorem sortAny_ordered (objs : List Object) (i j : Nat) (a b : Object)
    (hi : (SortAny objs sortObjs)[i]? = some a) (hj : (SortAny objs sortObjs)[j]? = some b)
    (h : a.Y < b.Y ∨ (a.Y = b.Y ∧ a.X < b.X)) : i < j := by
  have hlt : Object.depthKey a < Object.depthKey b := by
    simp only [Object.depthKey, Prod.Lex.lt_iff]; exact h
  have hs := SortAny_sortedOn objs a
  have hlen : (SortAny objs sortObjs).length = objs.length := (SortAny_perm objs sortObjs).length_eq
  have hi' := (List.getElem?_eq_some.mp hi).1
  by_contra hij
  rcases Nat.lt_or_eq_of_le (Nat.le_of_not_lt hij) with hji | hji
  · have := hs j i (Nat.zero_le _) hji (by omega)
    simp only [Sortable.keyAt, List.getD_eq_getElem?_getD] at this
    change Object.depthKey ((SortAny objs sortObjs)[j]?.getD a)
      ≤ Object.depthKey ((SortAny objs sortObjs)[i]?.getD a) at this
    rw [hi, hj] at this
    exact absurd hlt (not_lt.mpr this)
  · subst hji
    rw [hi] at hj
    cases hj
    exact lt_irrefl _ hlt

/-- Witness for C1: of the objects at `(5, 10)`, `(0, 10)` and `(7, 2)`, in this document order,
the one at `(7, 2)` comes out at index 0 and the one at `(5, 10)` at index 2. -/
theorem sortAny_ordered_witness :
    (SortAny [mkObject 1 1 5 10 16 16, mkObject 2 1 0 10 16 16, mkObject 3 1 7 2 16 16]
        sortObjs)[0]? = some (mkObject 3 1 7 2 16 16)
      ∧ (SortAny [mkObject 1 1 5 10 16 16, mkObject 2 1 0 10 16 16, mkObject 3 1 7 2 16 16]
        sortObjs)[2]? = some (mkObject 1 1 5 10 16 16)
      ∧ 0 < 2 :=
  ⟨by decide, by decide,
    sortAny_ordered
      [mkObject 1 1 5 10 16 16, mkObject 2 1 0 10 16 16, mkObject 3 1 7 2 16 16] 0 2
      (mkObject 3 1 7 2 16 16) (mkObject 1 1 5 10 16 16) (by decide) (by decide)
      (Or.inl (by norm_num [mkObject]))⟩

/-- C2, counterexample: of thirteen objects, twelve at `(5, 10)` (IDs 0 to 11, in this order)
and a last one at `(5, 0)`, the sort returns the IDs in the order
`12, 6, 2, 3, 4, 5, 0, 7, 8, 9, 10, 11, 1`: the objects 6 and 0, both at `(5, 10)`, have changed
places, and the objects at `(5, 10)` no longer stand in document order. -/
theorem sortAny_not_stable :
    (SortAny thirteenObjects sortObjs).map (fun o => o.ID)
        = [12, 6, 2, 3, 4, 5, 0, 7, 8, 9, 10, 11, 1]
      ∧ (SortAny thirteenObjects sortObjs).filter (fun o => decide (o.X = 5 ∧ o.Y = 10))
        ≠ thirteenObjects.filter (fun o => decide (o.X = 5 ∧ o.Y = 10)) := by
  constructor
  · decide
  · decide

/-- C2, amended: for a list of at most 12 objects (which `sort.Sort` hands to its insertion
sort), the objects at any one position `(x, y)` appear in the result of
`SortAny(objs, sortObjs)` in the order they have in the input. -/
theorem sortAny_stable_small (objs : List Object) (hlen : objs.length ≤ 12) (x y : ℚ) :
    (SortAny objs sortObjs).filter (fun o => decide (o.X = x ∧ o.Y = y))
      = objs.filter (fun o => decide (o.X = x ∧ o.Y = y)) := by
  have hp : ∀ o : Object, decide (o.X = x ∧ o.Y = y)
      = decide (Object.depthKey o = toLex (y, x)) := by
    intro o
    apply decide_eq_decide.mpr
    simp only [Object.depthKey, EmbeddingLike.apply_eq_iff_eq, Prod.mk.injEq]
    exact and_comm
  have hst : Sortable.SameOrderWithinKeys Object.depthKey
      { Data := objs, LessMethod := sortObjs }
      (GoSort.sort_Sort { Data := objs, LessMethod := sortObjs }) := by
    rcases sort_Sort_small { Data := objs, LessMethod := sortObjs } hlen with h | h
    · rw [h]; exact Sortable.SameOrderWithinKeys.keys_refl _
    · rw [h]; exact GoSort.insertionSort_stable _ _ _ (sortObjs_orderedBy objs)
  have := hst (toLex (y, x))
  simp only [SortAny, hp]
  exact this

/-- Witness for C2, amended (the spec's scenario): two objects A and B, both at `(5, 10)`, given
in the order `[A, B]`, come out as `[A, B]`. -/
theorem sortAny_stable_small_witness :
    [mkObject 1 1 5 10 16 16, mkObject 2 1 5 10 16 16].length ≤ 12
      ∧ (SortAny [mkObject 1 1 5 10 16 16, mkObject 2 1 5 10 16 16] sortObjs).filter
          (fun o => decide (o.X = 5 ∧ o.Y = 10))
        = [mkObject 1 1 5 10 16 16, mkObject 2 1 5 10 16 16].filter
          (fun o => decide (o.X = 5 ∧ o.Y = 10)) :=
  ⟨by decide,
    sortAny_stable_small [mkObject 1 1 5 10 16 16, mkObject 2 1 5 10 16 16] (by decide) 5 10⟩

/-! ## The loops over objects, layers and groups -/

theorem forEach_all_ok {α S : Type} (f : S → α → S × Option Error) (xs : List α) (s : S)
    (h : ∀ x ∈ xs, ∀ s, (f s x).2 = none) :
    forEach f xs s = (xs.foldl (fun s x => (f s x).1) s, none) := by
  induction xs generalizing s with
  | nil => rfl
  | cons x xs ih =>
    have hx := h x (List.mem_cons_self _ _) s
    unfold forEach
    split
    · rename_i s' err heq
      rw [heq] at hx; cases hx
    · rename_i s' heq
      rw [ih s' (fun y hy => h y (List.mem_cons_of_mem _ hy))]
      simp [heq]

theorem forEach_first_error {α S : Type} (f : S → α → S × Option Error) (pre : List α) (x : α)
    (post : List α) (s : S) (e : Error) (h : ∀ p ∈ pre, ∀ s, (f s p).2 = none)
    (hx : (f (pre.foldl (fun s x => (f s x).1) s) x).2 = some e) :
    forEach f (pre ++ x :: post) s
      = ((f (pre.foldl (fun s x => (f s x).1) s) x).1, some e) := by
  induction pre generalizing s with
  | nil =>
    simp only [List.nil_append, List.foldl_nil] at hx ⊢
    unfold forEach
    split
    · rename_i s' err heq
      rw [heq] at hx ⊢
      simp only [Option.some.injEq] at hx
      rw [hx]
    · rename_i s' heq
      rw [heq] at hx; cases hx
  | cons p pre ih =>
    have hp := h p (List.mem_cons_self _ _) s
    simp only [List.cons_append, List.foldl_cons] at hx ⊢
    unfold forEach
    split
    · rename_i s' err heq
      rw [heq] at hp; cases hp
    · rename_i s' heq
      have : (f s p).1 = s' := by rw [heq]
      rw [this] at hx ⊢
      exact ih s' (fun y hy => h y (List.mem_cons_of_mem _ hy)) hx

theorem renderOneObjectUpperTile_error (env : Env) (r : Renderer) (layer : ObjectGroup)
    (o : Object) : (renderOneObjectUpperTile env r layer o).2 = lookupError env o := by
  unfold renderOneObjectUpperTile lookupError
  split
  · rfl
  · split
    · rfl
    · split
      · rfl
      · split <;> rfl

theorem renderOneObjectUpperTile_of_error (env : Env) (r : Renderer) (layer : ObjectGroup)
    (o : Object) (e : Error) (h : lookupError env o = some e) :
    renderOneObjectUpperTile env r layer o = (r, some e) := by
  unfold lookupError at h
  unfold renderOneObjectUpperTile
  split
  · simp_all
  · split
    · simp_all
    · split
      · simp_all
      · split
        · simp_all
        · simp_all

theorem renderOneObjectUpperTile_m (env : Env) (r : Renderer) (layer : ObjectGroup)
    (o : Object) : (renderOneObjectUpperTile env r layer o).1.m = r.m := by
  unfold renderOneObjectUpperTile
  split
  · rfl
  · split
    · rfl
    · split
      · rfl
      · split <;> rfl

theorem forEach_invariant {α S : Type} (f : S → α → S × Option Error) (P : S → Prop)
    (hf : ∀ s x, P s → P (f s x).1) (xs : List α) (s : S) (hs : P s) :
    P (forEach f xs s).1 := by
  induction xs generalizing s with
  | nil => exact hs
  | cons x xs ih =>
    have hx := hf s x hs
    unfold forEach
    split
    · rename_i s' err heq
      rw [heq] at hx; exact hx
    · rename_i s' heq
      rw [heq] at hx; exact ih s' hx

/-! ## The claims on the object layer -/

/-- C7: `_renderObjectGroup` runs through the objects in sorted order.  If the sorted sequence
is `pre ++ o :: post`, no object of `pre` raises a lookup error and `o` raises the error `e`,
then it returns exactly `e` with the state holding the draws of `pre` and nothing else; if no
object raises a lookup error it returns `nil` after the draws of all objects.
`RenderObjectGroup` and `RenderGroupObjectGroup` return the same error and canvas. -/
theorem renderObjectGroup_first_error (env : Env) (r : Renderer) (og : ObjectGroup) :
    (∀ pre o post e, SortAny og.Objects sortObjs = pre ++ o :: post →
        (∀ p ∈ pre, lookupError env p = none) → lookupError env o = some e →
        _renderObjectGroup env r og
          = ({ og with Objects := SortAny og.Objects sortObjs },
              drawObjects env { og with Objects := SortAny og.Objects sortObjs } pre r,
              some e))
      ∧ ((∀ o ∈ SortAny og.Objects sortObjs, lookupError env o = none) →
        _renderObjectGroup env r og
          = ({ og with Objects := SortAny og.Objects sortObjs },
              drawObjects env { og with Objects := SortAny og.Objects sortObjs }
                (SortAny og.Objects sortObjs) r,
              none))
      ∧ (∀ i, r.m.ObjectGroups[i]? = some og →
        (RenderObjectGroup env r i).map (fun p => (p.1.Result, p.2))
          = some ((_renderObjectGroup env r og).2.1.Result, (_renderObjectGroup env r og).2.2))
      ∧ (∀ gi i g, r.m.Groups[gi]? = some g → g.ObjectGroups[i]? = some og →
        (RenderGroupObjectGroup env r gi i).map (fun p => (p.1.Result, p.2))
          = some ((_renderObjectGroup env r og).2.1.Result,
              (_renderObjectGroup env r og).2.2)) := by
  refine ⟨?_, ?_, ?_, ?_⟩
  · intro pre o post e hsorted hpre ho
    unfold _renderObjectGroup
    simp only [hsorted]
    rw [forEach_first_error _ pre o post r e
      (fun p hp s => by rw [renderOneObjectUpperTile_error]; exact hpre p hp)
      (by rw [renderOneObjectUpperTile_error]; exact ho)]
    simp only [renderOneObjectUpperTile_of_error env _ _ o e ho]
    rfl
  · intro hall
    unfold _renderObjectGroup
    simp only
    rw [forEach_all_ok _ _ r
      (fun p hp s => by rw [renderOneObjectUpperTile_error]; exact hall p hp)]
    rfl
  · intro i hi
    simp only [RenderObjectGroup, hi, Option.map_some']
  · intro gi i g hg hi
    simp only [RenderGroupObjectGroup, hg, hi, Option.map_some']

/-- Witness for C7: a layer given as `[C, B, A]` with A at `y = 16`, B at `y = 32` carrying the
invalid GID 9, and C at `y = 48`: the sorted order is `[A, B, C]`, the call returns the error of
B, and the state holds the draw of A only. -/
theorem renderObjectGroup_first_error_witness :
    SortAny [mkObject 3 1 0 48 16 16, mkObject 2 9 0 32 16 16, mkObject 1 1 0 16 16 16] sortObjs
        = [mkObject 1 1 0 16 16 16] ++ mkObject 2 9 0 32 16 16 :: [mkObject 3 1 0 48 16 16]
      ∧ (∀ p ∈ [mkObject 1 1 0 16 16 16], lookupError demoEnv p = none)
      ∧ lookupError demoEnv (mkObject 2 9 0 32 16 16) = some "tiled: invalid tile GID"
      ∧ _renderObjectGroup demoEnv (demoRenderer [] [])
          (demoLayer [mkObject 3 1 0 48 16 16, mkObject 2 9 0 32 16 16, mkObject 1 1 0 16 16 16])
        = (demoLayer [mkObject 1 1 0 16 16 16, mkObject 2 9 0 32 16 16, mkObject 3 1 0 48 16 16],
            drawObjects demoEnv
              (demoLayer
                [mkObject 1 1 0 16 16 16, mkObject 2 9 0 32 16 16, mkObject 3 1 0 48 16 16])
              [mkObject 1 1 0 16 16 16] (demoRenderer [] []),
            some "tiled: invalid tile GID") := by
  have h1 : SortAny [mkObject 3 1 0 48 16 16, mkObject 2 9 0 32 16 16, mkObject 1 1 0 16 16 16]
      sortObjs
        = [mkObject 1 1 0 16 16 16] ++ mkObject 2 9 0 32 16 16 :: [mkObject 3 1 0 48 16 16] := by
    decide
  have h2 : ∀ p ∈ [mkObject 1 1 0 16 16 16], lookupError demoEnv p = none := by decide
  have h3 : lookupError demoEnv (mkObject 2 9 0 32 16 16) = some "tiled: invalid tile GID" := by
    decide
  refine ⟨h1, h2, h3, ?_⟩
  have h := (renderObjectGroup_first_error demoEnv (demoRenderer [] [])
    (demoLayer [mkObject 3 1 0 48 16 16, mkObject 2 9 0 32 16 16, mkObject 1 1 0 16 16 16])).1
    [mkObject 1 1 0 16 16 16] (mkObject 2 9 0 32 16 16) [mkObject 3 1 0 48 16 16]
    "tiled: invalid tile GID" h1 h2 h3
  rw [h]
  simp only [demoLayer, h1]
  rfl

/-! ## What rendering does to the map -/

theorem ObjectGroup.SameObjects.layer_refl (g : ObjectGroup) : g.SameObjects g :=
  ⟨rfl, rfl, List.Perm.refl _⟩

theorem ObjectGroup.SameObjects.layer_trans {g₁ g₂ g₃ : ObjectGroup} (h₁ : g₁.SameObjects g₂)
    (h₂ : g₂.SameObjects g₃) : g₁.SameObjects g₃ :=
  ⟨h₂.1.trans h₁.1, h₂.2.1.trans h₁.2.1, h₂.2.2.trans h₁.2.2⟩

theorem forall₂_self {α : Type} {R : α → α → Prop} (hR : ∀ a, R a a) (l : List α) :
    List.Forall₂ R l l :=
  List.forall₂_same.mpr (fun x _ => hR x)

theorem forall₂_chain {α : Type} {R : α → α → Prop} (hR : ∀ a b c, R a b → R b c → R a c) :
    ∀ {l₁ l₂ l₃ : List α}, List.Forall₂ R l₁ l₂ → List.Forall₂ R l₂ l₃ → List.Forall₂ R l₁ l₃
  | _, _, _, .nil, .nil => .nil
  | _, _, _, .cons h₁ t₁, .cons h₂ t₂ => .cons (hR _ _ _ h₁ h₂) (forall₂_chain hR t₁ t₂)

theorem forall₂_set {α : Type} {R : α → α → Prop} (hR : ∀ a, R a a) :
    ∀ (l : List α) (i : Nat) (x y : α), l[i]? = some x → R x y → List.Forall₂ R l (l.set i y)
  | [], _, _, _, h, _ => by simp at h
  | a :: l, 0, x, y, h, hxy => by
    simp at h; subst h
    exact .cons hxy (forall₂_self hR l)
  | a :: l, i + 1, x, y, h, hxy => by
    simp at h
    exact .cons (hR a) (forall₂_set hR l i x y h hxy)

theorem Group.SameObjects.group_refl (g : Group) : g.SameObjects g :=
  ⟨rfl, rfl, forall₂_self ObjectGroup.SameObjects.layer_refl _⟩

theorem Group.SameObjects.group_trans {g₁ g₂ g₃ : Group} (h₁ : g₁.SameObjects g₂)
    (h₂ : g₂.SameObjects g₃) : g₁.SameObjects g₃ :=
  ⟨h₂.1.trans h₁.1, h₂.2.1.trans h₁.2.1,
    forall₂_chain (R := ObjectGroup.SameObjects) (fun _ _ _ h h' => h.layer_trans h') h₁.2.2 h₂.2.2⟩

theorem Map.SameObjects.map_refl (m : Map) : m.SameObjects m :=
  ⟨rfl, forall₂_self Group.SameObjects.group_refl _, forall₂_self ObjectGroup.SameObjects.layer_refl _⟩

theorem Map.SameObjects.map_trans {m₁ m₂ m₃ : Map} (h₁ : m₁.SameObjects m₂)
    (h₂ : m₂.SameObjects m₃) : m₁.SameObjects m₃ :=
  ⟨h₂.1.trans h₁.1,
    forall₂_chain (R := Group.SameObjects) (fun _ _ _ h h' => h.group_trans h') h₁.2.1 h₂.2.1,
    forall₂_chain (R := ObjectGroup.SameObjects) (fun _ _ _ h h' => h.layer_trans h') h₁.2.2 h₂.2.2⟩

theorem _renderObjectGroup_fst (env : Env) (r : Renderer) (og : ObjectGroup) :
    (_renderObjectGroup env r og).1 = { og with Objects := SortAny og.Objects sortObjs } :=
  rfl

theorem _renderObjectGroup_same (env : Env) (r : Renderer) (og : ObjectGroup) :
    og.SameObjects (_renderObjectGroup env r og).1 :=
  ⟨rfl, rfl, SortAny_perm _ _⟩

theorem _renderObjectGroup_m (env : Env) (r : Renderer) (og : ObjectGroup) :
    (_renderObjectGroup env r og).2.1.m = r.m := by
  unfold _renderObjectGroup
  exact forEach_invariant
    (fun r' obj => renderOneObjectUpperTile env r'
      { og with Objects := SortAny og.Objects sortObjs } obj)
    (fun r' => r'.m = r.m)
    (fun s x hs => (renderOneObjectUpperTile_m env s _ x).trans hs) _ r rfl

theorem renderGroupObjectGroups_same (env : Env) (ogs : List ObjectGroup) (r : Renderer) :
    List.Forall₂ ObjectGroup.SameObjects ogs (renderGroupObjectGroups env ogs r).1 := by
  induction ogs generalizing r with
  | nil => exact .nil
  | cons og rest ih =>
    unfold renderGroupObjectGroups
    split
    · exact .cons (ObjectGroup.SameObjects.layer_refl og) (ih r)
    · have hs := _renderObjectGroup_same env r og
      split
      · rename_i og' r' err heq
        rw [heq] at hs
        exact .cons hs (forall₂_self ObjectGroup.SameObjects.layer_refl rest)
      · rename_i og' r' heq
        rw [heq] at hs
        exact .cons hs (ih r')

theorem _renderGroup_same (env : Env) (r : Renderer) (group : Group) :
    group.SameObjects (_renderGroup env r group).1 := by
  unfold _renderGroup
  split
  · exact Group.SameObjects.group_refl group
  · exact ⟨rfl, rfl, renderGroupObjectGroups_same env _ _⟩

theorem RenderObjectGroup_same (env : Env) (r : Renderer) (i : Nat) (r' : Renderer)
    (e : Option Error) (h : RenderObjectGroup env r i = some (r', e)) :
    r.m.SameObjects r'.m := by
  unfold RenderObjectGroup at h
  split at h
  · cases h
  · rename_i layer hl
    simp only [Option.some.injEq, Prod.mk.injEq] at h
    rw [← h.1]
    exact ⟨rfl, forall₂_self Group.SameObjects.group_refl _,
      forall₂_set ObjectGroup.SameObjects.layer_refl _ i layer _ hl
        (_renderObjectGroup_same env r layer)⟩

theorem renderVisibleObjectGroupsLoop_same (env : Env) (is : List Nat) (r : Renderer)
    (r' : Renderer) (e : Option Error)
    (h : renderVisibleObjectGroupsLoop env is r = some (r', e)) : r.m.SameObjects r'.m := by
  induction is generalizing r with
  | nil =>
    simp only [renderVisibleObjectGroupsLoop, Option.some.injEq, Prod.mk.injEq] at h
    rw [← h.1]
    exact Map.SameObjects.map_refl _
  | cons i rest ih =>
    unfold renderVisibleObjectGroupsLoop at h
    split at h
    · cases h
    · split at h
      · split at h
        · cases h
        · rename_i r1 err heq
          simp only [Option.some.injEq, Prod.mk.injEq] at h
          rw [← h.1]
          exact RenderObjectGroup_same env r i r1 _ heq
        · rename_i r1 heq
          exact (RenderObjectGroup_same env r i r1 _ heq).map_trans (ih r1 h)
      · exact ih r h

theorem RenderGroup_same (env : Env) (r : Renderer) (groupIdx : Nat) (r' : Renderer)
    (e : Option Error) (h : RenderGroup env r groupIdx = some (r', e)) :
    r.m.SameObjects r'.m := by
  unfold RenderGroup at h
  split at h
  · cases h
  · rename_i group hg
    simp only [Option.some.injEq, Prod.mk.injEq] at h
    rw [← h.1]
    exact ⟨rfl, forall₂_set Group.SameObjects.group_refl _ groupIdx group _ hg
      (_renderGroup_same env r group), forall₂_self ObjectGroup.SameObjects.layer_refl _⟩

/-! ## The layers a walk has rendered are depth-sorted -/

theorem set_eq_self_of_getElem? {α : Type} {l : List α} {i : Nat} {x : α}
    (h : l[i]? = some x) : l.set i x = l := by
  apply List.ext_getElem?
  intro k
  rw [List.getElem?_set]
  split
  · rename_i hk
    subst hk
    split
    · exact h.symm
    · rename_i hlt
      rw [List.getElem?_eq_none (by omega)] at h
      cases h
  · rfl

theorem renderedUpTo_zero (ogs : List ObjectGroup) : renderedUpTo 0 ogs = ogs := by
  simp [renderedUpTo]

theorem renderedUpTo_cons (n : Nat) (og : ObjectGroup) (ogs : List ObjectGroup) :
    renderedUpTo (n + 1) (og :: ogs)
      = (if og.Visible then og.depthSorted else og) :: renderedUpTo n ogs := by
  simp [renderedUpTo]

theorem renderedUpTo_succ (n : Nat) (ogs : List ObjectGroup) (hn : n < ogs.length) :
    renderedUpTo (n + 1) ogs
      = (renderedUpTo n ogs).set n (if ogs[n].Visible then ogs[n].depthSorted else ogs[n]) := by
  induction ogs generalizing n with
  | nil => simp at hn
  | cons og rest ih =>
    cases n with
    | zero => simp [renderedUpTo]
    | succ n =>
      rw [renderedUpTo_cons, renderedUpTo_cons, List.set_cons_succ, ih n (by simpa using hn)]
      simp

theorem renderedUpTo_getElem? (n : Nat) (ogs : List ObjectGroup) :
    (renderedUpTo n ogs)[n]? = ogs[n]? := by
  induction ogs generalizing n with
  | nil => simp [renderedUpTo]
  | cons og rest ih =>
    cases n with
    | zero => simp [renderedUpTo]
    | succ n => rw [renderedUpTo_cons]; simpa using ih n

theorem renderedUpTo_length (n : Nat) (ogs : List ObjectGroup) :
    (renderedUpTo n ogs).length = ogs.length := by
  induction ogs generalizing n with
  | nil => simp [renderedUpTo]
  | cons og rest ih =>
    cases n with
    | zero => simp [renderedUpTo]
    | succ n => rw [renderedUpTo_cons]; simp [ih n]

theorem renderGroupObjectGroups_rendered (env : Env) (ogs : List ObjectGroup) (r : Renderer) :
    ∃ n, n ≤ ogs.length
      ∧ ((renderGroupObjectGroups env ogs r).2.2 = none → n = ogs.length)
      ∧ (renderGroupObjectGroups env ogs r).1 = renderedUpTo n ogs := by
  induction ogs generalizing r with
  | nil => exact ⟨0, le_refl _, fun _ => rfl, rfl⟩
  | cons og rest ih =>
    cases hv : og.Visible with
    | false =>
      obtain ⟨n, hn, he, hl⟩ := ih r
      refine ⟨n + 1, by simpa using hn, ?_, ?_⟩
      · intro h
        unfold renderGroupObjectGroups at h
        simp only [hv, Bool.not_false, if_true] at h
        simp [he h]
      · unfold renderGroupObjectGroups
        simp only [hv, Bool.not_false, if_true]
        rw [renderedUpTo_cons, hl]
        simp [hv]
    | true =>
      have hf := _renderObjectGroup_fst env r og
      rcases hg : _renderObjectGroup env r og with ⟨og1, r1, _ | e⟩
      · rw [hg] at hf
        simp only at hf
        obtain ⟨n, hn, he, hl⟩ := ih r1
        refine ⟨n + 1, by simpa using hn, ?_, ?_⟩
        · intro h
          unfold renderGroupObjectGroups at h
          simp only [hv, Bool.not_true, Bool.false_eq_true, if_false, hg] at h
          simp [he h]
        · unfold renderGroupObjectGroups
          simp only [hv, Bool.not_true, Bool.false_eq_true, if_false, hg]
          rw [renderedUpTo_cons, hl, hf]
          simp [hv, ObjectGroup.depthSorted]
      · rw [hg] at hf
        simp only at hf
        refine ⟨1, by simp, ?_, ?_⟩
        · intro h
          unfold renderGroupObjectGroups at h
          simp only [hv, Bool.not_true, Bool.false_eq_true, if_false, hg] at h
          cases h
        · unfold renderGroupObjectGroups
          simp only [hv, Bool.not_true, Bool.false_eq_true, if_false, hg]
          rw [renderedUpTo_cons, renderedUpTo_zero, hf]
          simp [hv, ObjectGroup.depthSorted]

theorem _renderGroup_rendered (env : Env) (r : Renderer) (group : Group) :
    ∃ n, n ≤ group.ObjectGroups.length
      ∧ ((_renderGroup env r group).2.2 = none → n = group.ObjectGroups.length)
      ∧ (_renderGroup env r group).1
        = ⟨group.Visible, group.Layers, renderedUpTo n group.ObjectGroups⟩ := by
  unfold _renderGroup
  rcases hl : renderGroupLayers env group.Layers r with ⟨r1, _ | e⟩
  · simp only
    obtain ⟨n, hn, he, hs⟩ := renderGroupObjectGroups_rendered env group.ObjectGroups r1
    exact ⟨n, hn, he, by rw [hs]⟩
  · simp only
    exact ⟨0, Nat.zero_le _, (fun h => by cases h), by rw [renderedUpTo_zero]⟩

theorem RenderObjectGroup_layers (env : Env) (r : Renderer) (i : Nat) (r' : Renderer)
    (e : Option Error) (h : RenderObjectGroup env r i = some (r', e)) :
    ∃ og, r.m.ObjectGroups[i]? = some og
      ∧ r'.m = ⟨r.m.TileHeight, r.m.Groups, r.m.ObjectGroups.set i og.depthSorted⟩ := by
  unfold RenderObjectGroup at h
  split at h
  · cases h
  · rename_i layer hl
    simp only [Option.some.injEq, Prod.mk.injEq] at h
    exact ⟨layer, hl, by rw [← h.1]; rfl⟩

theorem renderVisibleObjectGroupsLoop_rendered (env : Env) (all : List ObjectGroup) (k i : Nat)
    (r : Renderer) (hk : i + k = all.length)
    (hcur : r.m.ObjectGroups = renderedUpTo i all) (r' : Renderer) (e : Option Error)
    (h : renderVisibleObjectGroupsLoop env (List.range' i k) r = some (r', e)) :
    ∃ n, n ≤ all.length ∧ (e = none → n = all.length)
      ∧ r'.m = ⟨r.m.TileHeight, r.m.Groups, renderedUpTo n all⟩ := by
  induction k generalizing i r with
  | zero =>
    simp only [List.range'_zero, renderVisibleObjectGroupsLoop, Option.some.injEq,
      Prod.mk.injEq] at h
    refine ⟨i, by omega, fun _ => by omega, ?_⟩
    rw [← h.1, ← hcur]
  | succ k ih =>
    have hi : i < all.length := by omega
    have hget : r.m.ObjectGroups[i]? = some all[i] := by
      rw [hcur, renderedUpTo_getElem?, List.getElem?_eq_getElem hi]
    rw [List.range'_succ] at h
    unfold renderVisibleObjectGroupsLoop at h
    simp only [hget] at h
    cases hv : all[i].Visible with
    | false =>
      simp only [hv, Bool.false_eq_true, if_false] at h
      have hcur' : r.m.ObjectGroups = renderedUpTo (i + 1) all := by
        rw [renderedUpTo_succ i all hi, ← hcur]
        simp only [hv, Bool.false_eq_true, if_false]
        exact (set_eq_self_of_getElem? hget).symm
      exact ih (i + 1) r (by omega) hcur' h
    | true =>
      simp only [hv, if_true] at h
      rcases hr : RenderObjectGroup env r i with _ | ⟨r1, _ | err⟩
      · rw [hr] at h; cases h
      · rw [hr] at h
        simp only at h
        obtain ⟨og, hog, hm⟩ := RenderObjectGroup_layers env r i r1 none hr
        rw [hget] at hog
        cases hog
        have hcur' : r1.m.ObjectGroups = renderedUpTo (i + 1) all := by
          rw [hm, renderedUpTo_succ i all hi, ← hcur]
          simp only [hv, if_true]
        obtain ⟨n, hn, he, hres⟩ := ih (i + 1) r1 (by omega) hcur' h
        refine ⟨n, hn, he, ?_⟩
        rw [hres, hm]
      · rw [hr] at h
        simp only [Option.some.injEq, Prod.mk.injEq] at h
        obtain ⟨og, hog, hm⟩ := RenderObjectGroup_layers env r i r1 (some err) hr
        rw [hget] at hog
        cases hog
        refine ⟨i + 1, by omega, (fun he => by rw [← h.2] at he; cases he), ?_⟩
        rw [← h.1, hm, renderedUpTo_succ i all hi, ← hcur]
        simp only [hv, if_true]

theorem RenderVisibleObjectGroups_rendered (env : Env) (r r' : Renderer) (e : Option Error)
    (h : RenderVisibleObjectGroups env r = some (r', e)) :
    ∃ n, n ≤ r.m.ObjectGroups.length ∧ (e = none → n = r.m.ObjectGroups.length)
      ∧ r'.m = ⟨r.m.TileHeight, r.m.Groups, renderedUpTo n r.m.ObjectGroups⟩ := by
  unfold RenderVisibleObjectGroups at h
  rw [List.range_eq_range'] at h
  exact renderVisibleObjectGroupsLoop_rendered env r.m.ObjectGroups _ 0 r (by omega)
    (renderedUpTo_zero _).symm r' e h

theorem RenderGroup_rendered (env : Env) (r : Renderer) (groupIdx : Nat) (r' : Renderer)
    (e : Option Error) (h : RenderGroup env r groupIdx = some (r', e)) :
    ∃ g n, r.m.Groups[groupIdx]? = some g ∧ n ≤ g.ObjectGroups.length
      ∧ (e = none → n = g.ObjectGroups.length)
      ∧ r'.m = ⟨r.m.TileHeight,
          r.m.Groups.set groupIdx ⟨g.Visible, g.Layers, renderedUpTo n g.ObjectGroups⟩,
          r.m.ObjectGroups⟩ := by
  unfold RenderGroup at h
  split at h
  · cases h
  · rename_i group hg
    simp only [Option.some.injEq, Prod.mk.injEq] at h
    obtain ⟨n, hn, he, hs⟩ := _renderGroup_rendered env r group
    refine ⟨group, n, hg, hn, (fun h0 => he (by rw [h.2]; exact h0)), ?_⟩
    rw [← h.1, hs]

/-! ## The claim on the map model -/

/-- C10, counterexample: a layer whose objects are given as `[1, 2]` (by ID), the first at
`y = 32` and the second at `y = 16`, holds them in the order `[2, 1]` after
`RenderObjectGroup` has returned `nil`. -/
theorem renderObjectGroup_reorders_layer :
    (demoRenderer [] [demoLayer [mkObject 1 1 0 32 16 16, mkObject 2 1 0 16 16 16]]).m.ObjectGroups.map
        (fun g => g.Objects.map (fun o => o.ID)) = [[1, 2]]
      ∧ (RenderObjectGroup demoEnv
          (demoRenderer [] [demoLayer [mkObject 1 1 0 32 16 16, mkObject 2 1 0 16 16 16]]) 0).map
        (fun p => (p.1.m.ObjectGroups.map (fun g => g.Objects.map (fun o => o.ID)), p.2))
        = some ([[2, 1]], none) := by
  constructor
  · decide
  · decide

/-- C10, amended: when `RenderObjectGroup`, `RenderVisibleObjectGroups` or `RenderGroup` returns,
the map is the map of before with the objects of its object layers possibly reordered: every
object layer holds the same objects, each as often, under the same flags, and nothing else of
the map has changed.  Every layer that was rendered holds its objects in the order of
`SortAny`, every other layer is as it was: `RenderObjectGroup` leaves layer `i` sorted;
`RenderVisibleObjectGroups` leaves the visible ones among the first `n` top-level layers
sorted, and `RenderGroup` the visible ones among the first `n` object layers of the group,
where `n` is the number of layers when `nil` is returned and the index after the failing layer
(0 when a tile layer of the group failed) otherwise. -/
theorem render_keeps_objects (env : Env) (r : Renderer) :
    (∀ i r' e, RenderObjectGroup env r i = some (r', e) →
        r.m.SameObjects r'.m
          ∧ (∀ og, r.m.ObjectGroups[i]? = some og →
            (r'.m.ObjectGroups[i]?).map (fun g => g.Objects)
              = some (SortAny og.Objects sortObjs))
          ∧ ∃ og, r.m.ObjectGroups[i]? = some og
            ∧ r'.m = ⟨r.m.TileHeight, r.m.Groups, r.m.ObjectGroups.set i og.depthSorted⟩)
      ∧ (∀ r' e, RenderVisibleObjectGroups env r = some (r', e) →
          r.m.SameObjects r'.m
            ∧ ∃ n, n ≤ r.m.ObjectGroups.length ∧ (e = none → n = r.m.ObjectGroups.length)
              ∧ r'.m = ⟨r.m.TileHeight, r.m.Groups, renderedUpTo n r.m.ObjectGroups⟩)
      ∧ (∀ groupIdx r' e, RenderGroup env r groupIdx = some (r', e) →
          r.m.SameObjects r'.m
            ∧ ∃ g n, r.m.Groups[groupIdx]? = some g ∧ n ≤ g.ObjectGroups.length
              ∧ (e = none → n = g.ObjectGroups.length)
              ∧ r'.m = ⟨r.m.TileHeight,
                  r.m.Groups.set groupIdx ⟨g.Visible, g.Layers, renderedUpTo n g.ObjectGroups⟩,
                  r.m.ObjectGroups⟩) := by
  refine ⟨?_, ?_, ?_⟩
  · intro i r' e h
    refine ⟨RenderObjectGroup_same env r i r' e h, ?_, RenderObjectGroup_layers env r i r' e h⟩
    intro og hog
    unfold RenderObjectGroup at h
    rw [hog] at h
    simp only [Option.some.injEq, Prod.mk.injEq] at h
    rw [← h.1]
    have hi := (List.getElem?_eq_some.mp hog).1
    simp [List.getElem?_set, hi, _renderObjectGroup_fst]
  · intro r' e h
    exact ⟨renderVisibleObjectGroupsLoop_same env _ r r' e h,
      RenderVisibleObjectGroups_rendered env r r' e h⟩
  · intro groupIdx r' e h
    exact ⟨RenderGroup_same env r groupIdx r' e h, RenderGroup_rendered env r groupIdx r' e h⟩

/-- Witness for C10, amended: after the call on the layer `[1, 2]` above, the layer holds a
permutation of its objects. -/
theorem render_keeps_objects_witness :
    RenderObjectGroup demoEnv
        (demoRenderer [] [demoLayer [mkObject 1 1 0 32 16 16, mkObject 2 1 0 16 16 16]]) 0
      = some ((RenderObjectGroup demoEnv
          (demoRenderer [] [demoLayer [mkObject 1 1 0 32 16 16, mkObject 2 1 0 16 16 16]])
          0).get (by decide))
      ∧ (demoRenderer [] [demoLayer [mkObject 1 1 0 32 16 16, mkObject 2 1 0 16 16 16]]).m.SameObjects
          ((RenderObjectGroup demoEnv
            (demoRenderer [] [demoLayer [mkObject 1 1 0 32 16 16, mkObject 2 1 0 16 16 16]])
            0).get (by decide)).1.m :=
  ⟨(Option.some_get (by decide)).symm, ((render_keeps_objects demoEnv
      (demoRenderer [] [demoLayer [mkObject 1 1 0 32 16 16, mkObject 2 1 0 16 16 16]])).1 0
      ((RenderObjectGroup demoEnv
        (demoRenderer [] [demoLayer [mkObject 1 1 0 32 16 16, mkObject 2 1 0 16 16 16]])
        0).get (by decide)).1
      ((RenderObjectGroup demoEnv
        (demoRenderer [] [demoLayer [mkObject 1 1 0 32 16 16, mkObject 2 1 0 16 16 16]])
        0).get (by decide)).2
      (Option.some_get (by decide)).symm).1⟩

/-! ## Rounding to `float64`: what the operations of the upper band keep -/

namespace F64

theorem log2Loop_spec : ∀ (fuel n : Nat), n ≤ fuel → 0 < n →
    2 ^ log2Loop fuel n ≤ n ∧ n < 2 ^ (log2Loop fuel n + 1)
  | 0, n, h, h0 => by omega
  | fuel + 1, n, h, h0 => by
    simp only [log2Loop]
    split
    · have : n = 1 := by omega
      subst this; simp
    · have ih := log2Loop_spec fuel (n / 2) (by omega) (by omega)
      generalize log2Loop fuel (n / 2) = k at ih ⊢
      simp only [pow_succ] at ih ⊢
      generalize 2 ^ k = w at ih ⊢
      omega

theorem log2_spec (n : Nat) (h : 0 < n) : 2 ^ log2 n ≤ n ∧ n < 2 ^ (log2 n + 1) :=
  log2Loop_spec n n le_rfl h

theorem two_zpow_eq (z : Int) : (2 : ℚ) ^ z = (2 : ℚ) ^ z.toNat / (2 : ℚ) ^ (-z).toNat := by
  rcases le_total 0 z with h | h
  · have h1 : (-z).toNat = 0 := by omega
    rw [h1, pow_zero, div_one]
    conv_lhs => rw [← Int.toNat_of_nonneg h]
    rw [zpow_natCast]
  · have h1 : z.toNat = 0 := by omega
    have h2 : z = -((-z).toNat : Int) := by omega
    rw [h1, pow_zero]
    conv_lhs => rw [h2]
    rw [zpow_neg, zpow_natCast, one_div]

/-- The exponent of the model is the binary exponent of `n / d`. -/
theorem exponent_spec (n d : Nat) (hn : 0 < n) (hd : 0 < d) :
    (2 : ℚ) ^ exponent n d ≤ (n : ℚ) / d ∧ (n : ℚ) / d < (2 : ℚ) ^ (exponent n d + 1) := by
  obtain ⟨a1, a2⟩ := log2_spec n hn
  obtain ⟨b1, b2⟩ := log2_spec d hd
  have hdq : (0 : ℚ) < d := by exact_mod_cast hd
  have hnq : (0 : ℚ) < n := by exact_mod_cast hn
  have a1q : (2 : ℚ) ^ (log2 n) ≤ n := by exact_mod_cast a1
  have a2q : (n : ℚ) < 2 ^ (log2 n) * 2 := by rw [← pow_succ]; exact_mod_cast a2
  have b1q : (2 : ℚ) ^ (log2 d) ≤ d := by exact_mod_cast b1
  have b2q : (d : ℚ) < 2 ^ (log2 d) * 2 := by rw [← pow_succ]; exact_mod_cast b2
  have hA : (0 : ℚ) < 2 ^ (log2 n) := by positivity
  have hB : (0 : ℚ) < 2 ^ (log2 d) := by positivity
  have he0 : (2 : ℚ) ^ ((log2 n : Int) - (log2 d : Int)) = 2 ^ (log2 n) / 2 ^ (log2 d) := by
    rw [zpow_sub₀ (by norm_num), zpow_natCast, zpow_natCast]
  unfold exponent
  simp only
  generalize hA0 : (2 : ℚ) ^ (log2 n) = A at *
  generalize hB0 : (2 : ℚ) ^ (log2 d) = B at *
  split
  · rename_i hc
    have hcq : (d : ℚ) * 2 ^ ((log2 n : Int) - (log2 d : Int)).toNat
        ≤ n * 2 ^ (-((log2 n : Int) - (log2 d : Int))).toNat := by exact_mod_cast hc
    constructor
    · rw [two_zpow_eq, div_le_div_iff₀ (by positivity) hdq]
      linarith
    · rw [zpow_add_one₀ (by norm_num), he0, div_lt_iff₀ hdq, div_mul_eq_mul_div, div_mul_eq_mul_div,
        lt_div_iff₀ hB]
      nlinarith
  · rename_i hc
    have hcq : (n : ℚ) * 2 ^ (-((log2 n : Int) - (log2 d : Int))).toNat
        < (d : ℚ) * 2 ^ ((log2 n : Int) - (log2 d : Int)).toNat := by
      exact_mod_cast Nat.lt_of_not_le hc
    constructor
    · rw [zpow_sub_one₀ (by norm_num), he0, le_div_iff₀ hdq]
      rw [show A / B * (2 : ℚ)⁻¹ * d = A * d / (B * 2) by field_simp]
      rw [div_le_iff₀ (by positivity)]
      nlinarith
    · rw [sub_add_cancel, two_zpow_eq, div_lt_div_iff₀ hdq (by positivity)]
      linarith

/-- The rounded quotient is within one half of the exact one. -/
theorem roundHalfEven_err (N D : Nat) (hD : 0 < D) :
    |(roundHalfEven N D : ℚ) - (N : ℚ) / D| ≤ 1 / 2 := by
  have hDq : (0 : ℚ) < D := by exact_mod_cast hD
  have hN : (N : ℚ) = D * (N / D : Nat) + (N % D : Nat) := by exact_mod_cast (Nat.div_add_mod N D).symm
  have hr : N % D < D := Nat.mod_lt N hD
  have hrq : ((N % D : Nat) : ℚ) < D := by exact_mod_cast hr
  have hr0 : (0 : ℚ) ≤ ((N % D : Nat) : ℚ) := by positivity
  have key : ∀ m : ℚ, 2 * (m * D) ≤ 2 * (N : ℚ) + D → 2 * (N : ℚ) ≤ 2 * (m * D) + D →
      |m - (N : ℚ) / D| ≤ 1 / 2 := by
    intro m h1 h2
    have hx : (N : ℚ) / D * D = N := div_mul_cancel₀ _ hDq.ne'
    generalize (N : ℚ) / D = x at hx
    rw [abs_le]
    constructor
    · by_contra hcon
      push_neg at hcon
      nlinarith
    · by_contra hcon
      push_neg at hcon
      nlinarith
  unfold roundHalfEven
  simp only
  generalize hm : N / D = m at *
  generalize hr1 : N % D = r at *
  split
  · rename_i h
    have hq : 2 * (r : ℚ) < D := by exact_mod_cast h
    apply key <;> nlinarith
  · split
    · rename_i h1 h
      have hq : (D : ℚ) < 2 * (r : ℚ) := by exact_mod_cast h
      push_cast
      apply key <;> nlinarith
    · rename_i h1 h2
      have hq : 2 * (r : ℚ) = D := by
        have : 2 * r = D := by omega
        exact_mod_cast this
      split
      · apply key <;> nlinarith
      · push_cast
        apply key <;> nlinarith

/-- The result of a rounding below `2 ^ 53` in magnitude: a multiple `z / 2 ^ s` of a power of
two within half of that power of two of the exact value, where `2 ^ s` is so large that the
exact value times it is at least `2 ^ 52` (or `s` is 1074). -/
theorem round_spec (q : ℚ) (hq : |q| < 2 ^ 53) :
    ∃ (z : Int) (s : Nat), round q = some ((z : ℚ) / 2 ^ s) ∧ |(z : ℚ) - q * 2 ^ s| ≤ 1 / 2
      ∧ (s = 1074 ∨ (2 : ℚ) ^ 52 ≤ |q| * 2 ^ s) := by
  by_cases h0 : q = 0
  · refine ⟨0, 1074, ?_, ?_, Or.inl rfl⟩
    · subst h0; simp [round]
    · subst h0; norm_num
  have hn : 0 < q.num.natAbs := Int.natAbs_pos.mpr (Rat.num_ne_zero.mpr h0)
  have hd : 0 < q.den := q.den_pos
  have hdq : (0 : ℚ) < q.den := by exact_mod_cast hd
  have habs : (q.num.natAbs : ℚ) / q.den = |q| := by
    rw [Nat.cast_natAbs]
    conv_rhs => rw [← Rat.num_div_den q]
    rw [abs_div, Nat.abs_cast]
    push_cast
    rfl
  obtain ⟨e1, e2⟩ := exponent_spec q.num.natAbs q.den hn hd
  rw [habs] at e1 e2
  generalize he : exponent q.num.natAbs q.den = e at e1 e2
  have he52 : e ≤ 52 := by
    have h1 : (2 : ℚ) ^ e < (2 : ℚ) ^ (53 : Int) := by
      refine lt_of_le_of_lt e1 ?_
      rw [show (53 : Int) = ((53 : Nat) : Int) by rfl, zpow_natCast]
      exact hq
    have := (zpow_lt_zpow_iff_right₀ (by norm_num : (1 : ℚ) < 2)).mp h1
    omega
  have hp : max (e - 52) (-1074) ≤ 0 := by omega
  have hp1 : (max (e - 52) (-1074)).toNat = 0 := by omega
  have hs : (-(max (e - 52) (-1074))).toNat ≤ 1074 := by omega
  have hrm : roundMag q.num.natAbs q.den
      = (roundHalfEven (q.num.natAbs * 2 ^ (-(max (e - 52) (-1074))).toNat) (q.den * 2 ^ 0),
          max (e - 52) (-1074)) := by
    unfold roundMag
    simp only [he, hp1]
  generalize hs0 : (-(max (e - 52) (-1074))).toNat = s at hrm hs
  have hs2 : s = 1074 ∨ (s : Int) = 52 - e := by omega
  have herr := roundHalfEven_err (q.num.natAbs * 2 ^ s) (q.den * 2 ^ 0) (by positivity)
  generalize hM : roundHalfEven (q.num.natAbs * 2 ^ s) (q.den * 2 ^ 0) = M at hrm herr
  have hx : (((q.num.natAbs * 2 ^ s : Nat) : ℚ)) / ((q.den * 2 ^ 0 : Nat) : ℚ) = |q| * 2 ^ s := by
    push_cast
    rw [mul_one, ← habs]
    ring
  rw [hx] at herr
  have h2s : (0 : ℚ) < 2 ^ s := by positivity
  -- the bound on the significand
  have hlt : |q| * 2 ^ s < 2 ^ 53 := by
    have h3 : (2 : ℚ) ^ (e + 1) * 2 ^ s ≤ 2 ^ 53 := by
      rw [← zpow_natCast (2 : ℚ) s, ← zpow_add₀ (by norm_num : (2 : ℚ) ≠ 0),
        show (2 : ℚ) ^ 53 = (2 : ℚ) ^ ((53 : Nat) : Int) by rw [zpow_natCast]]
      apply zpow_le_zpow_right₀ (by norm_num)
      push_cast
      omega
    calc |q| * 2 ^ s < (2 : ℚ) ^ (e + 1) * 2 ^ s := by
          apply mul_lt_mul_of_pos_right e2 h2s
      _ ≤ 2 ^ 53 := h3
  have hM53 : M ≤ 2 ^ 53 := by
    have h4 : (M : ℚ) < 9007199254740993 := by
      have := (abs_le.mp herr).2
      norm_num at hlt
      linarith
    have h6 : M < 9007199254740993 := by exact_mod_cast h4
    norm_num
    omega
  have hno : ¬ (2 ^ 1024 ≤ M * 2 ^ 0) := by
    rw [pow_zero, mul_one, not_le]
    exact lt_of_le_of_lt hM53 (by norm_num)
  have hmag : (mkRat ((M : Int) * 2 ^ 0) (2 ^ s) : ℚ) = (M : ℚ) / 2 ^ s := by
    rw [Rat.mkRat_eq_div]
    push_cast
    ring
  have hlast : s = 1074 ∨ (2 : ℚ) ^ 52 ≤ |q| * 2 ^ s := by
    rcases hs2 with h | h
    · exact Or.inl h
    · right
      have h7 : (2 : ℚ) ^ e * 2 ^ s = 2 ^ 52 := by
        rw [← zpow_natCast (2 : ℚ) s, ← zpow_add₀ (by norm_num : (2 : ℚ) ≠ 0),
          show (2 : ℚ) ^ 52 = (2 : ℚ) ^ ((52 : Nat) : Int) by rw [zpow_natCast]]
        congr 1
        push_cast
        omega
      rw [← h7]
      exact mul_le_mul_of_nonneg_right e1 h2s.le
  rcases lt_or_gt_of_ne h0 with hneg | hpos
  · refine ⟨-(M : Int), s, ?_, ?_, hlast⟩
    · unfold round
      rw [if_neg h0]
      simp only [hrm, hp1, hs0]
      rw [if_neg hno, if_pos hneg, hmag]
      congr 1
      push_cast
      ring
    · rw [abs_of_neg hneg] at herr
      push_cast
      rw [show -(M : ℚ) - q * 2 ^ s = -((M : ℚ) - -q * 2 ^ s) by ring, abs_neg]
      exact herr
  · refine ⟨(M : Int), s, ?_, ?_, hlast⟩
    · unfold round
      rw [if_neg h0]
      simp only [hrm, hp1, hs0]
      rw [if_neg hno, if_neg (not_lt.mpr hpos.le), hmag]
      congr 1
    · rw [abs_of_pos hpos] at herr
      push_cast
      exact herr

/-- A rounding below `2 ^ 53` in magnitude is finite and does not cross an integer. -/
theorem round_sandwich (q : ℚ) (hq : |q| < 2 ^ 53) :
    ∃ v : ℚ, round q = some v ∧ (∀ c : Int, (c : ℚ) ≤ q → (c : ℚ) ≤ v)
      ∧ (∀ c : Int, q ≤ (c : ℚ) → v ≤ (c : ℚ)) := by
  obtain ⟨z, s, h1, h2, _⟩ := round_spec q hq
  have h2s : (0 : ℚ) < 2 ^ s := by positivity
  have ha := abs_le.mp h2
  refine ⟨_, h1, ?_, ?_⟩
  · intro c hc
    rw [le_div_iff₀ h2s]
    have h3 : (c : ℚ) * 2 ^ s ≤ q * 2 ^ s := mul_le_mul_of_nonneg_right hc h2s.le
    have h4 : ((c * 2 ^ s : Int) : ℚ) < ((z + 1 : Int) : ℚ) := by
      push_cast
      linarith [ha.1]
    have h5 : c * 2 ^ s < z + 1 := by exact_mod_cast h4
    have h6 : c * 2 ^ s ≤ z := by omega
    exact_mod_cast h6
  · intro c hc
    rw [div_le_iff₀ h2s]
    have h3 : q * 2 ^ s ≤ (c : ℚ) * 2 ^ s := mul_le_mul_of_nonneg_right hc h2s.le
    have h4 : ((z : Int) : ℚ) < ((c * 2 ^ s + 1 : Int) : ℚ) := by
      push_cast
      linarith [ha.2]
    have h5 : z < c * 2 ^ s + 1 := by exact_mod_cast h4
    have h6 : z ≤ c * 2 ^ s := by omega
    exact_mod_cast h6

/-- An integer below `2 ^ 53` in magnitude is a `float64`. -/
theorem round_int (z : Int) (hz : |(z : ℚ)| < 2 ^ 53) : round (z : ℚ) = some (z : ℚ) := by
  obtain ⟨v, h1, h2, h3⟩ := round_sandwich (z : ℚ) hz
  rw [h1]
  congr 1
  exact le_antisymm (h3 z le_rfl) (h2 z le_rfl)

/-- The rounded quotient `y / t` of a `y` with at most 53 significant bits (and at most 1022
binary places) by an integer `t`, both below `2 ^ 52` in magnitude, has the floor of the exact
quotient. -/
theorem floor_round_div (y : ℚ) (t z : Int) (w : Nat) (hyz : y = (z : ℚ) / 2 ^ w)
    (hz : |(z : ℚ)| < 2 ^ 53) (hw : w ≤ 1022) (ht : 0 < t) (hy : |y| < 2 ^ 52)
    (ht2 : (t : ℚ) < 2 ^ 52) :
    ∃ v : ℚ, round (y / t) = some v ∧ ⌊v⌋ = ⌊y / t⌋ := by
  have htq : (0 : ℚ) < t := by exact_mod_cast ht
  have ht1 : (1 : ℚ) ≤ t := by exact_mod_cast ht
  have h2w : (0 : ℚ) < 2 ^ w := by positivity
  have hq : |y / t| < 2 ^ 53 := by
    rw [abs_div, abs_of_pos htq, div_lt_iff₀ htq]
    nlinarith [abs_nonneg y]
  obtain ⟨z1, s, h1, h2, h3⟩ := round_spec (y / t) hq
  obtain ⟨v, h1b, hlo, _⟩ := round_sandwich (y / t) hq
  have hv : v = (z1 : ℚ) / 2 ^ s := by
    rw [h1] at h1b
    exact (Option.some.inj h1b).symm
  refine ⟨v, h1b, ?_⟩
  have h2s : (0 : ℚ) < 2 ^ s := by positivity
  rw [Int.floor_eq_iff]
  constructor
  · exact hlo _ (Int.floor_le _)
  · -- the gap to the next integer is at least `1 / (t * 2 ^ w)`
    have hgap : y / t + 1 / (t * 2 ^ w) ≤ ((⌊y / t⌋ + 1 : Int) : ℚ) := by
      have h4 : y / t < ((⌊y / t⌋ + 1 : Int) : ℚ) := by
        push_cast
        exact Int.lt_floor_add_one _
      rw [div_lt_iff₀ htq] at h4
      have hzy : (z : ℚ) = y * 2 ^ w := by rw [hyz]; field_simp
      have h4b : (z : ℚ) < ((⌊y / t⌋ + 1 : Int) : ℚ) * t * 2 ^ w := by
        rw [hzy]
        exact mul_lt_mul_of_pos_right h4 h2w
      have h5 : z < (⌊y / t⌋ + 1) * t * 2 ^ w := by exact_mod_cast h4b
      have h6 : z + 1 ≤ (⌊y / t⌋ + 1) * t * 2 ^ w := by omega
      have h7 : (z : ℚ) + 1 ≤ ((⌊y / t⌋ + 1 : Int) : ℚ) * t * 2 ^ w := by exact_mod_cast h6
      have h8 : y / t + 1 / (t * 2 ^ w) = ((z : ℚ) + 1) / (t * 2 ^ w) := by
        rw [hyz]
        field_simp
        ring
      rw [h8, div_le_iff₀ (by positivity)]
      linarith
    -- `2 ^ (s + 1)` exceeds `t * 2 ^ w`
    have hst : (t : ℚ) * 2 ^ w < 2 * 2 ^ s := by
      rcases h3 with h | h
      · rw [h]
        have h4 : (2 : ℚ) ^ w ≤ 2 ^ 1022 := pow_le_pow_right₀ (by norm_num) hw
        have h5 : (t : ℚ) * 2 ^ w < 2 ^ 52 * 2 ^ 1022 :=
          mul_lt_mul ht2 h4 h2w (by norm_num)
        refine lt_trans h5 ?_
        norm_num
      · rw [hyz, abs_div, abs_div, abs_of_pos htq, abs_of_pos h2w, div_div, div_mul_eq_mul_div,
          le_div_iff₀ (by positivity)] at h
        have h4 : |(z : ℚ)| * 2 ^ s < 9007199254740992 * 2 ^ s := by
          rw [show (9007199254740992 : ℚ) = 2 ^ 53 by norm_num]
          exact mul_lt_mul_of_pos_right hz h2s
        norm_num at h
        linarith
    have ha2 := abs_le.mp h2
    rw [hv, div_lt_iff₀ h2s]
    push_cast at hgap ⊢
    have h8 : (y / t + 1 / (t * 2 ^ w)) * 2 ^ s ≤ ((⌊y / t⌋ : ℚ) + 1) * 2 ^ s :=
      mul_le_mul_of_nonneg_right hgap h2s.le
    have h9 : 1 / 2 < 1 / ((t : ℚ) * 2 ^ w) * 2 ^ s := by
      rw [div_mul_eq_mul_div, one_mul, lt_div_iff₀ (by positivity)]
      linarith
    nlinarith [ha2.2]

end F64

theorem floor_mul_le (y : ℚ) (t : Int) (ht : 0 < t) :
    (⌊y / (t : ℚ)⌋ : ℚ) * (t : ℚ) ≤ y := by
  have htq : (0 : ℚ) < t := by exact_mod_cast ht
  have h := Int.floor_le (y / (t : ℚ))
  calc (⌊y / (t : ℚ)⌋ : ℚ) * (t : ℚ) ≤ y / (t : ℚ) * (t : ℚ) :=
        mul_le_mul_of_nonneg_right h (le_of_lt htq)
    _ = y := div_mul_cancel₀ y (ne_of_gt htq)

theorem lt_floor_mul_add (y : ℚ) (t : Int) (ht : 0 < t) :
    y < (⌊y / (t : ℚ)⌋ : ℚ) * (t : ℚ) + (t : ℚ) := by
  have htq : (0 : ℚ) < t := by exact_mod_cast ht
  have h := Int.lt_floor_add_one (y / (t : ℚ))
  calc y = y / (t : ℚ) * (t : ℚ) := (div_mul_cancel₀ y (ne_of_gt htq)).symm
    _ < ((⌊y / (t : ℚ)⌋ : ℚ) + 1) * (t : ℚ) := mul_lt_mul_of_pos_right h htq
    _ = (⌊y / (t : ℚ)⌋ : ℚ) * (t : ℚ) + (t : ℚ) := by ring

/-- The `float64` operations of the upper band on ordinary inputs (a tile height, a `y` and a
height below `2 ^ 51` in magnitude, `y` with at most 53 significant bits): `n` is the floor of
the exact quotient, `upperY` is exact, and neither `leftTop` nor `upperHeight` is rounded
across an integer. -/
theorem upperHeight_sandwich (tileHeight : Int) (o : Object) (z : Int) (w : Nat)
    (hyz : o.Y = (z : ℚ) / 2 ^ w) (hz : |(z : ℚ)| < 2 ^ 53) (hw : w ≤ 1022)
    (hT : 0 < tileHeight) (hT2 : (tileHeight : ℚ) < 2 ^ 51) (hy : |o.Y| < 2 ^ 51)
    (hh : |o.Height| < 2 ^ 51) :
    ∃ lt ub : ℚ, leftTop o = some lt ∧ upperHeight tileHeight o = some ub
      ∧ (∀ c : Int, (c : ℚ) ≤ o.Y - o.Height → (c : ℚ) ≤ lt)
      ∧ (∀ c : Int, o.Y - o.Height ≤ (c : ℚ) → lt ≤ (c : ℚ))
      ∧ (∀ c : Int, (c : ℚ) ≤ (⌊o.Y / (tileHeight : ℚ)⌋ : ℚ) * (tileHeight : ℚ) - lt →
          (c : ℚ) ≤ ub)
      ∧ (∀ c : Int, (⌊o.Y / (tileHeight : ℚ)⌋ : ℚ) * (tileHeight : ℚ) - lt ≤ (c : ℚ) →
          ub ≤ (c : ℚ)) := by
  have hTq : (0 : ℚ) < tileHeight := by exact_mod_cast hT
  have hy1 := abs_lt.mp hy
  have hh1 := abs_lt.mp hh
  have k1 := floor_mul_le o.Y tileHeight hT
  have k2 := lt_floor_mul_add o.Y tileHeight hT
  -- the conversion of the tile height
  have sT : F64.ofInt tileHeight = some (tileHeight : ℚ) := by
    apply F64.round_int
    rw [abs_of_pos hTq]
    refine lt_trans hT2 ?_
    norm_num
  -- the quotient
  obtain ⟨v, sv, hfl⟩ := F64.floor_round_div o.Y tileHeight z w hyz hz hw hT
    (lt_trans hy (by norm_num)) (lt_trans hT2 (by norm_num))
  -- the product
  have sM : F64.round ((⌊o.Y / (tileHeight : ℚ)⌋ : ℚ) * (tileHeight : ℚ))
      = some ((⌊o.Y / (tileHeight : ℚ)⌋ : ℚ) * (tileHeight : ℚ)) := by
    have := F64.round_int (⌊o.Y / (tileHeight : ℚ)⌋ * tileHeight) (by
      push_cast
      rw [abs_lt]
      norm_num at hT2 hy1 ⊢
      constructor <;> linarith)
    push_cast at this
    exact this
  -- the corner
  obtain ⟨lt, sL, l1, l2⟩ := F64.round_sandwich (o.Y - o.Height) (by
    rw [abs_lt]
    norm_num at hy1 hh1 ⊢
    constructor <;> linarith)
  have l3 : ((-4503599627370496 : Int) : ℚ) ≤ lt := l1 _ (by
    push_cast
    norm_num at hy1 hh1 ⊢
    linarith)
  have l4 : lt ≤ ((4503599627370496 : Int) : ℚ) := l2 _ (by
    push_cast
    norm_num at hy1 hh1 ⊢
    linarith)
  push_cast at l3 l4
  -- the band
  obtain ⟨ub, sU, u1, u2⟩ := F64.round_sandwich
    ((⌊o.Y / (tileHeight : ℚ)⌋ : ℚ) * (tileHeight : ℚ) - lt) (by
    rw [abs_lt]
    norm_num at hT2 hy1 ⊢
    constructor <;> linarith)
  refine ⟨lt, ub, ?_, ?_, l1, l2, u1, u2⟩
  · simp only [leftTop, F64.sub, sL]
  · unfold upperHeight leftTop
    simp only [sT, Option.some_bind, F64.div, if_neg hTq.ne', sv, F64.floor, Option.map_some',
      hfl, F64.mul, sM, F64.sub, sL, sU]

/-- For an integer `y` and an integer height below `2 ^ 51` in magnitude the band the code
computes in `float64` is the band of exact arithmetic. -/
theorem upperHeight_of_int (tileHeight a b : Int) (o : Object) (hy : o.Y = (a : ℚ))
    (hh : o.Height = (b : ℚ)) (hT : 0 < tileHeight) (hT2 : (tileHeight : ℚ) < 2 ^ 51)
    (ha : |(a : ℚ)| < 2 ^ 51) (hb : |(b : ℚ)| < 2 ^ 51) :
    upperHeight tileHeight o = some (upperBandHeight tileHeight o.Y o.Height) := by
  obtain ⟨lt, ub, _, sU, l1, l2, u1, u2⟩ := upperHeight_sandwich tileHeight o a 0
    (by rw [hy]; simp) (lt_trans ha (by norm_num)) (by norm_num) hT hT2 (by rw [hy]; exact ha)
    (by rw [hh]; exact hb)
  have e1 : lt = o.Y - o.Height := by
    have c1 := l1 (a - b) (by rw [hy, hh]; push_cast; exact le_rfl)
    have c2 := l2 (a - b) (by rw [hy, hh]; push_cast; exact le_rfl)
    rw [hy, hh]
    push_cast at c1 c2
    exact le_antisymm c2 c1
  have e2 : ub = upperBandHeight tileHeight o.Y o.Height := by
    have c1 := u1 (⌊o.Y / (tileHeight : ℚ)⌋ * tileHeight - (a - b))
      (by rw [e1, hy, hh]; push_cast; exact le_rfl)
    have c2 := u2 (⌊o.Y / (tileHeight : ℚ)⌋ * tileHeight - (a - b))
      (by rw [e1, hy, hh]; push_cast; exact le_rfl)
    have e3 : upperBandHeight tileHeight o.Y o.Height
        = ((⌊o.Y / (tileHeight : ℚ)⌋ * tileHeight - (a - b) : Int) : ℚ) := by
      rw [upperBandHeight, hh]
      nth_rewrite 2 [hy]
      push_cast
      ring
    rw [e3]
    exact le_antisymm c2 c1
  rw [sU, e2]

/-- When the band of exact arithmetic is at most 0, so is the band the code computes. -/
theorem upperHeight_nonpos (tileHeight : Int) (o : Object) (z : Int) (w : Nat)
    (hyz : o.Y = (z : ℚ) / 2 ^ w) (hz : |(z : ℚ)| < 2 ^ 53) (hw : w ≤ 1022)
    (hT : 0 < tileHeight) (hT2 : (tileHeight : ℚ) < 2 ^ 51) (hy : |o.Y| < 2 ^ 51)
    (hh : |o.Height| < 2 ^ 51) (hband : upperBandHeight tileHeight o.Y o.Height ≤ 0) :
    ∃ ub : ℚ, upperHeight tileHeight o = some ub ∧ ub ≤ 0 := by
  obtain ⟨lt, ub, _, sU, l1, _, _, u2⟩ :=
    upperHeight_sandwich tileHeight o z w hyz hz hw hT hT2 hy hh
  refine ⟨ub, sU, ?_⟩
  have c1 := l1 (⌊o.Y / (tileHeight : ℚ)⌋ * tileHeight) (by
    unfold upperBandHeight at hband
    push_cast
    linarith)
  have c2 := u2 0 (by
    push_cast at c1 ⊢
    linarith)
  exact_mod_cast c2

/-- When `y` is an integer multiple of the tile height (the band of exact arithmetic is the
declared height), the band the code computes is at least the declared height rounded down. -/
theorem upperHeight_ge_of_multiple (tileHeight : Int) (o : Object) (k : Int)
    (hk : o.Y = (k : ℚ) * (tileHeight : ℚ))
    (hT : 0 < tileHeight) (hT2 : (tileHeight : ℚ) < 2 ^ 51) (hy : |o.Y| < 2 ^ 51)
    (hh : |o.Height| < 2 ^ 51) :
    ∃ ub : ℚ, upperHeight tileHeight o = some ub ∧ (⌊o.Height⌋ : ℚ) ≤ ub
      ∧ ub < 9223372036854775808 := by
  have hTq : (0 : ℚ) < tileHeight := by exact_mod_cast hT
  have hy1 := abs_lt.mp hy
  have hh1 := abs_lt.mp hh
  obtain ⟨lt, ub, _, sU, l1, l2, u1, u2⟩ := upperHeight_sandwich tileHeight o (k * tileHeight) 0
    (by rw [hk]; push_cast; simp)
    (by
      have : ((k * tileHeight : Int) : ℚ) = o.Y := by rw [hk]; push_cast; rfl
      rw [this]
      exact lt_trans hy (by norm_num))
    (by norm_num) hT hT2 hy hh
  have hfl : (⌊o.Y / (tileHeight : ℚ)⌋ : ℚ) * (tileHeight : ℚ) = o.Y := by
    have : o.Y / (tileHeight : ℚ) = (k : ℚ) := by
      rw [hk]; exact mul_div_cancel_right₀ _ (ne_of_gt hTq)
    rw [this, Int.floor_intCast, hk]
  rw [hfl] at u1 u2
  have f1 := Int.floor_le o.Height
  have f2 := Int.lt_floor_add_one o.Height
  have c1 := l2 (k * tileHeight - ⌊o.Height⌋) (by
    push_cast
    rw [← hk]
    linarith)
  have c0 := l1 (-4503599627370496) (by
    push_cast
    norm_num at hy1 hh1 ⊢
    linarith)
  push_cast at c1 c0
  rw [← hk] at c1
  have c2 := u1 ⌊o.Height⌋ (by linarith)
  have c3 := u2 9007199254740992 (by
    push_cast
    norm_num at hy1 ⊢
    linarith)
  push_cast at c3
  exact ⟨ub, sU, c2, lt_of_le_of_lt c3 (by norm_num)⟩

/-! ## The clipped and the unclipped rectangle -/

namespace Rectangle

theorem Intersect_eq (r s : Rectangle) :
    r.Intersect s =
      if max r.Min.X s.Min.X < min r.Max.X s.Max.X ∧ max r.Min.Y s.Min.Y < min r.Max.Y s.Max.Y
      then { Min := { X := max r.Min.X s.Min.X, Y := max r.Min.Y s.Min.Y },
             Max := { X := min r.Max.X s.Max.X, Y := min r.Max.Y s.Max.Y } }
      else ZR := by
  have e1 : (if r.Min.X < s.Min.X then s.Min.X else r.Min.X) = max r.Min.X s.Min.X := by
    split <;> omega
  have e2 : (if r.Min.Y < s.Min.Y then s.Min.Y else r.Min.Y) = max r.Min.Y s.Min.Y := by
    split <;> omega
  have e3 : (if s.Max.X < r.Max.X then s.Max.X else r.Max.X) = min r.Max.X s.Max.X := by
    split <;> omega
  have e4 : (if s.Max.Y < r.Max.Y then s.Max.Y else r.Max.Y) = min r.Max.Y s.Max.Y := by
    split <;> omega
  unfold Intersect
  simp only [e1, e2, e3, e4, Empty, Bool.or_eq_true, decide_eq_true_eq]
  split
  · rename_i h
    rw [if_neg (by omega)]
  · rename_i h
    rw [if_pos (by omega)]

theorem Intersect_of_Empty_right (r : Rectangle) {s : Rectangle} (h : s.Empty = true) :
    r.Intersect s = ZR := by
  rw [Intersect_eq]
  simp only [Empty, Bool.or_eq_true, decide_eq_true_eq] at h
  rw [if_neg (by omega)]

/-- Cutting a rectangle `u` that reaches at least as far down as `f` and otherwise equals `f`
against the canvas and then against `f` gives what `f` itself gives. -/
theorem Intersect_Intersect_of_le (u f d : Rectangle) (hmin : u.Min = f.Min)
    (hx : u.Max.X = f.Max.X) (hy : f.Max.Y ≤ u.Max.Y) :
    (u.Intersect d).Intersect f = (f.Intersect d).Intersect f := by
  have hminx : u.Min.X = f.Min.X := by rw [hmin]
  have hminy : u.Min.Y = f.Min.Y := by rw [hmin]
  rw [Intersect_eq u d, Intersect_eq f d]
  by_cases c1 : max u.Min.X d.Min.X < min u.Max.X d.Max.X
      ∧ max u.Min.Y d.Min.Y < min u.Max.Y d.Max.Y
  · rw [if_pos c1]
    by_cases c2 : max f.Min.X d.Min.X < min f.Max.X d.Max.X
        ∧ max f.Min.Y d.Min.Y < min f.Max.Y d.Max.Y
    · rw [if_pos c2, Intersect_eq, Intersect_eq]
      simp only
      have e1 : max (max u.Min.X d.Min.X) f.Min.X = max (max f.Min.X d.Min.X) f.Min.X := by
        omega
      have e2 : max (max u.Min.Y d.Min.Y) f.Min.Y = max (max f.Min.Y d.Min.Y) f.Min.Y := by
        omega
      have e3 : min (min u.Max.X d.Max.X) f.Max.X = min (min f.Max.X d.Max.X) f.Max.X := by
        omega
      have e4 : min (min u.Max.Y d.Max.Y) f.Max.Y = min (min f.Max.Y d.Max.Y) f.Max.Y := by
        omega
      rw [e1, e2, e3, e4]
    · rw [if_neg c2, Intersect_eq, Intersect_eq]
      simp only [ZR, Pt]
      rw [if_neg (by omega), if_neg (by omega)]
  · rw [if_neg c1]
    by_cases c2 : max f.Min.X d.Min.X < min f.Max.X d.Max.X
        ∧ max f.Min.Y d.Min.Y < min f.Max.Y d.Max.Y
    · exfalso; omega
    · rw [if_neg c2]

end Rectangle

theorem clip_eq_of_le (dst : Canvas) (img : Image) (mask : Option Uniform) (mp : Point)
    (u f : Rectangle) (hf : f = img.Bounds.Add (f.Min.Sub img.Bounds.Min))
    (hmin : u.Min = f.Min) (hx : u.Max.X = f.Max.X) (hy : f.Max.Y ≤ u.Max.Y) :
    clip dst u img img.Bounds.Min mask mp = clip dst f img img.Bounds.Min mask mp := by
  unfold clip
  simp only [hmin]
  rw [← hf, Rectangle.Intersect_Intersect_of_le u f dst.Bounds hmin hx hy]

theorem DrawMask_eq_of_le (dst : Canvas) (img : Image) (mask : Option Uniform) (mp : Point)
    (u f : Rectangle) (hf : f = img.Bounds.Add (f.Min.Sub img.Bounds.Min))
    (hmin : u.Min = f.Min) (hx : u.Max.X = f.Max.X) (hy : f.Max.Y ≤ u.Max.Y) :
    DrawMask dst u img img.Bounds.Min mask mp = DrawMask dst f img img.Bounds.Min mask mp := by
  unfold DrawMask
  rw [clip_eq_of_le dst img mask mp u f hf hmin hx hy]

theorem composite_upper_eq_full (layer : ObjectGroup) (dst : Canvas) (tileHeight : Int)
    (o : Object) (img : Image) (h : (img.H : Int) ≤ F64.toInt (upperHeight tileHeight o)) :
    composite layer dst (upperPos tileHeight o img) img
      = composite layer dst (fullPos o img) img := by
  have hf : fullPos o img = img.Bounds.Add ((fullPos o img).Min.Sub img.Bounds.Min) := by
    simp [fullPos, Rectangle.Add, Image.Bounds, Pt, Point.Sub]
  have hmin : (upperPos tileHeight o img).Min = (fullPos o img).Min := by
    simp [fullPos, upperPos, Rectangle.Add, Image.Bounds, Pt]
  have hx : (upperPos tileHeight o img).Max.X = (fullPos o img).Max.X := by
    simp [fullPos, upperPos, Rectangle.Add, Image.Bounds, Pt]
  have hy : (fullPos o img).Max.Y ≤ (upperPos tileHeight o img).Max.Y := by
    simp only [fullPos, upperPos, Rectangle.Add, Image.Bounds, Pt]
    omega
  unfold composite Draw
  split
  · exact DrawMask_eq_of_le dst img _ _ _ _ hf hmin hx hy
  · exact DrawMask_eq_of_le dst img _ _ _ _ hf hmin hx hy

theorem transform_of_same_size (env : Env) (o : Object) (img : Image) (hrot : o.Rotation = 0)
    (hsize : img.Bounds.Size = Pt (toInt o.Width) (toInt o.Height)) :
    transform env o img = img := by
  simp [transform, hrot, hsize, Point.Eq]

theorem composite_of_empty_image (layer : ObjectGroup) (dst : Canvas) (pos : Rectangle)
    (img : Image) (h : img.W = 0 ∨ img.H = 0) : composite layer dst pos img = dst := by
  have hS : ∀ p : Point, (img.Bounds.Add p).Empty = true := by
    intro p
    simp only [Rectangle.Empty, Rectangle.Add, Image.Bounds, Pt, Bool.or_eq_true,
      decide_eq_true_eq]
    rcases h with h | h
    · left; rw [h]; simp
    · right; rw [h]; simp
  have hclip : ∀ (mask : Option Uniform) (mp : Point),
      (clip dst pos img img.Bounds.Min mask mp).1.Empty = true := by
    intro mask mp
    have h2 : (pos.Intersect dst.Bounds).Intersect (img.Bounds.Add (pos.Min.Sub img.Bounds.Min))
        = ZR := Rectangle.Intersect_of_Empty_right _ (hS _)
    have hz : ∀ s, ZR.Intersect s = ZR :=
      fun s => Rectangle.Intersect_of_Empty s Rectangle.ZR_Empty
    unfold clip
    simp only [h2]
    cases mask <;> simp only [hz] <;> split <;> exact Rectangle.ZR_Empty
  unfold composite Draw DrawMask
  simp only [hclip, if_true]
  split <;> rfl

/-- The clipped method does what the unclipped one does when, for the resolved sprite, the
transformed sprite has no rows or has at most `int(upperHeight)` of them. -/
theorem renderOneObjectUpperTile_eq_full (env : Env) (r : Renderer) (layer : ObjectGroup)
    (o : Object)
    (h : ∀ tile img, env.TileGIDToTile o.GID = .ok tile → env.GetTileImage tile = .ok img →
      (transform env o img).H = 0
        ∨ ((transform env o img).H : Int) ≤ F64.toInt (upperHeight r.m.TileHeight o)) :
    renderOneObjectUpperTile env r layer o = renderOneObject env r layer o := by
  unfold renderOneObjectUpperTile renderOneObject
  split
  · rfl
  · split
    · rfl
    · split
      · rfl
      · rename_i tile htile
        split
        · rfl
        · rename_i img himg
          simp only
          rcases h tile img htile himg with h0 | h1
          · rw [composite_of_empty_image _ _ _ _ (Or.inr h0),
              composite_of_empty_image _ _ _ _ (Or.inr h0)]
          · rw [composite_upper_eq_full layer r.Result r.m.TileHeight o (transform env o img) h1]

/-! ## The claim on clip completeness -/

/-- C4, counterexample: a 32 by 16 object of GID 2 (a 32 by 16 sprite) standing on `y = 16` in a
grid of tile height 16 (the upper band is 16, in exact arithmetic and as the code computes it, so
`upperBandHeight >= h`), rotated by 90 degrees: the rotated sprite is 16 wide and 32 tall; the
unclipped method paints the canvas pixel `(0, 20)` red, the clipped method stops after 16 rows
and leaves it transparent. -/
theorem clip_not_complete_rotated :
    upperBandHeight 16 16 16 = 16
      ∧ upperHeight 16 { mkObject 1 2 0 16 32 16 with Rotation := 90 } = some 16
      ∧ ({ mkObject 1 2 0 16 32 16 with Rotation := 90 } : Object).Height ≤ 16
      ∧ (renderOneObjectUpperTile demoEnv (demoRenderer [] []) (demoLayer [])
          { mkObject 1 2 0 16 32 16 with Rotation := 90 }).1.Result.Pix 0 20
        = { R := 0, G := 0, B := 0, A := 0 }
      ∧ (renderOneObject demoEnv (demoRenderer [] []) (demoLayer [])
          { mkObject 1 2 0 16 32 16 with Rotation := 90 }).1.Result.Pix 0 20
        = { R := 255, G := 0, B := 0, A := 255 } := by
  refine ⟨by decide!, by decide!, by decide!, by decide!, by decide!⟩

/-- C4, amended: on a map of tile height `T > 0`, for an object whose transformed sprite is at
most `int(h)` rows tall (as it is for an unrotated object whose declared size is the sprite
size), `renderOneObjectUpperTile` and `renderOneObject` return the same error and the same
state, canvas included, for every canvas and every layer opacity, whenever the upper band
`upperHeight`, as the code computes it in `float64`, is at least `h` and below `2 ^ 63`; and so
they do whenever the band of exact arithmetic `upperBandHeight = floor(y / T) * T - (y - h)` is
at least `h` (`y` is an integer multiple of `T`) and `T`, `|y|` and `|h|` are below `2 ^ 51`. -/
theorem clip_complete (env : Env) (r : Renderer) (layer : ObjectGroup) (o : Object)
    (hT : 0 < r.m.TileHeight)
    (hfit : ∀ tile img, env.TileGIDToTile o.GID = .ok tile → env.GetTileImage tile = .ok img →
      ((transform env o img).H : Int) ≤ toInt o.Height) :
    (∀ ub : ℚ, upperHeight r.m.TileHeight o = some ub → o.Height ≤ ub →
        ub < 9223372036854775808 →
        renderOneObjectUpperTile env r layer o = renderOneObject env r layer o)
      ∧ ((r.m.TileHeight : ℚ) < 2 ^ 51 → |o.Y| < 2 ^ 51 → |o.Height| < 2 ^ 51 →
          o.Height ≤ upperBandHeight r.m.TileHeight o.Y o.Height →
          renderOneObjectUpperTile env r layer o = renderOneObject env r layer o) := by
  constructor
  · intro ub hub hband hint
    apply renderOneObjectUpperTile_eq_full
    intro tile img htile himg
    right
    rw [hub]
    exact le_trans (hfit tile img htile himg) (toInt_mono hband hint)
  · intro hT2 hy hh hband
    have hk : o.Y = ((⌊o.Y / (r.m.TileHeight : ℚ)⌋ : Int) : ℚ) * (r.m.TileHeight : ℚ) := by
      have h1 := floor_mul_le o.Y r.m.TileHeight hT
      unfold upperBandHeight at hband
      linarith
    obtain ⟨ub, hub, hge, hint⟩ :=
      upperHeight_ge_of_multiple r.m.TileHeight o _ hk hT hT2 hy hh
    apply renderOneObjectUpperTile_eq_full
    intro tile img htile himg
    have hf := hfit tile img htile himg
    by_cases h0 : 0 ≤ o.Height
    · right
      have hh2 : o.Height < 9223372036854775808 :=
        lt_trans (abs_lt.mp hh).2 (by norm_num)
      rw [toInt_eq_floor h0 hh2] at hf
      have h3 : toInt ((⌊o.Height⌋ : Int) : ℚ) = ⌊o.Height⌋ := by
        rw [toInt_eq_floor (by exact_mod_cast Int.floor_nonneg.mpr h0)
          (lt_of_le_of_lt (Int.floor_le _) hh2), Int.floor_intCast]
      rw [hub]
      have h4 := toInt_mono hge hint
      rw [h3] at h4
      exact le_trans hf h4
    · left
      have h5 := toInt_nonpos (le_of_lt (not_le.mp h0))
      omega

/-- Witness for C4, amended (the spec's scenario): a 16 by 16 sprite drawn by a 16 by 16 object
at `(0, 32)` in a grid of tile height 16 has `upperBandHeight = 16`, and the clipped and the
unclipped method agree. -/
theorem clip_complete_witness :
    upperBandHeight 16 32 16 = 16
      ∧ renderOneObjectUpperTile demoEnv (demoRenderer [] []) (demoLayer [])
          (mkObject 1 1 0 32 16 16)
        = renderOneObject demoEnv (demoRenderer [] []) (demoLayer []) (mkObject 1 1 0 32 16 16) :=
  ⟨by decide!,
    (clip_complete demoEnv (demoRenderer [] []) (demoLayer []) (mkObject 1 1 0 32 16 16)
      (by decide)
      (by
        intro tile img htile himg
        have hi : img = redSprite 16 16 := by
          simp only [demoEnv, mkObject] at htile himg
          cases htile
          simp at himg
          exact himg.symm
        subst hi
        rw [transform_of_same_size _ _ _ rfl (by decide!)]
        decide!)).2
      (by simp only [demoRenderer]; norm_num) (by simp only [mkObject]; norm_num)
      (by simp only [mkObject]; norm_num) (by decide!)⟩

/-! ## The upper band, the comparator and the sorter -/

theorem upperBandHeight_eq (tileHeight : Int) (y h : ℚ) :
    upperBandHeight tileHeight y h
      = h - (y - (⌊y / (tileHeight : ℚ)⌋ : ℚ) * (tileHeight : ℚ)) := by
  simp only [upperBandHeight]
  ring

/-- When none of the `float64` operations of the upper band rounds (and the rounded quotient
`y / T` has the floor of the exact one), the band the code computes is the band of exact
arithmetic. -/
theorem upperHeight_of_exact (tileHeight : Int) (o : Object) (q : ℚ)
    (hT : F64.ofInt tileHeight = some (tileHeight : ℚ)) (hT0 : tileHeight ≠ 0)
    (hq : F64.round (o.Y / (tileHeight : ℚ)) = some q)
    (hfl : ⌊q⌋ = ⌊o.Y / (tileHeight : ℚ)⌋)
    (hmul : F64.round ((⌊o.Y / (tileHeight : ℚ)⌋ : ℚ) * (tileHeight : ℚ))
      = some ((⌊o.Y / (tileHeight : ℚ)⌋ : ℚ) * (tileHeight : ℚ)))
    (hsub : F64.round (o.Y - o.Height) = some (o.Y - o.Height))
    (hres : F64.round (upperBandHeight tileHeight o.Y o.Height)
      = some (upperBandHeight tileHeight o.Y o.Height)) :
    upperHeight tileHeight o = some (upperBandHeight tileHeight o.Y o.Height) := by
  have hT0q : (tileHeight : ℚ) ≠ 0 := by exact_mod_cast hT0
  unfold upperHeight leftTop
  simp only [hT, Option.some_bind, F64.div, if_neg hT0q, hq, F64.floor, Option.map_some', hfl,
    F64.mul, hmul, F64.sub, hsub]
  exact hres

/-- The values of type `float64` nearest to 100.3 and 20.3 differ by a little less than 80; the
code rounds the difference to 80, so `int(y - h)` is 80 where the exact difference truncates to
79. -/
theorem leftTop_rounds :
    truncate ((7057985041019699 / 70368744177664 : ℚ) - 5713942027226317 / 281474976710656) = 79
      ∧ leftTop (mkObject 1 1 0 (7057985041019699 / 70368744177664) 16
          (5713942027226317 / 281474976710656)) = some 80 := by
  refine ⟨by decide!, by decide!⟩

theorem floor_mul_eq_iff (y : ℚ) (t : Int) (ht : 0 < t) :
    (⌊y / (t : ℚ)⌋ : ℚ) * (t : ℚ) = y ↔ ∃ k : Int, y = (k : ℚ) * (t : ℚ) := by
  have htq : (0 : ℚ) < t := by exact_mod_cast ht
  constructor
  · intro h
    exact ⟨⌊y / (t : ℚ)⌋, h.symm⟩
  · rintro ⟨k, hk⟩
    have : y / (t : ℚ) = (k : ℚ) := by
      rw [hk]; exact mul_div_cancel_right₀ _ (ne_of_gt htq)
    rw [this, Int.floor_intCast, hk]

theorem sortObjs_iff_depthKey (a b : Object) :
    sortObjs a b = true ↔ Object.depthKey a < Object.depthKey b :=
  sortObjs_orderedBy [] a b

theorem depthKey_eq_iff (a b : Object) :
    Object.depthKey a = Object.depthKey b ↔ a.X = b.X ∧ a.Y = b.Y := by
  simp only [Object.depthKey, EmbeddingLike.apply_eq_iff_eq, Prod.mk.injEq]
  exact and_comm

theorem DrawMask_zero_alpha (dst : Canvas) (r : Rectangle) (src : Image) (sp : Point)
    (m : Uniform) (mp : Point) (h : m.A = 0) : DrawMask dst r src sp (some m) mp = dst := by
  unfold DrawMask
  simp only [Uniform.Alpha16, h, Nat.zero_mul, if_true]
  split
  · rfl
  · cases dst
    simp only [Canvas.mk.injEq, true_and]
    funext x y
    split <;> rfl

theorem layerMask_zero (layer : ObjectGroup) (h : layer.Opacity = 0) :
    (layerMask layer).A = 0 := by
  unfold layerMask NewUniform
  rw [h]
  decide!

theorem composite_zero_opacity (layer : ObjectGroup) (dst : Canvas) (pos : Rectangle)
    (img : Image) (h : layer.Opacity = 0) : composite layer dst pos img = dst := by
  unfold composite
  rw [if_pos (by rw [h]; norm_num)]
  exact DrawMask_zero_alpha _ _ _ _ _ _ (layerMask_zero layer h)

/-! ## The claims on the upper band, the comparator, the sorter and zero opacity -/

/-- C17, counterexample: an object of declared height 32 with its feet at `y = 15.5` in a grid
of tile height 16: the upper band is 16.5, in exact arithmetic and as the code computes it, the
upper rectangle is 16 rows high, and 16 rows of the declared 32, a whole tile height and not
fewer, are left out. -/
theorem upper_band_omits_tile_height :
    upperBandHeight 16 (31 / 2) 32 = 33 / 2
      ∧ upperHeight 16 (mkObject 1 1 0 (31 / 2) 16 32) = some (33 / 2)
      ∧ (upperPos 16 (mkObject 1 1 0 (31 / 2) 16 32) (redSprite 16 32)).Dy = 16
      ∧ toInt (mkObject 1 1 0 (31 / 2) 16 32).Height - 16 = 16 := by
  refine ⟨by decide!, by decide!, by decide!, by decide!⟩

/-- C17, amended: in exact arithmetic, for a tile height `T > 0` the upper band
`B = floor(y / T) * T - (y - h)` satisfies `h - T < B <= h`, with `B = h` exactly when `y` is an
integer multiple of `T`; so the number of rows of the upper rectangle, `max 0 (floor B)`, is at
most that of the declared height, and at most `T` rows of the declared height are left out,
fewer than `T` when `y` and `h` are integers.  When the code computes the band without rounding
error (`upperHeight = B`, below `2 ^ 63`), its upper rectangle has `max 0 (floor B)` rows.  And
for the band the code computes in `float64`, when `T`, `|y|` and `|h|` are below `2 ^ 51` and
`y` has at most 53 significant bits and at most 1022 binary places, the upper rectangle leaves
out at most `T` rows of the declared height, fewer than `T` when `y` and `h` are integers. -/
theorem upperBand_bounds (tileHeight : Int) (o : Object) (hT : 0 < tileHeight) :
    o.Height - (tileHeight : ℚ) < upperBandHeight tileHeight o.Y o.Height
      ∧ upperBandHeight tileHeight o.Y o.Height ≤ o.Height
      ∧ (upperBandHeight tileHeight o.Y o.Height = o.Height
          ↔ ∃ k : Int, o.Y = (k : ℚ) * (tileHeight : ℚ))
      ∧ max 0 ⌊upperBandHeight tileHeight o.Y o.Height⌋ ≤ max 0 ⌊o.Height⌋
      ∧ ⌊o.Height⌋ - max 0 ⌊upperBandHeight tileHeight o.Y o.Height⌋ ≤ tileHeight
      ∧ ((∃ a b : Int, o.Y = (a : ℚ) ∧ o.Height = (b : ℚ)) →
          ⌊o.Height⌋ - max 0 ⌊upperBandHeight tileHeight o.Y o.Height⌋ < tileHeight)
      ∧ (upperHeight tileHeight o = some (upperBandHeight tileHeight o.Y o.Height) →
          upperBandHeight tileHeight o.Y o.Height < 9223372036854775808 →
          ∀ img : Image, max 0 (upperPos tileHeight o img).Dy
            = max 0 ⌊upperBandHeight tileHeight o.Y o.Height⌋)
      ∧ ((∃ (z : Int) (w : Nat), o.Y = (z : ℚ) / 2 ^ w ∧ |(z : ℚ)| < 2 ^ 53 ∧ w ≤ 1022) →
          (tileHeight : ℚ) < 2 ^ 51 → |o.Y| < 2 ^ 51 → |o.Height| < 2 ^ 51 →
          ∀ img : Image, ⌊o.Height⌋ - max 0 (upperPos tileHeight o img).Dy ≤ tileHeight)
      ∧ ((∃ a b : Int, o.Y = (a : ℚ) ∧ o.Height = (b : ℚ)) →
          (tileHeight : ℚ) < 2 ^ 51 → |o.Y| < 2 ^ 51 → |o.Height| < 2 ^ 51 →
          ∀ img : Image, ⌊o.Height⌋ - max 0 (upperPos tileHeight o img).Dy < tileHeight) := by
  have h1 := floor_mul_le o.Y tileHeight hT
  have h2 := lt_floor_mul_add o.Y tileHeight hT
  have h3 := floor_mul_eq_iff o.Y tileHeight hT
  have hle : upperBandHeight tileHeight o.Y o.Height ≤ o.Height := by
    rw [upperBandHeight_eq]; linarith
  have hlt : o.Height - (tileHeight : ℚ) < upperBandHeight tileHeight o.Y o.Height := by
    rw [upperBandHeight_eq]; linarith
  have hiff : upperBandHeight tileHeight o.Y o.Height = o.Height
      ↔ ∃ k : Int, o.Y = (k : ℚ) * (tileHeight : ℚ) := by
    rw [← h3, upperBandHeight_eq]
    constructor
    · intro h; linarith
    · intro h; linarith
  have hcase : (∃ a b : Int, o.Y = (a : ℚ) ∧ o.Height = (b : ℚ)) →
      ∃ b c : Int, o.Height = (b : ℚ) ∧ upperBandHeight tileHeight o.Y o.Height = (c : ℚ) := by
    rintro ⟨a, b, ha, hb⟩
    refine ⟨b, ⌊o.Y / (tileHeight : ℚ)⌋ * tileHeight - (a - b), hb, ?_⟩
    rw [upperBandHeight, hb]
    nth_rewrite 2 [ha]
    push_cast
    ring
  -- the rows of the upper rectangle, from a finite band below `2 ^ 63`
  have hrows : ∀ (ub : ℚ) (c : Int), upperHeight tileHeight o = some ub →
      ub < 9223372036854775808 → (c : ℚ) ≤ ub →
      ∀ img : Image, c ≤ max 0 (upperPos tileHeight o img).Dy := by
    intro ub c hub hint hc img
    rw [upperPos_Dy, hub]
    simp only [F64.toInt]
    by_cases hb : 0 ≤ ub
    · rw [toInt_eq_floor hb hint]
      have : c ≤ ⌊ub⌋ := Int.le_floor.mpr hc
      omega
    · have hb2 : (c : ℚ) < 0 := lt_of_le_of_lt hc (not_le.mp hb)
      have hc0 : c < 0 := by exact_mod_cast hb2
      omega
  -- the band the code computes, on ordinary inputs
  have hcode : (∃ (z : Int) (w : Nat), o.Y = (z : ℚ) / 2 ^ w ∧ |(z : ℚ)| < 2 ^ 53 ∧ w ≤ 1022) →
      (tileHeight : ℚ) < 2 ^ 51 → |o.Y| < 2 ^ 51 → |o.Height| < 2 ^ 51 →
      ∀ img : Image, ⌊o.Height⌋ - max 0 (upperPos tileHeight o img).Dy ≤ tileHeight := by
    rintro ⟨z, w, hyz, hz, hw⟩ hT2 hy hh img
    obtain ⟨lt, ub, _, sU, l1, l2, u1, u2⟩ :=
      upperHeight_sandwich tileHeight o z w hyz hz hw hT hT2 hy hh
    have hy1 := abs_lt.mp hy
    have hh1 := abs_lt.mp hh
    have c1 := l2 ⌈o.Y - o.Height⌉ (Int.le_ceil _)
    have c0 := l1 (-4503599627370496) (by
      push_cast
      norm_num at hy1 hh1 ⊢
      linarith)
    push_cast at c0
    have c2 := u1 (⌊o.Y / (tileHeight : ℚ)⌋ * tileHeight - ⌈o.Y - o.Height⌉) (by
      push_cast
      linarith)
    have c3 := u2 9007199254740992 (by
      push_cast
      norm_num at hy1 hT2 ⊢
      linarith)
    push_cast at c3
    have c4 := hrows ub _ sU (lt_of_le_of_lt c3 (by norm_num)) c2 img
    have f1 := Int.floor_le o.Height
    have f2 := Int.ceil_lt_add_one (o.Y - o.Height)
    have c5 : ⌊o.Height⌋ - (⌊o.Y / (tileHeight : ℚ)⌋ * tileHeight - ⌈o.Y - o.Height⌉)
        < tileHeight + 1 := by
      have : ((⌊o.Height⌋ - (⌊o.Y / (tileHeight : ℚ)⌋ * tileHeight - ⌈o.Y - o.Height⌉) : Int) : ℚ)
          < ((tileHeight + 1 : Int) : ℚ) := by
        push_cast
        linarith
      exact_mod_cast this
    omega
  have hcodeInt : (∃ a b : Int, o.Y = (a : ℚ) ∧ o.Height = (b : ℚ)) →
      (tileHeight : ℚ) < 2 ^ 51 → |o.Y| < 2 ^ 51 → |o.Height| < 2 ^ 51 →
      ∀ img : Image, ⌊o.Height⌋ - max 0 (upperPos tileHeight o img).Dy < tileHeight := by
    rintro ⟨a, b, ha, hb⟩ hT2 hy hh img
    have sU := upperHeight_of_int tileHeight a b o ha hb hT hT2 (by rw [← ha]; exact hy)
      (by rw [← hb]; exact hh)
    obtain ⟨b1, c, hb1, hc⟩ := hcase ⟨a, b, ha, hb⟩
    have hB63 : upperBandHeight tileHeight o.Y o.Height < 9223372036854775808 :=
      lt_of_le_of_lt hle (lt_trans (abs_lt.mp hh).2 (by norm_num))
    have c4 := hrows _ c sU hB63 (le_of_eq hc.symm) img
    have e1 : ⌊o.Height⌋ = b1 := by rw [hb1, Int.floor_intCast]
    have e3 : b1 - tileHeight < c := by
      have : (b1 : ℚ) - (tileHeight : ℚ) < (c : ℚ) := by rw [← hb1, ← hc]; exact hlt
      exact_mod_cast this
    omega
  generalize upperBandHeight tileHeight o.Y o.Height = B at hle hlt hiff hcase ⊢
  have hB1 := Int.floor_le B
  have hB2 := Int.lt_floor_add_one B
  have hh1 := Int.floor_le o.Height
  have hh2 := Int.lt_floor_add_one o.Height
  have hmono : ⌊B⌋ ≤ ⌊o.Height⌋ := Int.floor_mono hle
  have hgap : ⌊o.Height⌋ < ⌊B⌋ + 1 + tileHeight := by
    have : (⌊o.Height⌋ : ℚ) < (⌊B⌋ : ℚ) + 1 + (tileHeight : ℚ) := by linarith
    exact_mod_cast this
  have hneg : ⌊B⌋ < 0 → ⌊o.Height⌋ < tileHeight := by
    intro hb
    have hb' : (⌊B⌋ : ℚ) + 1 ≤ 0 := by exact_mod_cast hb
    have : (⌊o.Height⌋ : ℚ) < (tileHeight : ℚ) := by linarith
    exact_mod_cast this
  refine ⟨hlt, hle, hiff, ?_, ?_, ?_, ?_, hcode, hcodeInt⟩
  · omega
  · by_cases hb : ⌊B⌋ < 0
    · have := hneg hb
      omega
    · omega
  · intro hab
    obtain ⟨b, c, hb, hc⟩ := hcase hab
    have e1 : ⌊o.Height⌋ = b := by rw [hb, Int.floor_intCast]
    have e2 : ⌊B⌋ = c := by rw [hc, Int.floor_intCast]
    have e3 : b - tileHeight < c := by
      have : (b : ℚ) - (tileHeight : ℚ) < (c : ℚ) := by rw [← hb, ← hc]; exact hlt
      exact_mod_cast this
    omega
  · intro hub hint img
    rw [upperPos_Dy, hub]
    simp only [F64.toInt]
    by_cases hb : 0 ≤ B
    · rw [toInt_eq_floor hb hint]
    · have hb' : B < 0 := not_le.mp hb
      have t1 := toInt_nonpos (le_of_lt hb')
      have t2 : ⌊B⌋ < 0 := by
        rw [Int.floor_lt]; exact_mod_cast hb'
      omega

/-- Witness for C17, amended: with `T = 16`, `y = 40` and `h = 32` the band lies above
`32 - 16`. -/
theorem upperBand_bounds_witness :
    (0 : Int) < 16
      ∧ (mkObject 1 1 0 40 16 32).Height - ((16 : Int) : ℚ)
          < upperBandHeight 16 (mkObject 1 1 0 40 16 32).Y (mkObject 1 1 0 40 16 32).Height :=
  ⟨by decide, (upperBand_bounds 16 (mkObject 1 1 0 40 16 32) (by decide)).1⟩

/-- C19: `sortObjs` is a strict weak order on objects: irreflexive, asymmetric and transitive;
two objects are incomparable exactly when they have equal `X` and equal `Y`; and of two
objects with different `(Y, X)` one is less than the other. -/
theorem sortObjs_strict_weak_order :
    (∀ a : Object, sortObjs a a = false)
      ∧ (∀ a b : Object, sortObjs a b = true → sortObjs b a = false)
      ∧ (∀ a b c : Object, sortObjs a b = true → sortObjs b c = true → sortObjs a c = true)
      ∧ (∀ a b : Object,
          (sortObjs a b = false ∧ sortObjs b a = false) ↔ (a.X = b.X ∧ a.Y = b.Y))
      ∧ (∀ a b : Object,
          sortObjs a b = true ∨ sortObjs b a = true ∨ (a.X = b.X ∧ a.Y = b.Y)) := by
  have hf : ∀ a b : Object, sortObjs a b = false ↔ Object.depthKey b ≤ Object.depthKey a := by
    intro a b
    rw [← not_lt, ← sortObjs_iff_depthKey]
    simp
  refine ⟨?_, ?_, ?_, ?_, ?_⟩
  · intro a
    rw [hf]
  · intro a b h
    rw [hf]
    exact le_of_lt ((sortObjs_iff_depthKey a b).mp h)
  · intro a b c h1 h2
    rw [sortObjs_iff_depthKey] at h1 h2 ⊢
    exact lt_trans h1 h2
  · intro a b
    rw [hf, hf, ← depthKey_eq_iff]
    constructor
    · rintro ⟨h1, h2⟩; exact le_antisymm h2 h1
    · intro h; rw [h]; exact ⟨le_refl _, le_refl _⟩
  · intro a b
    rw [sortObjs_iff_depthKey, sortObjs_iff_depthKey, ← depthKey_eq_iff]
    rcases lt_trichotomy (Object.depthKey a) (Object.depthKey b) with h | h | h
    · exact Or.inl h
    · exact Or.inr (Or.inr h)
    · exact Or.inr (Or.inl h)

/-- C18: for every slice and every comparison function, `SortAny` returns a permutation of its
input, of the same length, and `SortAnySlice` returns the same slice as `SortAny`. -/
theorem sortAny_permutation {T : Type} (data : List T) (lessMethod : T → T → Bool) :
    (SortAny data lessMethod).Perm data
      ∧ (SortAny data lessMethod).length = data.length
      ∧ SortAnySlice data lessMethod = SortAny data lessMethod
      ∧ (SortAnySlice data lessMethod).Perm data :=
  ⟨(GoSort.sort_Sort_rel { Data := data, LessMethod := lessMethod }).2,
    (GoSort.sort_Sort_rel { Data := data, LessMethod := lessMethod }).2.length_eq, rfl,
    (GoSort.sort_Sort_rel { Data := data, LessMethod := lessMethod }).2⟩

/-- C16: for a visible object with a resolvable tile on a layer of opacity 0, the mask value is
0 and both render methods return `nil` and leave the state, every canvas pixel included, as it
was. -/
theorem zero_opacity_noop (env : Env) (r : Renderer) (layer : ObjectGroup) (o : Object)
    (tile : LayerTile) (img : Image) (hvis : o.Visible = true) (hgid : o.GID ≠ 0)
    (htile : env.TileGIDToTile o.GID = .ok tile) (himg : env.GetTileImage tile = .ok img)
    (hop : layer.Opacity = 0) :
    (layerMask layer).A = 0
      ∧ renderOneObject env r layer o = (r, none)
      ∧ renderOneObjectUpperTile env r layer o = (r, none) := by
  refine ⟨layerMask_zero layer hop, ?_, ?_⟩
  · rw [renderOneObject_resolved env r layer o tile img hvis hgid htile himg,
      composite_zero_opacity _ _ _ _ hop]
  · rw [renderOneObjectUpperTile_resolved env r layer o tile img hvis hgid htile himg,
      composite_zero_opacity _ _ _ _ hop]

/-- Witness for C16: a 16 by 16 object of GID 1 at `(0, 16)` on a layer of opacity 0. -/
theorem zero_opacity_noop_witness :
    renderOneObject demoEnv (demoRenderer [] [])
        { Visible := true, Opacity := 0, Objects := [] } (mkObject 1 1 0 16 16 16)
      = (demoRenderer [] [], none) :=
  (zero_opacity_noop demoEnv (demoRenderer [] [])
    { Visible := true, Opacity := 0, Objects := [] } (mkObject 1 1 0 16 16 16) { ID := 0 }
    (redSprite 16 16) rfl (by decide) rfl rfl rfl).2.1

/-! ## The mask of an opaque layer, the transform stage and empty sprites -/

namespace Rectangle

theorem Intersect_of_within (r s : Rectangle) (hne : r.Empty = false)
    (h1 : s.Min.X ≤ r.Min.X) (h2 : s.Min.Y ≤ r.Min.Y) (h3 : r.Max.X ≤ s.Max.X)
    (h4 : r.Max.Y ≤ s.Max.Y) : r.Intersect s = r := by
  rw [Intersect_eq]
  simp only [Empty, Bool.or_eq_false_iff, decide_eq_false_iff_not, not_le] at hne
  rw [if_pos (by omega)]
  cases r with
  | mk rmin rmax =>
    cases rmin; cases rmax
    simp only [Rectangle.mk.injEq, Point.mk.injEq] at *
    omega

/-- What is left of a rectangle after it has been cut against a second one lies inside the second
one, or is the zero rectangle. -/
theorem Intersect_bounds (r s : Rectangle) :
    r.Intersect s = ZR
      ∨ ((r.Intersect s).Empty = false ∧ s.Min.X ≤ (r.Intersect s).Min.X
        ∧ s.Min.Y ≤ (r.Intersect s).Min.Y ∧ (r.Intersect s).Max.X ≤ s.Max.X
        ∧ (r.Intersect s).Max.Y ≤ s.Max.Y) := by
  rw [Intersect_eq]
  split
  · right
    simp only [Empty, Bool.or_eq_false_iff, decide_eq_false_iff_not, not_le]
    omega
  · exact Or.inl rfl

end Rectangle

theorem clip_uniform_mask (dst : Canvas) (r : Rectangle) (img : Image) (m : Uniform)
    (hW : img.W ≤ 2000000000) (hH : img.H ≤ 2000000000) :
    (clip dst r img img.Bounds.Min (some m) m.Bounds.Min).1
        = (clip dst r img img.Bounds.Min none (Pt 0 0)).1
      ∧ (clip dst r img img.Bounds.Min (some m) m.Bounds.Min).2.1
        = (clip dst r img img.Bounds.Min none (Pt 0 0)).2.1 := by
  have key : ((r.Intersect dst.Bounds).Intersect
        (img.Bounds.Add (r.Min.Sub img.Bounds.Min))).Intersect
        (m.Bounds.Add (r.Min.Sub m.Bounds.Min))
      = (r.Intersect dst.Bounds).Intersect (img.Bounds.Add (r.Min.Sub img.Bounds.Min)) := by
    rcases Rectangle.Intersect_bounds (r.Intersect dst.Bounds)
      (img.Bounds.Add (r.Min.Sub img.Bounds.Min)) with h | ⟨h0, h1, h2, h3, h4⟩
    · rw [h]; exact Rectangle.Intersect_of_Empty _ Rectangle.ZR_Empty
    · apply Rectangle.Intersect_of_within _ _ h0
      · simp only [Rectangle.Add, Image.Bounds, Pt, Point.Sub, Uniform.Bounds] at h1 ⊢
        omega
      · simp only [Rectangle.Add, Image.Bounds, Pt, Point.Sub, Uniform.Bounds] at h2 ⊢
        omega
      · simp only [Rectangle.Add, Image.Bounds, Pt, Point.Sub, Uniform.Bounds] at h3 ⊢
        omega
      · simp only [Rectangle.Add, Image.Bounds, Pt, Point.Sub, Uniform.Bounds] at h4 ⊢
        omega
  unfold clip
  simp only [key]
  constructor
  · split <;> rfl
  · split <;> rfl

theorem DrawMask_opaque_mask (dst : Canvas) (r : Rectangle) (img : Image) (m : Uniform)
    (hm : m.A = 255) (hW : img.W ≤ 2000000000) (hH : img.H ≤ 2000000000) :
    DrawMask dst r img img.Bounds.Min (some m) m.Bounds.Min
      = DrawMask dst r img img.Bounds.Min none (Pt 0 0) := by
  obtain ⟨h1, h2⟩ := clip_uniform_mask dst r img m hW hH
  unfold DrawMask
  simp only [h1, h2, Uniform.Alpha16, hm]

theorem layerMask_one (layer : ObjectGroup) (h : layer.Opacity = 1) :
    (layerMask layer).A = 255 := by
  unfold layerMask NewUniform
  rw [h]
  decide!

theorem transform_eq (env : Env) (o : Object) (img : Image) :
    transform env o img
      = if o.Rotation = 0 then
          (if Pt (toInt o.Width) (toInt o.Height) = Pt img.W img.H then img
            else env.Resize img (toInt o.Width) (toInt o.Height))
        else
          env.Rotate
            (if Pt (toInt o.Width) (toInt o.Height) = Pt img.W img.H then img
              else env.Resize img (toInt o.Width) (toInt o.Height))
            (-o.Rotation) := by
  have hsize : img.Bounds.Size = Pt img.W img.H := by
    simp [Rectangle.Size, Image.Bounds, Pt]
  unfold transform
  simp only [hsize, Point.Eq, Pt]
  by_cases h1 : ({ X := (img.W : Int), Y := (img.H : Int) } : Point)
      = { X := toInt o.Width, Y := toInt o.Height }
  · have d : decide (({ X := (img.W : Int), Y := (img.H : Int) } : Point)
        = { X := toInt o.Width, Y := toInt o.Height }) = true := decide_eq_true h1
    simp only [d, Bool.not_true, Bool.false_eq_true, if_false, if_pos h1.symm, ne_eq]
    by_cases h2 : o.Rotation = 0
    · simp only [h2, not_true_eq_false, if_false, if_true]
    · simp only [h2, not_false_eq_true, if_false, if_true]
  · have d : decide (({ X := (img.W : Int), Y := (img.H : Int) } : Point)
        = { X := toInt o.Width, Y := toInt o.Height }) = false := decide_eq_false h1
    have h1' : ¬ ({ X := toInt o.Width, Y := toInt o.Height } : Point)
        = { X := (img.W : Int), Y := (img.H : Int) } := fun h => h1 h.symm
    simp only [d, Bool.not_false, if_true, if_neg h1', ne_eq]
    by_cases h2 : o.Rotation = 0
    · simp only [h2, not_true_eq_false, if_false, if_true]
    · simp only [h2, not_false_eq_true, if_false, if_true]

/-! ## The claims on the opacity boundary, the transform stage and degenerate sizes -/

/-- C14, counterexample: a red sprite 3000000000 pixels wide and one pixel high on a canvas of
that size: the draw of an opaque layer paints the pixel `(2500000000, 0)`, the masked draw with
mask value 255 stops at the extent of the mask, 2000000000 pixels, and leaves it transparent. -/
theorem opaque_mask_differs_wide :
    (composite { Visible := true, Opacity := 1, Objects := [] } (blankCanvas 3000000000 1)
        (redSprite 3000000000 1).Bounds (redSprite 3000000000 1)).Pix 2500000000 0
        = { R := 255, G := 0, B := 0, A := 255 }
      ∧ (DrawMask (blankCanvas 3000000000 1) (redSprite 3000000000 1).Bounds
          (redSprite 3000000000 1) (redSprite 3000000000 1).Bounds.Min (some (NewUniform 255))
          (NewUniform 255).Bounds.Min).Pix 2500000000 0
        = { R := 0, G := 0, B := 0, A := 0 } := by
  refine ⟨by decide!, by decide!⟩

/-- C14, amended: on a layer of opacity 1 the mask formula yields 255, and for every canvas,
every destination rectangle and every image of at most 2000000000 pixels in width and in
height, the draw of the layer (the unmasked path) gives the canvas that the masked path gives
with that mask. -/
theorem opacity_boundary (layer : ObjectGroup) (dst : Canvas) (pos : Rectangle) (img : Image)
    (hop : layer.Opacity = 1) (hW : img.W ≤ 2000000000) (hH : img.H ≤ 2000000000) :
    (layerMask layer).A = 255
      ∧ composite layer dst pos img
        = DrawMask dst pos img img.Bounds.Min (some (layerMask layer))
            (layerMask layer).Bounds.Min := by
  refine ⟨layerMask_one layer hop, ?_⟩
  rw [DrawMask_opaque_mask dst pos img _ (layerMask_one layer hop) hW hH]
  unfold composite Draw
  rw [if_neg (by rw [hop]; exact lt_irrefl _)]

/-- Witness for C14, amended: a 16 by 16 sprite on the 64 by 64 canvas. -/
theorem opacity_boundary_witness :
    (layerMask (demoLayer [])).A = 255
      ∧ composite (demoLayer []) (blankCanvas 64 64) (redSprite 16 16).Bounds (redSprite 16 16)
        = DrawMask (blankCanvas 64 64) (redSprite 16 16).Bounds (redSprite 16 16)
            (redSprite 16 16).Bounds.Min (some (layerMask (demoLayer [])))
            (layerMask (demoLayer [])).Bounds.Min :=
  opacity_boundary (demoLayer []) (blankCanvas 64 64) (redSprite 16 16).Bounds (redSprite 16 16)
    rfl (by decide) (by decide)

/-- C13, counterexample: an unrotated object of declared size 16.5 by 16 on a 16 by 16 sprite:
the declared width differs from the sprite width, yet no resize takes place (the result is the
16 pixel wide sprite, where the resize of `probeEnv` would return the empty image). -/
theorem no_resize_for_fractional_size :
    (mkObject 1 1 0 16 (33 / 2) 16).Width ≠ (((redSprite 16 16).W : Int) : ℚ)
      ∧ (transform probeEnv (mkObject 1 1 0 16 (33 / 2) 16) (redSprite 16 16)).W = 16
      ∧ (probeEnv.Resize (redSprite 16 16) 16 16).W = 0 := by
  refine ⟨by norm_num [mkObject, redSprite], ?_, rfl⟩
  rw [transform_eq, if_pos (show (mkObject 1 1 0 16 (33 / 2) 16).Rotation = 0 from rfl),
    if_pos (by decide!)]
  rfl

/-- C13, amended: the transform stage resizes exactly when `(int(width), int(height))`, the
declared size with its fractional parts dropped, differs from the sprite size, and rotates
exactly when the rotation is not 0.  So for an unrotated object whose declared size is the
sprite size, neither `Resize` nor `Rotate` is called, and both render methods hand the
provider's sprite itself to the compositor. -/
theorem transform_stage (env : Env) (r : Renderer) (layer : ObjectGroup) (o : Object)
    (tile : LayerTile) (img : Image) (hvis : o.Visible = true) (hgid : o.GID ≠ 0)
    (htile : env.TileGIDToTile o.GID = .ok tile) (himg : env.GetTileImage tile = .ok img) :
    (transform env o img
        = if o.Rotation = 0 then
            (if Pt (toInt o.Width) (toInt o.Height) = Pt img.W img.H then img
              else env.Resize img (toInt o.Width) (toInt o.Height))
          else
            env.Rotate
              (if Pt (toInt o.Width) (toInt o.Height) = Pt img.W img.H then img
                else env.Resize img (toInt o.Width) (toInt o.Height))
              (-o.Rotation))
      ∧ (o.Rotation = 0 → Pt (toInt o.Width) (toInt o.Height) = Pt img.W img.H →
          transform env o img = img
            ∧ renderOneObject env r layer o
              = (⟨r.m, composite layer r.Result (fullPos o img) img⟩, none)
            ∧ renderOneObjectUpperTile env r layer o
              = (⟨r.m, composite layer r.Result (upperPos r.m.TileHeight o img) img⟩,
                  none)) := by
  refine ⟨transform_eq env o img, ?_⟩
  intro hrot hsize
  have ht : transform env o img = img := by
    rw [transform_eq, if_pos hrot, if_pos hsize]
  refine ⟨ht, ?_, ?_⟩
  · rw [renderOneObject_resolved env r layer o tile img hvis hgid htile himg, ht]
  · rw [renderOneObjectUpperTile_resolved env r layer o tile img hvis hgid htile himg, ht]

/-- Witness for C13, amended: a 16 by 16 object on the 16 by 16 sprite of GID 1 is drawn with
the sprite as it is. -/
theorem transform_stage_witness :
    transform demoEnv (mkObject 1 1 0 32 16 16) (redSprite 16 16) = redSprite 16 16 :=
  ((transform_stage demoEnv (demoRenderer [] []) (demoLayer []) (mkObject 1 1 0 32 16 16)
    { ID := 0 } (redSprite 16 16) rfl (by decide) rfl rfl).2 rfl
    (by decide!)).1

/-- C15, counterexample: a visible object of GID 1 (a 16 by 16 sprite) at `(0, 16)` in a grid of
tile height 16.  With declared width 0 and declared height 16 the resize keeps the aspect ratio,
and both methods return `nil` but paint the canvas pixel `(0, 0)` red.  With declared width 16
and declared height 0 the resized sprite is again 16 by 16: `renderOneObject` paints the canvas
pixel `(0, 16)` red, while the upper band is 0 and `renderOneObjectUpperTile` draws nothing. -/
theorem zero_width_is_drawn :
    (mkObject 1 1 0 16 0 16).Width = 0
      ∧ (renderOneObject demoEnv (demoRenderer [] []) (demoLayer [])
          (mkObject 1 1 0 16 0 16)).2 = none
      ∧ (demoRenderer [] []).Result.Pix 0 0 = { R := 0, G := 0, B := 0, A := 0 }
      ∧ (renderOneObject demoEnv (demoRenderer [] []) (demoLayer [])
          (mkObject 1 1 0 16 0 16)).1.Result.Pix 0 0 = { R := 255, G := 0, B := 0, A := 255 }
      ∧ (renderOneObjectUpperTile demoEnv (demoRenderer [] []) (demoLayer [])
          (mkObject 1 1 0 16 0 16)).1.Result.Pix 0 0
        = { R := 255, G := 0, B := 0, A := 255 }
      ∧ (mkObject 1 1 0 16 16 0).Height = 0
      ∧ (demoRenderer [] []).Result.Pix 0 16 = { R := 0, G := 0, B := 0, A := 0 }
      ∧ (renderOneObject demoEnv (demoRenderer [] []) (demoLayer [])
          (mkObject 1 1 0 16 16 0)).1.Result.Pix 0 16 = { R := 255, G := 0, B := 0, A := 255 }
      ∧ upperHeight 16 (mkObject 1 1 0 16 16 0) = some 0 := by
  refine ⟨rfl, by decide!, rfl, by decide!, by decide!, rfl, rfl, by decide!, by decide!⟩

/-- C15, amended: for a visible object with a resolvable tile, whatever its declared size, both
render methods return `nil`.  Whenever the transformed sprite has no pixels (width 0 or height 0,
as for the declared size `(0, 0)`, which `imaging.Resize` turns into the empty image) they leave
the state, canvas included, as it was.  With a declared height of 0 on a map of tile height
`T > 0` the upper band `floor(y / T) * T - y` is at most 0 in exact arithmetic, and
`renderOneObjectUpperTile` leaves the state as it was, whatever the sprite, when the code
computes the band without rounding error, and also whenever `T` and `|y|` are below `2 ^ 51`
and `y` has at most 53 significant bits and at most 1022 binary places.  For an unrotated
object with a declared width or height of 0 and a sprite that has pixels, the transform stage
hands the declared size, zero included, to `imaging.Resize`, and what that returns is what is
drawn. -/
theorem degenerate_size_noop (env : Env) (r : Renderer) (layer : ObjectGroup) (o : Object)
    (tile : LayerTile) (img : Image) (hvis : o.Visible = true) (hgid : o.GID ≠ 0)
    (htile : env.TileGIDToTile o.GID = .ok tile) (himg : env.GetTileImage tile = .ok img) :
    (renderOneObject env r layer o).2 = none
      ∧ (renderOneObjectUpperTile env r layer o).2 = none
      ∧ ((transform env o img).W = 0 ∨ (transform env o img).H = 0 →
          renderOneObject env r layer o = (r, none)
            ∧ renderOneObjectUpperTile env r layer o = (r, none))
      ∧ (o.Height = 0 → 0 < r.m.TileHeight →
          upperBandHeight r.m.TileHeight o.Y o.Height ≤ 0
            ∧ (upperHeight r.m.TileHeight o
                = some (upperBandHeight r.m.TileHeight o.Y o.Height) →
              renderOneObjectUpperTile env r layer o = (r, none))
            ∧ ((∃ (z : Int) (w : Nat), o.Y = (z : ℚ) / 2 ^ w ∧ |(z : ℚ)| < 2 ^ 53 ∧ w ≤ 1022) →
              (r.m.TileHeight : ℚ) < 2 ^ 51 → |o.Y| < 2 ^ 51 →
              renderOneObjectUpperTile env r layer o = (r, none)))
      ∧ (o.Rotation = 0 → o.Width = 0 ∨ o.Height = 0 → 0 < img.W → 0 < img.H →
          transform env o img = env.Resize img (toInt o.Width) (toInt o.Height)) := by
  have hu := renderOneObjectUpperTile_resolved env r layer o tile img hvis hgid htile himg
  have hf := renderOneObject_resolved env r layer o tile img hvis hgid htile himg
  refine ⟨by rw [hf], by rw [hu], ?_, ?_, ?_⟩
  · intro h
    rw [hf, hu, composite_of_empty_image _ _ _ _ h, composite_of_empty_image _ _ _ _ h]
    exact ⟨rfl, rfl⟩
  · intro hh hT
    have hband : upperBandHeight r.m.TileHeight o.Y o.Height ≤ 0 := by
      have := floor_mul_le o.Y r.m.TileHeight hT
      rw [upperBandHeight_eq, hh]
      linarith
    refine ⟨hband, ?_, ?_⟩
    · intro hub
      rw [hu, composite_of_Empty _ _ _ (upperPos_Empty _ _ _
        (F64.toInt_nonpos_of_finite (fun q hq => by rw [hub] at hq; cases hq; exact hband)))]
    · rintro ⟨z, w, hyz, hz, hw⟩ hT2 hy
      obtain ⟨ub, hub, hle⟩ := upperHeight_nonpos r.m.TileHeight o z w hyz hz hw hT hT2 hy
        (by rw [hh]; norm_num) hband
      rw [hu, composite_of_Empty _ _ _ (upperPos_Empty _ _ _
        (F64.toInt_nonpos_of_finite (fun q hq => by rw [hub] at hq; cases hq; exact hle)))]
  · intro hrot hzero hW hH
    have hne : ¬ Pt (toInt o.Width) (toInt o.Height) = Pt img.W img.H := by
      intro h
      simp only [Pt, Point.mk.injEq] at h
      have z : toInt (0 : ℚ) = 0 := by decide!
      rcases hzero with h0 | h0
      · rw [h0, z] at h; omega
      · rw [h0, z] at h; omega
    rw [transform_eq, if_pos hrot, if_neg hne]

/-- Witness for C15, amended: an object of GID 1 with the declared size `(0, 0)` is resized to
the empty image and changes nothing, and one with the declared size `(16, 0)` standing on
`y = 16` in a grid of tile height 16 changes nothing in the upper pass. -/
theorem degenerate_size_noop_witness :
    (transform demoEnv (mkObject 1 1 0 16 0 0) (redSprite 16 16)).W = 0
      ∧ renderOneObject demoEnv (demoRenderer [] []) (demoLayer []) (mkObject 1 1 0 16 0 0)
        = (demoRenderer [] [], none)
      ∧ renderOneObjectUpperTile demoEnv (demoRenderer [] []) (demoLayer [])
          (mkObject 1 1 0 16 0 0)
        = (demoRenderer [] [], none)
      ∧ renderOneObjectUpperTile demoEnv (demoRenderer [] []) (demoLayer [])
          (mkObject 1 1 0 16 16 0)
        = (demoRenderer [] [], none) := by
  have hW : (transform demoEnv (mkObject 1 1 0 16 0 0) (redSprite 16 16)).W = 0 := by
    decide!
  have h0 := (degenerate_size_noop demoEnv (demoRenderer [] []) (demoLayer [])
    (mkObject 1 1 0 16 0 0) { ID := 0 } (redSprite 16 16) rfl (by decide) rfl rfl).2.2.1
    (Or.inl hW)
  have h1 := ((degenerate_size_noop demoEnv (demoRenderer [] []) (demoLayer [])
    (mkObject 1 1 0 16 16 0) { ID := 0 } (redSprite 16 16) rfl (by decide) rfl rfl).2.2.2.1
    rfl (by decide)).2.2
    ⟨16, 0, by simp only [mkObject]; norm_num, by norm_num, by norm_num⟩
    (by simp only [demoRenderer]; norm_num) (by simp only [mkObject]; norm_num)
  exact ⟨hW, h0.1, h0.2, h1⟩

/-! ## The layer walk visits the visible layers in document order -/

theorem forEach_cons {α S : Type} (f : S → α → S × Option Error) (x : α) (xs : List α) (s : S) :
    forEach f (x :: xs) s
      = match f s x with
        | (s, some err) => (s, some err)
        | (s, none) => forEach f xs s := by
  rcases h : f s x with ⟨s1, _ | e⟩ <;> simp only [forEach, h]

theorem forEach_filter {α S : Type} (p : α → Bool) (f : S → α → S × Option Error)
    (xs : List α) (s : S) :
    forEach (fun s x => if !p x then (s, none) else f s x) xs s = forEach f (xs.filter p) s := by
  induction xs generalizing s with
  | nil => rfl
  | cons x xs ih =>
    cases hp : p x with
    | false =>
      rw [List.filter_cons_of_neg (by simp [hp]), forEach_cons]
      simp only [hp, Bool.not_false, if_true]
      exact ih s
    | true =>
      rw [List.filter_cons_of_pos hp, forEach_cons, forEach_cons]
      simp only [hp, Bool.not_true, Bool.false_eq_true, if_false]
      split
      · rfl
      · exact ih _

theorem forEach_sim {α S S' : Type} (R : S → S' → Prop) (f : S → α → S × Option Error)
    (g : S' → α → S' × Option Error)
    (h : ∀ s s' x, R s s' → R (f s x).1 (g s' x).1 ∧ (f s x).2 = (g s' x).2)
    (xs : List α) (s : S) (s' : S') (hs : R s s') :
    R (forEach f xs s).1 (forEach g xs s').1 ∧ (forEach f xs s).2 = (forEach g xs s').2 := by
  induction xs generalizing s s' with
  | nil => exact ⟨hs, rfl⟩
  | cons x xs ih =>
    have hx := h s s' x hs
    rw [forEach_cons, forEach_cons]
    rcases hf : f s x with ⟨s1, _ | e⟩ <;> rcases hg : g s' x with ⟨s1', _ | e'⟩ <;>
      rw [hf, hg] at hx <;> simp only at hx ⊢
    · exact ih s1 s1' hx.1
    · exact absurd hx.2 (by simp)
    · exact absurd hx.2 (by simp)
    · exact hx

/-- What `renderOneObjectUpperTile` draws and returns depends on the state only through the
tile height of the map and the canvas. -/
theorem renderOneObjectUpperTile_canvas (env : Env) (r r' : Renderer) (layer : ObjectGroup)
    (o : Object) (hT : r.m.TileHeight = r'.m.TileHeight) (hc : r.Result = r'.Result) :
    ((renderOneObjectUpperTile env r layer o).1.m.TileHeight
        = (renderOneObjectUpperTile env r' layer o).1.m.TileHeight
      ∧ (renderOneObjectUpperTile env r layer o).1.Result
        = (renderOneObjectUpperTile env r' layer o).1.Result)
    ∧ (renderOneObjectUpperTile env r layer o).2 = (renderOneObjectUpperTile env r' layer o).2 := by
  unfold renderOneObjectUpperTile
  split
  · exact ⟨⟨hT, hc⟩, rfl⟩
  · split
    · exact ⟨⟨hT, hc⟩, rfl⟩
    · split
      · exact ⟨⟨hT, hc⟩, rfl⟩
      · split
        · exact ⟨⟨hT, hc⟩, rfl⟩
        · simp only [hT, hc, and_self]

theorem _renderObjectGroup_canvas (env : Env) (r r' : Renderer) (og : ObjectGroup)
    (hT : r.m.TileHeight = r'.m.TileHeight) (hc : r.Result = r'.Result) :
    (_renderObjectGroup env r og).2.1.Result = (_renderObjectGroup env r' og).2.1.Result
    ∧ (_renderObjectGroup env r og).2.2 = (_renderObjectGroup env r' og).2.2 := by
  unfold _renderObjectGroup
  have h := forEach_sim
    (fun s s' : Renderer => s.m.TileHeight = s'.m.TileHeight ∧ s.Result = s'.Result)
    (fun r obj => renderOneObjectUpperTile env r
      { og with Objects := SortAny og.Objects sortObjs } obj)
    (fun r obj => renderOneObjectUpperTile env r
      { og with Objects := SortAny og.Objects sortObjs } obj)
    (fun s s' x hs => renderOneObjectUpperTile_canvas env s s' _ x hs.1 hs.2)
    (SortAny og.Objects sortObjs) r r' ⟨hT, hc⟩
  exact ⟨h.1.2, h.2⟩

theorem renderGroupLayers_eq (env : Env) (layers : List Layer) (r : Renderer) :
    (renderGroupLayers env layers r).1.m = r.m
    ∧ ((renderGroupLayers env layers r).1.Result, (renderGroupLayers env layers r).2)
      = renderLayersInOrder env (layers.filter (fun layer => layer.Visible)) r.Result := by
  unfold renderGroupLayers renderLayersInOrder
  rw [forEach_filter (fun layer : Layer => layer.Visible)
    (fun (r : Renderer) layer =>
      ((⟨r.m, (env.renderLayer layer r.Result).1⟩ : Renderer), (env.renderLayer layer r.Result).2))]
  have h := forEach_sim
    (fun (s : Renderer) (c : Canvas) => s.m = r.m ∧ s.Result = c)
    (fun (r : Renderer) layer =>
      ((⟨r.m, (env.renderLayer layer r.Result).1⟩ : Renderer), (env.renderLayer layer r.Result).2))
    (fun c layer => env.renderLayer layer c)
    (fun s c x hs => by
      obtain ⟨h1, h2⟩ := hs
      subst h2
      exact ⟨⟨h1, rfl⟩, rfl⟩)
    (layers.filter (fun layer => layer.Visible)) r r.Result ⟨rfl, rfl⟩
  refine ⟨h.1.1, ?_⟩
  exact Prod.ext h.1.2 h.2

theorem renderGroupObjectGroups_eq (env : Env) (ogs : List ObjectGroup) (r : Renderer) :
    ((renderGroupObjectGroups env ogs r).2.1.Result, (renderGroupObjectGroups env ogs r).2.2)
      = renderObjectLayersInOrder env r.m.TileHeight
          (ogs.filter (fun objectGroup => objectGroup.Visible)) r.Result := by
  induction ogs generalizing r with
  | nil => rfl
  | cons og rest ih =>
    cases hv : og.Visible with
    | false =>
      rw [List.filter_cons_of_neg (by simp [hv])]
      unfold renderGroupObjectGroups
      simp only [hv, Bool.not_false, if_true]
      exact ih r
    | true =>
      rw [List.filter_cons_of_pos hv]
      have hc := _renderObjectGroup_canvas env r
        { m := { TileHeight := r.m.TileHeight, Groups := [], ObjectGroups := [] },
          Result := r.Result } og rfl rfl
      have hm := _renderObjectGroup_m env r og
      unfold renderGroupObjectGroups renderObjectLayersInOrder
      simp only [hv, Bool.not_true, Bool.false_eq_true, if_false]
      rw [forEach_cons]
      simp only [← hc.1, ← hc.2]
      rcases hg : _renderObjectGroup env r og with ⟨og1, r1, _ | e⟩
      · rw [hg] at hm
        simp only at hm ⊢
        have := ih r1
        rw [hm] at this
        exact this
      · rfl

theorem _renderGroup_eq (env : Env) (r : Renderer) (group : Group) :
    ((_renderGroup env r group).2.1.Result, (_renderGroup env r group).2.2)
      = renderVisibleInOrder env r.m.TileHeight group.Layers group.ObjectGroups r.Result := by
  have hl := renderGroupLayers_eq env group.Layers r
  unfold _renderGroup renderVisibleInOrder
  rw [← hl.2]
  rcases hg : renderGroupLayers env group.Layers r with ⟨r1, _ | e⟩
  · rw [hg] at hl
    simp only at hl ⊢
    have := renderGroupObjectGroups_eq env group.ObjectGroups r1
    rw [hl.1] at this
    exact this
  · rfl

theorem renderVisibleObjectGroupsLoop_eq (env : Env) (all : List ObjectGroup) (k i : Nat)
    (r : Renderer) (hk : i + k = all.length)
    (hlen : r.m.ObjectGroups.length = all.length)
    (hd : r.m.ObjectGroups.drop i = all.drop i) :
    (renderVisibleObjectGroupsLoop env (List.range' i k) r).map (fun p => (p.1.Result, p.2))
      = some (renderObjectLayersInOrder env r.m.TileHeight
          ((all.drop i).filter (fun objectGroup => objectGroup.Visible)) r.Result) := by
  induction k generalizing i r with
  | zero =>
    have : all.drop i = [] := List.drop_eq_nil_of_le (by omega)
    rw [this]
    rfl
  | succ k ih =>
    have hi : i < all.length := by omega
    have hall : all.drop i = all[i] :: all.drop (i + 1) := List.drop_eq_getElem_cons hi
    have hi' : i < r.m.ObjectGroups.length := by omega
    have hr : r.m.ObjectGroups.drop i = r.m.ObjectGroups[i] :: r.m.ObjectGroups.drop (i + 1) :=
      List.drop_eq_getElem_cons hi'
    rw [hr, hall] at hd
    have hhead : r.m.ObjectGroups[i] = all[i] := (List.cons.inj hd).1
    have htail : r.m.ObjectGroups.drop (i + 1) = all.drop (i + 1) := (List.cons.inj hd).2
    have hget : r.m.ObjectGroups[i]? = some all[i] := by
      rw [List.getElem?_eq_getElem hi', hhead]
    rw [hall, List.range'_succ]
    unfold renderVisibleObjectGroupsLoop
    simp only [hget]
    cases hv : all[i].Visible with
    | false =>
      rw [List.filter_cons_of_neg (by simp [hv])]
      simp only [Bool.false_eq_true, if_false]
      exact ih (i + 1) r (by omega) hlen htail
    | true =>
      rw [List.filter_cons_of_pos hv]
      simp only [if_true]
      have hc := _renderObjectGroup_canvas env r
        { m := { TileHeight := r.m.TileHeight, Groups := [], ObjectGroups := [] },
          Result := r.Result } all[i] rfl rfl
      have hm := _renderObjectGroup_m env r all[i]
      unfold RenderObjectGroup renderObjectLayersInOrder
      simp only [hget]
      rw [forEach_cons]
      simp only [← hc.1, ← hc.2]
      rcases hg : _renderObjectGroup env r all[i] with ⟨og1, r1, _ | e⟩
      · rw [hg] at hm
        simp only at hm ⊢
        have := ih (i + 1)
          ⟨{ r.m with ObjectGroups := r.m.ObjectGroups.set i og1 }, r1.Result⟩ (by omega)
          (by simp only [List.length_set]; exact hlen)
          (by
            simp only
            rw [List.drop_set_of_lt _ _ (Nat.lt_succ_self i)]
            exact htail)
        exact this
      · rfl

theorem RenderVisibleObjectGroups_eq (env : Env) (r : Renderer) :
    (RenderVisibleObjectGroups env r).map (fun p => (p.1.Result, p.2))
      = some (renderObjectLayersInOrder env r.m.TileHeight
          (r.m.ObjectGroups.filter (fun objectGroup => objectGroup.Visible)) r.Result) := by
  unfold RenderVisibleObjectGroups
  rw [List.range_eq_range']
  have := renderVisibleObjectGroupsLoop_eq env r.m.ObjectGroups r.m.ObjectGroups.length 0 r
    (by omega) rfl rfl
  simpa using this

theorem renderGroupObjectGroups_hidden (env : Env) (ogs : List ObjectGroup) (r : Renderer) :
    (renderGroupObjectGroups env ogs r).1.filter (fun objectGroup => !objectGroup.Visible)
      = ogs.filter (fun objectGroup => !objectGroup.Visible) := by
  induction ogs generalizing r with
  | nil => rfl
  | cons og rest ih =>
    cases hv : og.Visible with
    | false =>
      unfold renderGroupObjectGroups
      simp only [hv, Bool.not_false, if_true]
      rw [List.filter_cons_of_pos (by simp [hv]), List.filter_cons_of_pos (by simp [hv]), ih r]
    | true =>
      have hf := _renderObjectGroup_fst env r og
      unfold renderGroupObjectGroups
      simp only [hv, Bool.not_true, Bool.false_eq_true, if_false]
      rcases hg : _renderObjectGroup env r og with ⟨og1, r1, _ | e⟩
      · rw [hg] at hf
        simp only at hf ⊢
        rw [List.filter_cons_of_neg (by simp [hf, hv]),
          List.filter_cons_of_neg (by simp [hv]), ih r1]
      · rw [hg] at hf
        simp only at hf ⊢
        rw [List.filter_cons_of_neg (by simp [hf, hv]),
          List.filter_cons_of_neg (by simp [hv])]

theorem _renderGroup_hidden (env : Env) (r : Renderer) (group : Group) :
    (_renderGroup env r group).1.Layers = group.Layers
    ∧ (_renderGroup env r group).1.ObjectGroups.filter (fun objectGroup => !objectGroup.Visible)
      = group.ObjectGroups.filter (fun objectGroup => !objectGroup.Visible) := by
  unfold _renderGroup
  split
  · exact ⟨rfl, rfl⟩
  · exact ⟨rfl, renderGroupObjectGroups_hidden env _ _⟩

/-! ## The claim on the visibility gate of the layer walk -/

/-- Claim C12: `_renderGroup`, and with it `RenderGroup`, leaves the canvas and returns the error
that rendering the visible tile layers of the group in document order and then its visible object
layers in document order gives, up to the first error; `RenderVisibleObjectGroups` does the same
with the visible top-level object layers; a layer that is not visible is not rendered, changes
nothing and raises no error, and `_renderGroup` leaves the tile layers and the object layers that
are not visible as they were. -/
theorem visible_layers_in_order (env : Env) (r : Renderer) :
    (∀ group : Group,
      ((_renderGroup env r group).2.1.Result, (_renderGroup env r group).2.2)
        = renderVisibleInOrder env r.m.TileHeight group.Layers group.ObjectGroups r.Result
      ∧ (_renderGroup env r group).1.Layers = group.Layers
      ∧ (_renderGroup env r group).1.ObjectGroups.filter (fun objectGroup => !objectGroup.Visible)
        = group.ObjectGroups.filter (fun objectGroup => !objectGroup.Visible))
    ∧ (∀ groupIdx : Nat,
      (RenderGroup env r groupIdx).map (fun p => (p.1.Result, p.2))
        = (r.m.Groups[groupIdx]?).map (fun group =>
            renderVisibleInOrder env r.m.TileHeight group.Layers group.ObjectGroups r.Result))
    ∧ (RenderVisibleObjectGroups env r).map (fun p => (p.1.Result, p.2))
        = some (renderObjectLayersInOrder env r.m.TileHeight
            (r.m.ObjectGroups.filter (fun objectGroup => objectGroup.Visible)) r.Result) := by
  refine ⟨fun group => ⟨_renderGroup_eq env r group, _renderGroup_hidden env r group⟩, ?_,
    RenderVisibleObjectGroups_eq env r⟩
  intro groupIdx
  unfold RenderGroup
  cases hg : r.m.Groups[groupIdx]? with
  | none => rfl
  | some group =>
    simp only [Option.map_some']
    exact congrArg some (_renderGroup_eq env r group)

/-! ## `sort.Sort` commutes with a map that keeps the comparison -/

namespace Sortable

variable {T : Type}

@[simp] theorem mapData_Data (f : T → T) (s : Sortable T) :
    (mapData f s).Data = s.Data.map f := rfl

@[simp] theorem mapData_LessMethod (f : T → T) (s : Sortable T) :
    (mapData f s).LessMethod = s.LessMethod := rfl

theorem mapData_Swap (f : T → T) (s : Sortable T) (i j : Nat) :
    (mapData f s).Swap i j = mapData f (s.Swap i j) := by
  unfold Swap
  simp only [mapData_Data, List.getElem?_map]
  cases s.Data[i]? <;> cases s.Data[j]? <;> simp [mapData, List.map_set]

theorem mapData_Less (f : T → T) (less : T → T → Bool)
    (hf : ∀ a b, less (f a) (f b) = less a b) (s : Sortable T) (hs : s.LessMethod = less)
    (i j : Nat) : (mapData f s).Less i j = s.Less i j := by
  unfold Less
  simp only [mapData_Data, mapData_LessMethod, List.getElem?_map]
  cases s.Data[i]? <;> cases s.Data[j]? <;> simp [hs, hf]

end Sortable

namespace GoSort

open Sortable

variable {T : Type}

theorem insertionInner_map (f : T → T) (less : T → T → Bool)
    (hf : ∀ a b, less (f a) (f b) = less a b) (a j : Nat) (s : Sortable T)
    (hs : s.LessMethod = less) :
    insertionInner a j (mapData f s) = mapData f (insertionInner a j s) := by
  induction j generalizing s with
  | zero => rfl
  | succ j ih =>
    simp only [insertionInner, mapData_Less f less hf s hs, mapData_Swap]
    split
    · exact ih _ ((Swap_LessMethod _ _ _).trans hs)
    · rfl

theorem insertionOuter_map (f : T → T) (less : T → T → Bool)
    (hf : ∀ a b, less (f a) (f b) = less a b) (a b n i : Nat) (s : Sortable T)
    (hs : s.LessMethod = less) :
    insertionOuter a b n i (mapData f s) = mapData f (insertionOuter a b n i s) := by
  induction n generalizing i s with
  | zero => rfl
  | succ n ih =>
    simp only [insertionOuter, insertionInner_map f less hf a i s hs]
    split
    · exact ih _ _ ((insertionInner_rel a i s).1.trans hs)
    · rfl

theorem insertionSort_map (f : T → T) (less : T → T → Bool)
    (hf : ∀ a b, less (f a) (f b) = less a b) (s : Sortable T) (hs : s.LessMethod = less)
    (a b : Nat) : insertionSort (mapData f s) a b = mapData f (insertionSort s a b) :=
  insertionOuter_map f less hf _ _ _ _ s hs

theorem siftDownLoop_map (f : T → T) (less : T → T → Bool)
    (hf : ∀ a b, less (f a) (f b) = less a b) (hi first n root : Nat) (s : Sortable T)
    (hs : s.LessMethod = less) :
    siftDownLoop hi first n root (mapData f s) = mapData f (siftDownLoop hi first n root s) := by
  induction n generalizing root s with
  | zero => rfl
  | succ n ih =>
    simp only [siftDownLoop, mapData_Less f less hf s hs, mapData_Swap]
    split
    · rfl
    · split <;> split
      · rfl
      · exact ih _ _ ((Swap_LessMethod _ _ _).trans hs)
      · rfl
      · exact ih _ _ ((Swap_LessMethod _ _ _).trans hs)

theorem siftDown_map (f : T → T) (less : T → T → Bool)
    (hf : ∀ a b, less (f a) (f b) = less a b) (s : Sortable T) (hs : s.LessMethod = less)
    (lo hi first : Nat) : siftDown (mapData f s) lo hi first = mapData f (siftDown s lo hi first) :=
  siftDownLoop_map f less hf _ _ _ _ s hs

theorem heapBuild_map (f : T → T) (less : T → T → Bool)
    (hf : ∀ a b, less (f a) (f b) = less a b) (hi first i : Nat) (s : Sortable T)
    (hs : s.LessMethod = less) :
    heapBuild hi first i (mapData f s) = mapData f (heapBuild hi first i s) := by
  induction i generalizing s with
  | zero => exact siftDown_map f less hf s hs _ _ _
  | succ i ih =>
    simp only [heapBuild, siftDown_map f less hf s hs]
    exact ih _ ((siftDown_rel s _ _ _).1.trans hs)

theorem heapPop_map (f : T → T) (less : T → T → Bool)
    (hf : ∀ a b, less (f a) (f b) = less a b) (first i : Nat) (s : Sortable T)
    (hs : s.LessMethod = less) :
    heapPop first i (mapData f s) = mapData f (heapPop first i s) := by
  induction i generalizing s with
  | zero => rfl
  | succ i ih =>
    have h1 : (s.Swap first (first + i)).LessMethod = less := (Swap_LessMethod _ _ _).trans hs
    simp only [heapPop, mapData_Swap, siftDown_map f less hf _ h1]
    exact ih _ ((siftDown_rel _ _ _ _).1.trans h1)

theorem heapSort_map (f : T → T) (less : T → T → Bool)
    (hf : ∀ a b, less (f a) (f b) = less a b) (s : Sortable T) (hs : s.LessMethod = less)
    (a b : Nat) : heapSort (mapData f s) a b = mapData f (heapSort s a b) := by
  unfold heapSort
  simp only [heapBuild_map f less hf _ _ _ s hs]
  exact heapPop_map f less hf _ _ _ ((heapBuild_rel _ _ _ s).1.trans hs)

theorem order2_map (f : T → T) (less : T → T → Bool)
    (hf : ∀ a b, less (f a) (f b) = less a b) (s : Sortable T) (hs : s.LessMethod = less)
    (a b swaps : Nat) : order2 (mapData f s) a b swaps = order2 s a b swaps := by
  unfold order2
  rw [mapData_Less f less hf s hs]

theorem median_map (f : T → T) (less : T → T → Bool)
    (hf : ∀ a b, less (f a) (f b) = less a b) (s : Sortable T) (hs : s.LessMethod = less)
    (a b c swaps : Nat) : median (mapData f s) a b c swaps = median s a b c swaps := by
  unfold median
  simp only [order2_map f less hf s hs]

theorem medianAdjacent_map (f : T → T) (less : T → T → Bool)
    (hf : ∀ a b, less (f a) (f b) = less a b) (s : Sortable T) (hs : s.LessMethod = less)
    (a swaps : Nat) : medianAdjacent (mapData f s) a swaps = medianAdjacent s a swaps :=
  median_map f less hf s hs _ _ _ _

theorem choosePivot_map (f : T → T) (less : T → T → Bool)
    (hf : ∀ a b, less (f a) (f b) = less a b) (s : Sortable T) (hs : s.LessMethod = less)
    (a b : Nat) : choosePivot (mapData f s) a b = choosePivot s a b := by
  unfold choosePivot
  simp only [medianAdjacent_map f less hf s hs, median_map f less hf s hs]

theorem reverseLoop_map (f : T → T) (n i j : Nat) (s : Sortable T) :
    reverseLoop n i j (mapData f s) = mapData f (reverseLoop n i j s) := by
  induction n generalizing i j s with
  | zero => rfl
  | succ n ih =>
    simp only [reverseLoop, mapData_Swap]
    split
    · exact ih _ _ _
    · rfl

theorem reverseRange_map (f : T → T) (s : Sortable T) (a b : Nat) :
    reverseRange (mapData f s) a b = mapData f (reverseRange s a b) := by
  unfold reverseRange
  exact reverseLoop_map f _ _ _ s

theorem breakLoop_map (f : T → T) (a length idx modulus n i random : Nat) (s : Sortable T) :
    breakLoop a length idx modulus n i random (mapData f s)
      = mapData f (breakLoop a length idx modulus n i random s) := by
  induction n generalizing i random s with
  | zero => rfl
  | succ n ih =>
    simp only [breakLoop, mapData_Swap]
    exact ih _ _ _

theorem breakPatterns_map (f : T → T) (s : Sortable T) (a b : Nat) :
    breakPatterns (mapData f s) a b = mapData f (breakPatterns s a b) := by
  unfold breakPatterns
  simp only
  split
  · exact breakLoop_map f _ _ _ _ _ _ _ s
  · rfl

theorem scanLessUp_map (f : T → T) (less : T → T → Bool)
    (hf : ∀ a b, less (f a) (f b) = less a b) (s : Sortable T) (hs : s.LessMethod = less)
    (a j n i : Nat) : scanLessUp (mapData f s) a j n i = scanLessUp s a j n i := by
  induction n generalizing i with
  | zero => rfl
  | succ n ih =>
    simp only [scanLessUp, mapData_Less f less hf s hs]
    split
    · exact ih _
    · rfl

theorem scanGeDown_map (f : T → T) (less : T → T → Bool)
    (hf : ∀ a b, less (f a) (f b) = less a b) (s : Sortable T) (hs : s.LessMethod = less)
    (a i j : Nat) : scanGeDown (mapData f s) a i j = scanGeDown s a i j := by
  induction j with
  | zero => rfl
  | succ j ih =>
    simp only [scanGeDown, mapData_Less f less hf s hs]
    split
    · exact ih
    · rfl

theorem partitionLoop_map (f : T → T) (less : T → T → Bool)
    (hf : ∀ a b, less (f a) (f b) = less a b) (a n i j : Nat) (s : Sortable T)
    (hs : s.LessMethod = less) :
    partitionLoop a n i j (mapData f s)
      = (mapData f (partitionLoop a n i j s).1, (partitionLoop a n i j s).2) := by
  induction n generalizing i j s with
  | zero => rfl
  | succ n ih =>
    simp only [partitionLoop, scanLessUp_map f less hf s hs, scanGeDown_map f less hf s hs,
      mapData_Swap]
    split
    · rfl
    · exact ih _ _ _ ((Swap_LessMethod _ _ _).trans hs)

theorem partition_map (f : T → T) (less : T → T → Bool)
    (hf : ∀ a b, less (f a) (f b) = less a b) (s : Sortable T) (hs : s.LessMethod = less)
    (a b pivot : Nat) :
    partition (mapData f s) a b pivot
      = (mapData f (partition s a b pivot).1, (partition s a b pivot).2) := by
  have h1 : (s.Swap a pivot).LessMethod = less := (Swap_LessMethod _ _ _).trans hs
  unfold partition
  simp only [mapData_Swap, scanLessUp_map f less hf _ h1, scanGeDown_map f less hf _ h1]
  split
  · rfl
  · rw [partitionLoop_map f less hf _ _ _ _ _ ((Swap_LessMethod _ _ _).trans h1)]
    simp only [mapData_Swap]

theorem scanEqUp_map (f : T → T) (less : T → T → Bool)
    (hf : ∀ a b, less (f a) (f b) = less a b) (s : Sortable T) (hs : s.LessMethod = less)
    (a j n i : Nat) : scanEqUp (mapData f s) a j n i = scanEqUp s a j n i := by
  induction n generalizing i with
  | zero => rfl
  | succ n ih =>
    simp only [scanEqUp, mapData_Less f less hf s hs]
    split
    · exact ih _
    · rfl

theorem scanGtDown_map (f : T → T) (less : T → T → Bool)
    (hf : ∀ a b, less (f a) (f b) = less a b) (s : Sortable T) (hs : s.LessMethod = less)
    (a i j : Nat) : scanGtDown (mapData f s) a i j = scanGtDown s a i j := by
  induction j with
  | zero => rfl
  | succ j ih =>
    simp only [scanGtDown, mapData_Less f less hf s hs]
    split
    · exact ih
    · rfl

theorem partitionEqualLoop_map (f : T → T) (less : T → T → Bool)
    (hf : ∀ a b, less (f a) (f b) = less a b) (a n i j : Nat) (s : Sortable T)
    (hs : s.LessMethod = less) :
    partitionEqualLoop a n i j (mapData f s)
      = (mapData f (partitionEqualLoop a n i j s).1, (partitionEqualLoop a n i j s).2) := by
  induction n generalizing i j s with
  | zero => rfl
  | succ n ih =>
    simp only [partitionEqualLoop, scanEqUp_map f less hf s hs, scanGtDown_map f less hf s hs,
      mapData_Swap]
    split
    · rfl
    · exact ih _ _ _ ((Swap_LessMethod _ _ _).trans hs)

theorem partitionEqual_map (f : T → T) (less : T → T → Bool)
    (hf : ∀ a b, less (f a) (f b) = less a b) (s : Sortable T) (hs : s.LessMethod = less)
    (a b pivot : Nat) :
    partitionEqual (mapData f s) a b pivot
      = (mapData f (partitionEqual s a b pivot).1, (partitionEqual s a b pivot).2) := by
  unfold partitionEqual
  simp only [mapData_Swap]
  exact partitionEqualLoop_map f less hf _ _ _ _ _ ((Swap_LessMethod _ _ _).trans hs)

theorem scanSorted_map (f : T → T) (less : T → T → Bool)
    (hf : ∀ a b, less (f a) (f b) = less a b) (s : Sortable T) (hs : s.LessMethod = less)
    (b n i : Nat) : scanSorted (mapData f s) b n i = scanSorted s b n i := by
  induction n generalizing i with
  | zero => rfl
  | succ n ih =>
    simp only [scanSorted, mapData_Less f less hf s hs]
    split
    · exact ih _
    · rfl

theorem shiftLeft_map (f : T → T) (less : T → T → Bool)
    (hf : ∀ a b, less (f a) (f b) = less a b) (j : Nat) (s : Sortable T)
    (hs : s.LessMethod = less) :
    shiftLeft j (mapData f s) = mapData f (shiftLeft j s) := by
  induction j generalizing s with
  | zero => rfl
  | succ j ih =>
    simp only [shiftLeft, mapData_Less f less hf s hs, mapData_Swap]
    split
    · rfl
    · exact ih _ ((Swap_LessMethod _ _ _).trans hs)

theorem shiftRight_map (f : T → T) (less : T → T → Bool)
    (hf : ∀ a b, less (f a) (f b) = less a b) (b n j : Nat) (s : Sortable T)
    (hs : s.LessMethod = less) :
    shiftRight b n j (mapData f s) = mapData f (shiftRight b n j s) := by
  induction n generalizing j s with
  | zero => rfl
  | succ n ih =>
    simp only [shiftRight, mapData_Less f less hf s hs, mapData_Swap]
    split
    · split
      · rfl
      · exact ih _ _ ((Swap_LessMethod _ _ _).trans hs)
    · rfl

theorem partialInsertionLoop_map (f : T → T) (less : T → T → Bool)
    (hf : ∀ a b, less (f a) (f b) = less a b) (a b n i : Nat) (s : Sortable T)
    (hs : s.LessMethod = less) :
    partialInsertionLoop a b n i (mapData f s)
      = (mapData f (partialInsertionLoop a b n i s).1, (partialInsertionLoop a b n i s).2) := by
  induction n generalizing i s with
  | zero => rfl
  | succ n ih =>
    simp only [partialInsertionLoop, scanSorted_map f less hf s hs, mapData_Swap]
    split
    · rfl
    · split
      · rfl
      · generalize scanSorted s b (b - i) i = k
        have h1 : (s.Swap k (k - 1)).LessMethod = less := (Swap_LessMethod _ _ _).trans hs
        have e2 : (if 2 ≤ k - a then shiftLeft (k - 1) (mapData f (s.Swap k (k - 1)))
              else mapData f (s.Swap k (k - 1)))
            = mapData f (if 2 ≤ k - a then shiftLeft (k - 1) (s.Swap k (k - 1))
              else s.Swap k (k - 1)) := by
          split
          · exact shiftLeft_map f less hf _ _ h1
          · rfl
        have h2 : (if 2 ≤ k - a then shiftLeft (k - 1) (s.Swap k (k - 1))
              else s.Swap k (k - 1)).LessMethod = less := by
          split
          · exact (shiftLeft_rel _ _).1.trans h1
          · exact h1
        rw [e2]
        generalize (if 2 ≤ k - a then shiftLeft (k - 1) (s.Swap k (k - 1))
              else s.Swap k (k - 1)) = s2 at h2 ⊢
        have e3 : (if 2 ≤ b - k then shiftRight b (b - (k + 1)) (k + 1) (mapData f s2)
              else mapData f s2)
            = mapData f (if 2 ≤ b - k then shiftRight b (b - (k + 1)) (k + 1) s2 else s2) := by
          split
          · exact shiftRight_map f less hf _ _ _ _ h2
          · rfl
        have h3 : (if 2 ≤ b - k then shiftRight b (b - (k + 1)) (k + 1) s2
              else s2).LessMethod = less := by
          split
          · exact (shiftRight_rel _ _ _ _).1.trans h2
          · exact h2
        rw [e3]
        exact ih _ _ h3

theorem partialInsertionSort_map (f : T → T) (less : T → T → Bool)
    (hf : ∀ a b, less (f a) (f b) = less a b) (s : Sortable T) (hs : s.LessMethod = less)
    (a b : Nat) :
    partialInsertionSort (mapData f s) a b
      = (mapData f (partialInsertionSort s a b).1, (partialInsertionSort s a b).2) :=
  partialInsertionLoop_map f less hf _ _ _ _ s hs

theorem pdqsortPrepare_map (f : T → T) (less : T → T → Bool)
    (hf : ∀ a b, less (f a) (f b) = less a b) (s : Sortable T) (hs : s.LessMethod = less)
    (a b limit : Nat) (wb wp : Bool) :
    pdqsortPrepare (mapData f s) a b limit wb wp
      = { data := mapData f (pdqsortPrepare s a b limit wb wp).data,
          limit := (pdqsortPrepare s a b limit wb wp).limit,
          pivot := (pdqsortPrepare s a b limit wb wp).pivot,
          sorted := (pdqsortPrepare s a b limit wb wp).sorted } := by
  have e1 : (if (!wb) = true then breakPatterns (mapData f s) a b else mapData f s)
      = mapData f (if (!wb) = true then breakPatterns s a b else s) := by
    split
    · exact breakPatterns_map f s a b
    · rfl
  have h1 : (if (!wb) = true then breakPatterns s a b else s).LessMethod = less := by
    split
    · exact (breakPatterns_rel s a b).1.trans hs
    · exact hs
  unfold pdqsortPrepare
  simp only [e1]
  generalize (if (!wb) = true then breakPatterns s a b else s) = s1 at h1 ⊢
  simp only [choosePivot_map f less hf s1 h1]
  generalize choosePivot s1 a b = ph
  have e2 : (if decide (ph.2 = sortedHint.decreasingHint) = true
        then reverseRange (mapData f s1) a b else mapData f s1)
      = mapData f (if decide (ph.2 = sortedHint.decreasingHint) = true
        then reverseRange s1 a b else s1) := by
    split
    · exact reverseRange_map f s1 a b
    · rfl
  have h2 : (if decide (ph.2 = sortedHint.decreasingHint) = true
        then reverseRange s1 a b else s1).LessMethod = less := by
    split
    · exact (reverseRange_rel s1 a b).1.trans h1
    · exact h1
  simp only [e2]
  generalize (if decide (ph.2 = sortedHint.decreasingHint) = true
        then reverseRange s1 a b else s1) = s2 at h2 ⊢
  have e3 : ∀ c : Bool,
      (if c = true then partialInsertionSort (mapData f s2) a b else (mapData f s2, false))
        = (mapData f (if c = true then partialInsertionSort s2 a b else (s2, false)).1,
            (if c = true then partialInsertionSort s2 a b else (s2, false)).2) := by
    intro c
    cases c
    · rfl
    · simp only [if_true]
      exact partialInsertionSort_map f less hf s2 h2 a b
  simp only [e3]

theorem pdqsort_map (f : T → T) (less : T → T → Bool)
    (hf : ∀ a b, less (f a) (f b) = less a b) (fuel : Nat) (s : Sortable T)
    (hs : s.LessMethod = less) (a b limit : Nat) (wb wp : Bool) :
    pdqsort fuel (mapData f s) a b limit wb wp = mapData f (pdqsort fuel s a b limit wb wp) := by
  induction fuel generalizing s a b limit wb wp with
  | zero => rfl
  | succ fuel ih =>
    have hp : (pdqsortPrepare s a b limit wb wp).data.LessMethod = less :=
      (pdqsortPrepare_rel s a b limit wb wp).1.trans hs
    simp only [pdqsort, insertionSort_map f less hf s hs, heapSort_map f less hf s hs,
      pdqsortPrepare_map f less hf s hs, mapData_Less f less hf _ hp,
      partitionEqual_map f less hf _ hp, partition_map f less hf _ hp]
    split
    · rfl
    · split
      · rfl
      · split
        · rfl
        · split
          · exact ih _ ((partitionEqual_rel _ _ _ _).1.trans hp) _ _ _ _ _
          · have hq := (partition_rel (pdqsortPrepare s a b limit wb wp).data a b
              (pdqsortPrepare s a b limit wb wp).pivot).1.trans hp
            split
            · rw [ih _ hq]
              exact ih _ ((pdqsort_rel _ _ _ _ _ _ _).1.trans hq) _ _ _ _ _
            · rw [ih _ hq]
              exact ih _ ((pdqsort_rel _ _ _ _ _ _ _).1.trans hq) _ _ _ _ _

theorem sort_Sort_map (f : T → T) (less : T → T → Bool)
    (hf : ∀ a b, less (f a) (f b) = less a b) (s : Sortable T) (hs : s.LessMethod = less) :
    sort_Sort (mapData f s) = mapData f (sort_Sort s) := by
  unfold sort_Sort
  simp only [Len, mapData_Data, List.length_map]
  split
  · rfl
  · exact pdqsort_map f less hf _ s hs _ _ _ _ _

end GoSort

theorem SortAny_map {T : Type} (f : T → T) (less : T → T → Bool)
    (hf : ∀ a b, less (f a) (f b) = less a b) (data : List T) :
    SortAny (data.map f) less = (SortAny data less).map f := by
  unfold SortAny
  exact congrArg Sortable.Data
    (GoSort.sort_Sort_map f less hf { Data := data, LessMethod := less } rfl)

/-! ## Sorting a filtered list and filtering the sorted list -/

theorem SortAny_pairwise (data : List Object) :
    (SortAny data sortObjs).Pairwise (fun a b => Object.depthKey a ≤ Object.depthKey b) := by
  rw [List.pairwise_iff_getElem]
  intro i j hi hj hij
  have hlen : (SortAny data sortObjs).length = data.length :=
    (SortAny_perm data sortObjs).length_eq
  have h := SortAny_sortedOn data (SortAny data sortObjs)[i] i j (Nat.zero_le _) hij
    (by omega)
  simp only [Sortable.keyAt, List.getD_eq_getElem?_getD] at h
  change Object.depthKey ((SortAny data sortObjs)[i]?.getD _)
    ≤ Object.depthKey ((SortAny data sortObjs)[j]?.getD _) at h
  rw [List.getElem?_eq_getElem hi, List.getElem?_eq_getElem hj] at h
  exact h

theorem SortAny_small_keys (objs : List Object) (hlen : objs.length ≤ 12)
    (c : Lex (ℚ × ℚ)) :
    (SortAny objs sortObjs).filter (fun o => decide (Object.depthKey o = c))
      = objs.filter (fun o => decide (Object.depthKey o = c)) := by
  have hst : Sortable.SameOrderWithinKeys Object.depthKey
      { Data := objs, LessMethod := sortObjs }
      (GoSort.sort_Sort { Data := objs, LessMethod := sortObjs }) := by
    rcases sort_Sort_small { Data := objs, LessMethod := sortObjs } hlen with h | h
    · rw [h]; exact Sortable.SameOrderWithinKeys.keys_refl _
    · rw [h]; exact GoSort.insertionSort_stable _ _ _ (sortObjs_orderedBy objs)
  exact hst c

/-- Two lists in ascending order of their keys that hold, for every key, the same elements of
that key in the same order, are equal. -/
theorem eq_of_sorted_of_keys {T κ : Type} [LinearOrder κ] (K : T → κ) (l1 l2 : List T)
    (h1 : l1.Pairwise (fun a b => K a ≤ K b)) (h2 : l2.Pairwise (fun a b => K a ≤ K b))
    (h : ∀ c, l1.filter (fun x => decide (K x = c)) = l2.filter (fun x => decide (K x = c))) :
    l1 = l2 := by
  induction l1 generalizing l2 with
  | nil =>
    cases l2 with
    | nil => rfl
    | cons y t2 =>
      have := h (K y)
      simp at this
  | cons x t1 ih =>
    cases l2 with
    | nil =>
      have := h (K x)
      simp at this
    | cons y t2 =>
      have hxy : K x ≤ K y := by
        have hy : y ∈ (y :: t2).filter (fun z => decide (K z = K y)) := by simp
        rw [← h (K y)] at hy
        have hy' := (List.mem_filter.mp hy).1
        rcases List.mem_cons.mp hy' with e | e
        · rw [e]
        · exact (List.pairwise_cons.mp h1).1 y e
      have hyx : K y ≤ K x := by
        have hx : x ∈ (x :: t1).filter (fun z => decide (K z = K x)) := by simp
        rw [h (K x)] at hx
        have hx' := (List.mem_filter.mp hx).1
        rcases List.mem_cons.mp hx' with e | e
        · rw [e]
        · exact (List.pairwise_cons.mp h2).1 x e
      have hk : K y = K x := le_antisymm hyx hxy
      have hx := h (K x)
      rw [List.filter_cons_of_pos (by simp), List.filter_cons_of_pos (by simp [hk])] at hx
      have hhead : x = y := (List.cons.inj hx).1
      have htail := (List.cons.inj hx).2
      subst hhead
      congr 1
      apply ih t2 (List.pairwise_cons.mp h1).2 (List.pairwise_cons.mp h2).2
      intro c
      by_cases hc : K x = c
      · subst hc; exact htail
      · have := h c
        rw [List.filter_cons_of_neg (by simp [hc]), List.filter_cons_of_neg (by simp [hc])]
          at this
        exact this

theorem SortAny_filter_small (objs : List Object) (p : Object → Bool)
    (hlen : objs.length ≤ 12) :
    (SortAny objs sortObjs).filter p = SortAny (objs.filter p) sortObjs := by
  apply eq_of_sorted_of_keys Object.depthKey
  · exact (SortAny_pairwise objs).filter p
  · exact SortAny_pairwise _
  · intro c
    have hlen' : (objs.filter p).length ≤ 12 := le_trans (List.length_filter_le _ _) hlen
    rw [SortAny_small_keys _ hlen' c, List.filter_comm, SortAny_small_keys _ hlen c,
      List.filter_comm]

theorem renderOneObjectUpperTile_skip (env : Env) (layer : ObjectGroup) :
    (fun (r : Renderer) (o : Object) => renderOneObjectUpperTile env r layer o)
      = fun r o =>
          if !(fun o : Object => o.Visible) o then (r, none)
          else renderOneObjectUpperTile env r layer o := by
  funext r o
  cases hv : o.Visible with
  | false => simp [renderOneObjectUpperTile, hv]
  | true => simp [hv]

theorem _renderObjectGroup_visible (env : Env) (r : Renderer) (og : ObjectGroup) :
    (_renderObjectGroup env r og).2
      = forEach (fun s obj => renderOneObjectUpperTile env s (_renderObjectGroup env r og).1 obj)
          ((SortAny og.Objects sortObjs).filter (fun o => o.Visible)) r := by
  rw [← forEach_filter (fun o : Object => o.Visible)
    (fun s obj => renderOneObjectUpperTile env s (_renderObjectGroup env r og).1 obj)
    (SortAny og.Objects sortObjs) r]
  exact congrArg (fun g => forEach g (SortAny og.Objects sortObjs) r)
    (renderOneObjectUpperTile_skip env (_renderObjectGroup env r og).1)

theorem sortObjs_congr (f : Object → Object) (hf : ∀ o, (f o).X = o.X ∧ (f o).Y = o.Y)
    (a b : Object) : sortObjs (f a) (f b) = sortObjs a b := by
  unfold sortObjs
  rw [(hf a).1, (hf a).2, (hf b).1, (hf b).2]

/-! ## The claim on invisible objects and the depth sort -/

/-- C11, counterexample: of the thirteen objects, twelve at `(5, 10)` (IDs 0 to 11) and an
invisible last one at `(5, 0)`, the visible ones are composited in the order
`6, 2, 3, 4, 5, 0, 7, 8, 9, 10, 11, 1` of the sorted layer, while sorting the sub-list of visible
objects gives `0, 1, ..., 11`. -/
theorem filter_after_sort_differs :
    ((SortAny thirteenObjectsLastHidden sortObjs).filter (fun o => o.Visible)).map (fun o => o.ID)
        = [6, 2, 3, 4, 5, 0, 7, 8, 9, 10, 11, 1]
      ∧ (SortAny (thirteenObjectsLastHidden.filter (fun o => o.Visible)) sortObjs).map
          (fun o => o.ID) = [0, 1, 2, 3, 4, 5, 6, 7, 8, 9, 10, 11]
      ∧ (SortAny thirteenObjectsLastHidden sortObjs).filter (fun o => o.Visible)
        ≠ SortAny (thirteenObjectsLastHidden.filter (fun o => o.Visible)) sortObjs := by
  refine ⟨by decide, by decide, ?_⟩
  intro h
  have := congrArg (fun l => l.map (fun o : Object => o.ID)) h
  revert this
  decide

/-- C11, amended: `_renderObjectGroup` sorts all the objects of the layer and then composites
the visible ones in the order of the sorted layer, up to the first error; the sort does not look
at `Visible`, so a change of the objects that keeps `X` and `Y` (such as a change of `Visible`
flags) leaves every object at its place in the sorted layer; and for a layer of at most 12
objects the visible objects of the sorted layer are the sorted sub-list of visible objects. -/
theorem visible_objects_in_sorted_order (env : Env) (r : Renderer) (og : ObjectGroup) :
    (_renderObjectGroup env r og).2
        = forEach
            (fun s obj => renderOneObjectUpperTile env s (_renderObjectGroup env r og).1 obj)
            ((SortAny og.Objects sortObjs).filter (fun o => o.Visible)) r
      ∧ (∀ f : Object → Object, (∀ o, (f o).X = o.X ∧ (f o).Y = o.Y) →
          SortAny (og.Objects.map f) sortObjs = (SortAny og.Objects sortObjs).map f)
      ∧ (og.Objects.length ≤ 12 →
          (SortAny og.Objects sortObjs).filter (fun o => o.Visible)
            = SortAny (og.Objects.filter (fun o => o.Visible)) sortObjs) :=
  ⟨_renderObjectGroup_visible env r og,
    fun f hf => SortAny_map f sortObjs (sortObjs_congr f hf) og.Objects,
    fun hlen => SortAny_filter_small og.Objects _ hlen⟩

/-- Witness for C11, amended: thirteen objects stay in the same sorted order when the last one
is hidden, and of three objects with the middle one hidden the two visible ones are composited
in sorted order. -/
theorem visible_objects_in_sorted_order_witness :
    SortAny thirteenObjectsLastHidden sortObjs
        = (SortAny thirteenObjects sortObjs).map
            (fun o => if o.ID = 12 then { o with Visible := false } else o)
      ∧ (SortAny [mkObject 1 1 5 10 16 16, { mkObject 2 1 0 10 16 16 with Visible := false },
            mkObject 3 1 7 2 16 16] sortObjs).filter (fun o => o.Visible)
        = [mkObject 3 1 7 2 16 16, mkObject 1 1 5 10 16 16] := by
  refine ⟨?_, ?_⟩
  · exact (visible_objects_in_sorted_order demoEnv (demoRenderer [] [])
      (demoLayer thirteenObjects)).2.1
      (fun o => if o.ID = 12 then { o with Visible := false } else o)
      (fun o => by dsimp only; split <;> exact ⟨rfl, rfl⟩)
  · exact ((visible_objects_in_sorted_order demoEnv (demoRenderer [] [])
      (demoLayer [mkObject 1 1 5 10 16 16, { mkObject 2 1 0 10 16 16 with Visible := false },
            mkObject 3 1 7 2 16 16])).2.2 (by decide)).trans (by decide)

/-! ## What a draw changes, pixel by pixel -/

namespace Rectangle

theorem Contains_Intersect_eq (r s : Rectangle) (x y : Int) :
    (r.Intersect s).Contains x y = (r.Contains x y && s.Contains x y) := by
  rw [Intersect_eq, Bool.eq_iff_iff]
  split
  · simp only [Contains, Bool.and_eq_true, decide_eq_true_eq]
    constructor
    · intro h; omega
    · intro h; omega
  · simp only [Contains, ZR, Pt, Bool.and_eq_true, decide_eq_true_eq]
    constructor
    · intro h; omega
    · intro h; omega

theorem Contains_of_Empty {r : Rectangle} (h : r.Empty = true) (x y : Int) :
    r.Contains x y = false := by
  simp only [Empty, Bool.or_eq_true, decide_eq_true_eq] at h
  rw [Bool.eq_false_iff]
  intro hc
  simp only [Contains, Bool.and_eq_true, decide_eq_true_eq] at hc
  omega

end Rectangle

theorem clip_Contains_eq (dst : Canvas) (r : Rectangle) (src : Image) (sp : Point)
    (mask : Option Uniform) (mp : Point) (x y : Int) :
    (clip dst r src sp mask mp).1.Contains x y
      = (r.Contains x y && dst.Bounds.Contains x y
          && (src.Bounds.Add (r.Min.Sub sp)).Contains x y
          && (match mask with
              | some m => (m.Bounds.Add (r.Min.Sub mp)).Contains x y
              | none => true)) := by
  unfold clip
  cases mask with
  | none =>
    simp only [Bool.and_true]
    split <;> simp only [Rectangle.Contains_Intersect_eq]
  | some m =>
    simp only
    split <;> simp only [Rectangle.Contains_Intersect_eq]

theorem clip_sp (dst : Canvas) (r : Rectangle) (src : Image) (sp : Point)
    (mask : Option Uniform) (mp : Point) :
    (clip dst r src sp mask mp).2.1
      = { X := sp.X + ((clip dst r src sp mask mp).1.Min.X - r.Min.X),
          Y := sp.Y + ((clip dst r src sp mask mp).1.Min.Y - r.Min.Y) } := by
  unfold clip
  simp only
  split
  · rename_i h
    cases sp
    simp only [Point.mk.injEq]
    omega
  · rfl

/-- The canvas after `DrawMask`, pixel by pixel: the pixels of the clipped rectangle are composed
with the source pixel that lies as far from `sp` as they lie from the corner of `r`. -/
theorem DrawMask_Pix (dst : Canvas) (r : Rectangle) (src : Image) (sp : Point)
    (mask : Option Uniform) (mp : Point) (x y : Int) :
    (DrawMask dst r src sp mask mp).Pix x y
      = if (clip dst r src sp mask mp).1.Contains x y = true
            ∧ (match mask with
               | some m => m.Alpha16
               | none => 0xffff) ≠ 0 then
          overPixel (src.At (sp.X + (x - r.Min.X)) (sp.Y + (y - r.Min.Y))) (dst.Pix x y)
            (match mask with
             | some m => m.Alpha16
             | none => 0xffff)
        else dst.Pix x y := by
  have hsp := clip_sp dst r src sp mask mp
  have ex : (clip dst r src sp mask mp).2.1.X + (x - (clip dst r src sp mask mp).1.Min.X)
      = sp.X + (x - r.Min.X) := by
    rw [hsp]; simp only; omega
  have ey : (clip dst r src sp mask mp).2.1.Y + (y - (clip dst r src sp mask mp).1.Min.Y)
      = sp.Y + (y - r.Min.Y) := by
    rw [hsp]; simp only; omega
  unfold DrawMask
  simp only [ex, ey]
  by_cases he : (clip dst r src sp mask mp).1.Empty = true
  · rw [if_pos he, Rectangle.Contains_of_Empty he]
    simp
  · rw [if_neg he]
    simp only
    by_cases hc : (clip dst r src sp mask mp).1.Contains x y = true
    · rw [if_pos hc]
      cases mask with
      | none =>
        simp only [hc, true_and, ne_eq, OfNat.ofNat_ne_zero, not_false_eq_true, if_true,
          if_false]
        rw [ex, ey]
      | some m =>
        simp only [hc, true_and]
        by_cases ha : m.Alpha16 = 0
        · simp only [ha, if_true, ne_eq, not_true_eq_false, if_false]
        · simp only [ha, if_false, ne_eq, not_false_eq_true, if_true]
          rw [ex, ey]
    · rw [if_neg hc]
      simp only [hc, Bool.false_eq_true, if_false, false_and]

/-- The canvas after `composite`, pixel by pixel: the canvas pixel `(x, y)` receives the sprite
pixel `(x - pos.Min.X, y - pos.Min.Y)` when it lies in `pos` and in the canvas and that sprite
pixel exists (and, under a mask, lies within the extent of the mask). -/
theorem composite_Pix (layer : ObjectGroup) (dst : Canvas) (pos : Rectangle) (img : Image)
    (x y : Int) :
    (composite layer dst pos img).Pix x y
      = if pos.Contains x y = true ∧ dst.Bounds.Contains x y = true
            ∧ img.Bounds.Contains (x - pos.Min.X) (y - pos.Min.Y) = true
            ∧ (layer.Opacity < 1 →
                x - pos.Min.X < 2000000000 ∧ y - pos.Min.Y < 2000000000)
            ∧ maskAlpha16 layer ≠ 0 then
          overPixel (img.At (x - pos.Min.X) (y - pos.Min.Y)) (dst.Pix x y) (maskAlpha16 layer)
        else dst.Pix x y := by
  have hsrc' : pos.Contains x y = true →
      ((img.Bounds.Add (pos.Min.Sub img.Bounds.Min)).Contains x y = true
        ↔ img.Bounds.Contains (x - pos.Min.X) (y - pos.Min.Y) = true) := by
    intro _
    simp only [Rectangle.Contains, Rectangle.Add, Image.Bounds, Pt, Point.Sub,
      Bool.and_eq_true, decide_eq_true_eq]
    constructor
    · intro h; omega
    · intro h; omega
  have hmask : ∀ m : Uniform, pos.Contains x y = true →
      ((m.Bounds.Add (pos.Min.Sub m.Bounds.Min)).Contains x y = true
        ↔ (x - pos.Min.X < 2000000000 ∧ y - pos.Min.Y < 2000000000)) := by
    intro m hp
    simp only [Rectangle.Contains, Rectangle.Add, Uniform.Bounds, Pt, Point.Sub,
      Bool.and_eq_true, decide_eq_true_eq] at hp ⊢
    constructor
    · intro h; omega
    · intro h; omega
  have h00 : img.Bounds.Min = Pt 0 0 := rfl
  unfold composite Draw maskAlpha16
  by_cases hop : layer.Opacity < 1
  · simp only [hop, if_true, true_implies]
    rw [DrawMask_Pix, clip_Contains_eq]
    simp only [h00, Pt, zero_add]
    by_cases hp : pos.Contains x y = true
    · have e1 := hsrc' hp
      have e2 := hmask (layerMask layer) hp
      simp only [h00, Pt] at e1
      simp only [hp, Bool.true_and, Bool.and_eq_true, e1, e2, true_and]
      congr 1
      exact propext ⟨fun h => ⟨h.1.1.1, h.1.1.2, h.1.2, h.2⟩,
        fun h => ⟨⟨⟨h.1, h.2.1⟩, h.2.2.1⟩, h.2.2.2⟩⟩
    · simp only [hp, Bool.false_and, Bool.false_eq_true, false_and, if_false]
  · simp only [hop, if_false, false_implies, true_and]
    rw [DrawMask_Pix, clip_Contains_eq]
    simp only [h00, Pt, zero_add, Bool.and_true]
    by_cases hp : pos.Contains x y = true
    · have e1 := hsrc' hp
      simp only [h00, Pt] at e1
      simp only [hp, Bool.true_and, Bool.and_eq_true, e1, true_and]
      congr 1
      exact propext ⟨fun h => ⟨h.1.1, h.1.2, h.2⟩, fun h => ⟨⟨h.1, h.2.1⟩, h.2.2⟩⟩
    · simp only [hp, Bool.false_and, Bool.false_eq_true, false_and, if_false]

/-! ## The claims -/

/-- C3: for a visible object with a resolvable tile and rotation 0 on a map of tile height
`T > 0`, `renderOneObjectUpperTile` returns `nil` and composites the transformed sprite into the
rectangle whose top-left corner is `(int(x), int(y - h))` and whose height is `int(upperHeight)`
for `upperHeight = floor(y / T) * T - (y - h)`, each operation computed in `float64` as the code
does.  The canvas pixel `(x', y')` receives the sprite pixel `(x' - int(x), y' - int(y - h))`
exactly when that sprite pixel exists, lies in one of the top `int(upperHeight)` rows of the
sprite and is met by the canvas (and by the extent of the mask); every other canvas pixel,
those outside the rectangle among them, is left as it was. -/
theorem upperTile_destination (env : Env) (r : Renderer) (layer : ObjectGroup) (o : Object)
    (tile : LayerTile) (img : Image) (hvis : o.Visible = true) (hgid : o.GID ≠ 0)
    (htile : env.TileGIDToTile o.GID = .ok tile) (himg : env.GetTileImage tile = .ok img)
    (_hrot : o.Rotation = 0) (_hT : 0 < r.m.TileHeight) :
    renderOneObjectUpperTile env r layer o
        = (⟨r.m, composite layer r.Result
              (upperPos r.m.TileHeight o (transform env o img)) (transform env o img)⟩, none)
      ∧ (upperPos r.m.TileHeight o (transform env o img)).Min
          = Pt (toInt o.X) (F64.toInt (F64.sub (some o.Y) (some o.Height)))
      ∧ (upperPos r.m.TileHeight o (transform env o img)).Dy
          = F64.toInt (upperHeight r.m.TileHeight o)
      ∧ upperHeight r.m.TileHeight o
          = F64.sub
              (F64.mul
                (F64.floor ((F64.ofInt r.m.TileHeight).bind (F64.div o.Y)))
                (F64.ofInt r.m.TileHeight))
              (F64.sub (some o.Y) (some o.Height))
      ∧ (∀ x y : Int, (upperPos r.m.TileHeight o (transform env o img)).Contains x y = false →
          (renderOneObjectUpperTile env r layer o).1.Result.Pix x y = r.Result.Pix x y)
      ∧ ∀ x y : Int,
          (renderOneObjectUpperTile env r layer o).1.Result.Pix x y
            = if (transform env o img).Bounds.Contains (x - toInt o.X)
                    (y - F64.toInt (leftTop o)) = true
                  ∧ y - F64.toInt (leftTop o) < F64.toInt (upperHeight r.m.TileHeight o)
                  ∧ r.Result.Bounds.Contains x y = true
                  ∧ (layer.Opacity < 1 →
                      x - toInt o.X < 2000000000
                        ∧ y - F64.toInt (leftTop o) < 2000000000)
                  ∧ maskAlpha16 layer ≠ 0 then
                overPixel
                  ((transform env o img).At (x - toInt o.X) (y - F64.toInt (leftTop o)))
                  (r.Result.Pix x y) (maskAlpha16 layer)
              else r.Result.Pix x y := by
  have h := renderOneObjectUpperTile_resolved env r layer o tile img hvis hgid htile himg
  refine ⟨h, upperPos_Min _ _ _, upperPos_Dy _ _ _, rfl, ?_, ?_⟩
  · intro x y hxy
    rw [h]
    exact composite_outside _ _ _ _ _ _ hxy
  · intro x y
    rw [h]
    simp only
    rw [composite_Pix]
    have hmin := upperPos_Min r.m.TileHeight o (transform env o img)
    have hX : (upperPos r.m.TileHeight o (transform env o img)).Min.X = toInt o.X := by
      rw [hmin]; rfl
    have hY : (upperPos r.m.TileHeight o (transform env o img)).Min.Y
        = F64.toInt (leftTop o) := by
      rw [hmin]; rfl
    rw [hX, hY]
    have hcont : ((upperPos r.m.TileHeight o (transform env o img)).Contains x y = true
          ∧ (transform env o img).Bounds.Contains (x - toInt o.X)
              (y - F64.toInt (leftTop o)) = true)
        ↔ ((transform env o img).Bounds.Contains (x - toInt o.X)
              (y - F64.toInt (leftTop o)) = true
          ∧ y - F64.toInt (leftTop o) < F64.toInt (upperHeight r.m.TileHeight o)) := by
      simp only [upperPos, Rectangle.Contains, Rectangle.Add, Image.Bounds, Pt,
        Bool.and_eq_true, decide_eq_true_eq]
      constructor
      · intro hh; omega
      · intro hh; omega
    congr 1
    apply propext
    constructor
    · intro hh
      have := hcont.mp ⟨hh.1, hh.2.2.1⟩
      exact ⟨this.1, this.2, hh.2.1, hh.2.2.2⟩
    · intro hh
      have := hcont.mpr ⟨hh.1, hh.2.1⟩
      exact ⟨this.1, hh.2.2.1, this.2, hh.2.2.2⟩

/-- Witness for C3 (the spec's scenario): `x = 0`, `y = 40`, `h = 32`, `T = 16` gives the
rectangle with top-left corner `(0, 8)` and height 24: the rows 8 to 31 of the canvas column 0
turn red, the rows 7 and 32 stay transparent.  The `float64` values nearest to `y = 100.3` and
`h = 20.3` give the corner row `int(y - h) = 80`, the difference being rounded to 80, and those
nearest to `y = 1079.2` and `h = 172.2` give the height 165. -/
theorem upperTile_destination_witness :
    (upperPos 16 (mkObject 1 1 0 40 16 32) (transform demoEnv (mkObject 1 1 0 40 16 32)
        (redSprite 16 16))).Min = Pt 0 8
      ∧ (upperPos 16 (mkObject 1 1 0 40 16 32) (transform demoEnv (mkObject 1 1 0 40 16 32)
        (redSprite 16 16))).Dy = 24
      ∧ (renderOneObjectUpperTile demoEnv (demoRenderer [] []) (demoLayer [])
          (mkObject 1 1 0 40 16 32)).1.Result.Pix 0 7 = { R := 0, G := 0, B := 0, A := 0 }
      ∧ (renderOneObjectUpperTile demoEnv (demoRenderer [] []) (demoLayer [])
          (mkObject 1 1 0 40 16 32)).1.Result.Pix 0 8 = { R := 255, G := 0, B := 0, A := 255 }
      ∧ (renderOneObjectUpperTile demoEnv (demoRenderer [] []) (demoLayer [])
          (mkObject 1 1 0 40 16 32)).1.Result.Pix 0 31 = { R := 255, G := 0, B := 0, A := 255 }
      ∧ (renderOneObjectUpperTile demoEnv (demoRenderer [] []) (demoLayer [])
          (mkObject 1 1 0 40 16 32)).1.Result.Pix 0 32 = { R := 0, G := 0, B := 0, A := 0 }
      ∧ (upperPos 16
          (mkObject 1 1 0 (7057985041019699 / 70368744177664) 16
            (5713942027226317 / 281474976710656))
          (redSprite 16 16)).Min = Pt 0 80
      ∧ (upperPos 16
          (mkObject 1 1 0 (4746371794783437 / 4398046511104) 16
            (3029374436848435 / 17592186044416))
          (redSprite 16 16)).Dy = 165 := by
  have h := upperTile_destination demoEnv (demoRenderer [] []) (demoLayer [])
    (mkObject 1 1 0 40 16 32) { ID := 0 } (redSprite 16 16) rfl (by decide) rfl rfl rfl
    (by decide)
  refine ⟨h.2.1.trans ?_, h.2.2.1.trans ?_, ?_, ?_, ?_, ?_, ?_, ?_⟩
  · decide!
  · decide!
  · decide!
  · decide!
  · decide!
  · decide!
  · decide!
  · decide!

/-- C5: on a map of tile height `T > 0`, for an object with a resolved sprite (any rotation, any
layer opacity), `renderOneObjectUpperTile` returns `nil` and leaves the renderer, canvas
included, as it was whenever the upper band `upperHeight`, as the code computes it in
`float64`, is at most 0; and so it does whenever the band of exact arithmetic
`upperBandHeight = floor(y / T) * T - (y - h)` is at most 0, `T`, `|y|` and `|h|` are below
`2 ^ 51` and `y` has at most 53 significant bits and at most 1022 binary places (as every
`float64` value that is 0 or at least `2 ^ -970` in magnitude has). -/
theorem upperTile_clip_empty (env : Env) (r : Renderer) (layer : ObjectGroup) (o : Object)
    (tile : LayerTile) (img : Image)
    (htile : env.TileGIDToTile o.GID = .ok tile) (himg : env.GetTileImage tile = .ok img)
    (hT : 0 < r.m.TileHeight) :
    (∀ ub : ℚ, upperHeight r.m.TileHeight o = some ub → ub ≤ 0 →
        renderOneObjectUpperTile env r layer o = (r, none))
      ∧ ((∃ (z : Int) (w : Nat), o.Y = (z : ℚ) / 2 ^ w ∧ |(z : ℚ)| < 2 ^ 53 ∧ w ≤ 1022) →
          (r.m.TileHeight : ℚ) < 2 ^ 51 → |o.Y| < 2 ^ 51 → |o.Height| < 2 ^ 51 →
          upperBandHeight r.m.TileHeight o.Y o.Height ≤ 0 →
          renderOneObjectUpperTile env r layer o = (r, none)) := by
  have key : ∀ ub : ℚ, upperHeight r.m.TileHeight o = some ub → ub ≤ 0 →
      renderOneObjectUpperTile env r layer o = (r, none) := by
    intro ub hub hband
    have hconv : F64.toInt (upperHeight r.m.TileHeight o) ≤ 0 :=
      F64.toInt_nonpos_of_finite (fun q hq => by rw [hub] at hq; cases hq; exact hband)
    by_cases hvis : o.Visible = true
    · by_cases hgid : o.GID = 0
      · simp [renderOneObjectUpperTile, hgid]
      · rw [renderOneObjectUpperTile_resolved env r layer o tile img hvis hgid htile himg,
          composite_of_Empty _ _ _ (upperPos_Empty _ _ _ hconv)]
    · simp [renderOneObjectUpperTile, hvis]
  refine ⟨key, ?_⟩
  rintro ⟨z, w, hyz, hz, hw⟩ hT2 hy hh hband
  obtain ⟨ub, hub, hle⟩ :=
    upperHeight_nonpos r.m.TileHeight o z w hyz hz hw hT hT2 hy hh hband
  exact key ub hub hle

/-- Witness for C5: a 16 by 8 object standing on `y = 40` in a grid of tile height 16 has an
upper band of 0 rows and is not drawn by the upper pass. -/
theorem upperTile_clip_empty_witness :
    upperBandHeight 16 40 8 = 0
      ∧ renderOneObjectUpperTile demoEnv (demoRenderer [] []) (demoLayer [])
          (mkObject 1 1 0 40 16 8)
        = (demoRenderer [] [], none) :=
  ⟨by decide!,
    (upperTile_clip_empty demoEnv (demoRenderer [] []) (demoLayer []) (mkObject 1 1 0 40 16 8)
      { ID := 0 } (redSprite 16 16) rfl rfl (by decide)).2
      ⟨40, 0, by simp only [mkObject]; norm_num, by norm_num, by norm_num⟩
      (by simp only [demoRenderer]; norm_num) (by simp only [mkObject]; norm_num)
      (by simp only [mkObject]; norm_num) (by decide!)⟩

/-- C8: an object with `Visible == false` or `GID == 0` makes both render methods return `nil`
with the renderer (canvas included) unchanged, whatever the lookups of the environment would
answer and whatever the other fields of the object are. -/
theorem skipped_object_noop (env : Env) (r : Renderer) (layer : ObjectGroup) (o : Object)
    (h : o.Visible = false ∨ o.GID = 0) :
    renderOneObjectUpperTile env r layer o = (r, none)
      ∧ renderOneObject env r layer o = (r, none) := by
  rcases h with h | h
  · simp [renderOneObjectUpperTile, renderOneObject, h]
  · simp [renderOneObjectUpperTile, renderOneObject, h]

/-- Witness for C8: an invisible object with an invalid GID is skipped without an error. -/
theorem skipped_object_noop_witness :
    renderOneObjectUpperTile demoEnv (demoRenderer [] []) (demoLayer [])
        { mkObject 1 9 0 40 16 32 with Visible := false } = (demoRenderer [] [], none)
      ∧ renderOneObject demoEnv (demoRenderer [] []) (demoLayer [])
        { mkObject 1 9 0 40 16 32 with Visible := false } = (demoRenderer [] [], none) :=
  skipped_object_noop demoEnv (demoRenderer [] []) (demoLayer [])
    { mkObject 1 9 0 40 16 32 with Visible := false } (Or.inl rfl)

/-- C9, counterexample: at opacity 1/8 the mask value is 31, while `round(255 / 8)`, the integer
nearest to 31.875, is 32. -/
theorem mask_not_rounded :
    (0 : ℚ) ≤ 1 / 8 ∧ (1 / 8 : ℚ) < 1
      ∧ (layerMask { Visible := true, Opacity := 1 / 8, Objects := [] }).A = 31
      ∧ round ((1 / 8 : ℚ) * 255) = 32 := by
  refine ⟨by norm_num, by norm_num, ?_, ?_⟩
  · decide!
  · norm_num [round_eq]

/-- C9, amended: for a layer opacity `o` with `0 <= o < 1` both render methods draw through the
uniform mask `layerMask`, whose value is `floor(o * 255)`: `o * 255` with its fractional part
dropped, at most 254. -/
theorem mask_truncated (layer : ObjectGroup) (dst : Canvas) (pos : Rectangle) (img : Image)
    (h0 : 0 ≤ layer.Opacity) (h1 : layer.Opacity < 1) :
    composite layer dst pos img
        = DrawMask dst pos img img.Bounds.Min (some (layerMask layer)) (layerMask layer).Bounds.Min
      ∧ ((layerMask layer).A : Int) = ⌊layer.Opacity * 255⌋
      ∧ (layerMask layer).A ≤ 254 := by
  have hnn : (0 : ℚ) ≤ layer.Opacity * 255 := by positivity
  have hf0 : 0 ≤ ⌊layer.Opacity * 255⌋ := Int.floor_nonneg.mpr hnn
  have hf1 : ⌊layer.Opacity * 255⌋ < 255 := by
    rw [Int.floor_lt]; push_cast; linarith
  have hA : ((layerMask layer).A : Int) = ⌊layer.Opacity * 255⌋ := by
    simp only [layerMask, NewUniform, toUint8, toInt_eq_floor hnn (by linarith)]
    rw [Int.toNat_of_nonneg (Int.emod_nonneg _ (by norm_num))]
    exact Int.emod_eq_of_lt hf0 (by omega)
  refine ⟨by simp [composite, h1], hA, ?_⟩
  omega

/-- Witness for C9, amended: at opacity 1/8 the mask value is `floor(31.875) = 31`. -/
theorem mask_truncated_witness :
    ((layerMask { Visible := true, Opacity := 1 / 8, Objects := [] }).A : Int)
      = ⌊(1 / 8 : ℚ) * 255⌋ :=
  (mask_truncated { Visible := true, Opacity := 1 / 8, Objects := [] } (blankCanvas 1 1) ZR
    emptyImage (by norm_num) (by norm_num)).2.1

/-- C6, the code at the failing input: the first visible group fails with the lookup error of
GID 9, yet `RenderVisibleGroups` returns `nil` and has gone on to composite the object of the
second group (the canvas pixel `(0, 0)` has turned red). -/
theorem renderVisibleGroups_drops_error :
    (_renderGroup demoEnv (demoRenderer [brokenGroup, soundGroup] []) brokenGroup).2.2
        = some "tiled: invalid tile GID"
      ∧ (RenderVisibleGroups demoEnv (demoRenderer [brokenGroup, soundGroup] [])).2 = none
      ∧ (demoRenderer [brokenGroup, soundGroup] []).Result.Pix 0 0
        = { R := 0, G := 0, B := 0, A := 0 }
      ∧ (RenderVisibleGroups demoEnv (demoRenderer [brokenGroup, soundGroup] [])).1.Result.Pix 0 0
        = { R := 255, G := 0, B := 0, A := 255 } := by
  refine ⟨by decide!, rfl, rfl, by decide!⟩

end GoTiled
